import Mathlib

/-!
# SingleLinkedList (single-linked-list.h): a shallow embedding

The C++ class keeps its elements in heap nodes linked by raw pointers, with a
sentinel node `head_` stored inside the list object.  The embedding keeps that
shape:

* the free store is a table of cells, a cell's index being its address;
  `new` appends a cell (and throws when the store is exhausted), `delete`
  empties it, and reading an emptied cell is a fault;
* list objects live in a second table; an object's index is its identity
  (`this`), and `NodePtr.head l` is the address of the sentinel of object `l`;
* `size_t` arithmetic is arithmetic modulo `2 ^ 64`;
* every method is a function from the machine state to an outcome: a normal
  return, a propagating exception (with the state it leaves behind), or a
  fault (failed assertion, null or dangling dereference: undefined behaviour
  in C++);
* loops whose termination depends on the shape of the store take a fuel
  argument and report `Fault.outOfFuel` when it is used up;
* copying a value of the element type is total: the one step that can throw
  is `new`, which stands for every failure to create a node.
-/

namespace SLL

/-- Largest value of `size_t`. -/
def SIZE_MAX : Nat := 2 ^ 64 - 1

/-- A `Node*`: null, the address of the sentinel `head_` of list object `l`,
or the address of a node of the free store. -/
inductive NodePtr where
  | null
  | head (l : Nat)
  | node (a : Nat)
deriving DecidableEq, Repr

/-- The struct `Node`: a value and the link to the next node. -/
structure Node (α : Type) where
  value : α
  next_node : NodePtr
deriving DecidableEq, Repr

/-- The data members of a `SingleLinkedList` object. -/
structure SingleLinkedList (α : Type) where
  head_ : Node α
  size_ : Nat
deriving DecidableEq, Repr

/-- The class `BasicIterator`: a wrapped node pointer. -/
structure BasicIterator where
  node_ : NodePtr
deriving DecidableEq, Repr

/-- The machine state: the free store, the table of list objects and the
number of cells the free store can hand out in total. -/
structure Machine (α : Type) where
  nodes : List (Option (Node α))
  lists : List (Option (SingleLinkedList α))
  capacity : Nat
deriving DecidableEq, Repr

/-- What stops a run that C++ leaves undefined (or that the model cannot finish). -/
inductive Fault where
  | nullDeref
  | dangling
  | assertFailed
  | badDelete
  | outOfBounds
  | outOfFuel
deriving DecidableEq, Repr

/-- Outcome of a method: normal return with a result, an exception that
propagates to the caller (the state is the one the caller observes), or a fault. -/
inductive Res (σ ρ : Type) where
  | ok (s : σ) (r : ρ)
  | thrown (s : σ)
  | fault (f : Fault)
deriving DecidableEq, Repr

deriving instance DecidableEq for Except

/-- Content of cell `i` of a table; `none` when the cell was never created or
has been released. -/
def cellAt {β : Type} (xs : List (Option β)) (i : Nat) : Option β :=
  (xs[i]?).join

/-- `++x` on a `size_t`. -/
def incSize (x : Nat) : Nat := (x + 1) % 2 ^ 64

/-- `--x` on a `size_t`. -/
def decSize (x : Nat) : Nat := (x + (2 ^ 64 - 1)) % 2 ^ 64

/-! ## Memory primitives -/

/-- Read `*p`. -/
def readNode {α : Type} (s : Machine α) (p : NodePtr) : Except Fault (Node α) :=
  match p with
  | .null => .error .nullDeref
  | .head l =>
    match cellAt s.lists l with
    | some o => .ok o.head_
    | none => .error .dangling
  | .node a =>
    match cellAt s.nodes a with
    | some n => .ok n
    | none => .error .dangling

/-- The assignment `p->next_node = q`. -/
def writeNext {α : Type} (s : Machine α) (p q : NodePtr) : Except Fault (Machine α) :=
  match p with
  | .null => .error .nullDeref
  | .head l =>
    match cellAt s.lists l with
    | some o =>
      .ok { s with lists := s.lists.set l (some { o with head_ := { o.head_ with next_node := q } }) }
    | none => .error .dangling
  | .node a =>
    match cellAt s.nodes a with
    | some n => .ok { s with nodes := s.nodes.set a (some { n with next_node := q }) }
    | none => .error .dangling

/-- The expression `new Node(value, next)`: `none` when it throws. -/
def newNode {α : Type} (s : Machine α) (value : α) (next : NodePtr) :
    Option (Machine α × NodePtr) :=
  if s.nodes.length < s.capacity then
    some ({ s with nodes := s.nodes ++ [some ⟨value, next⟩] }, .node s.nodes.length)
  else none

/-- The statement `delete p` (a no-op on the null pointer). -/
def deleteNode {α : Type} (s : Machine α) (p : NodePtr) : Except Fault (Machine α) :=
  match p with
  | .null => .ok s
  | .head _ => .error .badDelete
  | .node a =>
    match cellAt s.nodes a with
    | some _ => .ok { s with nodes := s.nodes.set a none }
    | none => .error .dangling

/-- Read the member `size_` of object `this`. -/
def readSize {α : Type} (s : Machine α) (this : Nat) : Except Fault Nat :=
  match cellAt s.lists this with
  | some o => .ok o.size_
  | none => .error .dangling

/-- Store `f size_` into the member `size_` of object `this`. -/
def updSize {α : Type} (s : Machine α) (this : Nat) (f : Nat → Nat) :
    Except Fault (Machine α) :=
  match cellAt s.lists this with
  | some o => .ok { s with lists := s.lists.set this (some { o with size_ := f o.size_ }) }
  | none => .error .dangling

/-! ## BasicIterator -/

/-- The `operator++()` of an iterator: asserts the iterator references a node. -/
def preIncrement {α : Type} (s : Machine α) (it : BasicIterator) :
    Except Fault BasicIterator :=
  if it.node_ = .null then .error .assertFailed
  else
    match readNode s it.node_ with
    | .ok n => .ok ⟨n.next_node⟩
    | .error f => .error f

/-- The `operator++(int)` of an iterator: returns the advanced iterator and
the returned old value. -/
def postIncrement {α : Type} (s : Machine α) (it : BasicIterator) :
    Except Fault (BasicIterator × BasicIterator) :=
  let old_node_ := it.node_
  if it.node_ ≠ .null then
    match readNode s it.node_ with
    | .ok n => .ok (⟨n.next_node⟩, ⟨old_node_⟩)
    | .error f => .error f
  else .ok (⟨it.node_⟩, ⟨old_node_⟩)

/-- The `operator*` of an iterator. -/
def deref {α : Type} (s : Machine α) (it : BasicIterator) : Except Fault α :=
  if it.node_ = .null then .error .assertFailed
  else
    match readNode s it.node_ with
    | .ok n => .ok n.value
    | .error f => .error f

/-! ## SingleLinkedList: iterators into the list -/

/-- The methods `begin()` and `cbegin()`. -/
def begin {α : Type} (s : Machine α) (this : Nat) : Except Fault BasicIterator :=
  match readNode s (.head this) with
  | .ok h => .ok ⟨h.next_node⟩
  | .error f => .error f

/-- The loop `for (; it.node_ != nullptr; ++it) {}` of `end()`. -/
def endLoop {α : Type} (s : Machine α) : Nat → BasicIterator → Except Fault BasicIterator
  | 0, _ => .error .outOfFuel
  | fuel + 1, it =>
    if it.node_ ≠ .null then
      match preIncrement s it with
      | .ok it1 => endLoop s fuel it1
      | .error f => .error f
    else .ok it

/-- The methods `end()` and `cend()`. -/
def end_ {α : Type} (s : Machine α) (this : Nat) (fuel : Nat) : Except Fault BasicIterator :=
  match readNode s (.head this) with
  | .ok h => endLoop s fuel ⟨h.next_node⟩
  | .error f => .error f

/-- The methods `before_begin()` and `cbefore_begin()`. -/
def before_begin {α : Type} (s : Machine α) (this : Nat) : Except Fault BasicIterator :=
  match cellAt s.lists this with
  | some _ => .ok ⟨.head this⟩
  | none => .error .dangling

/-- The method `GetSize()`. -/
def GetSize {α : Type} (s : Machine α) (this : Nat) : Except Fault Nat :=
  readSize s this

/-- The method `IsEmpty()`. -/
def IsEmpty {α : Type} (s : Machine α) (this : Nat) : Except Fault Bool :=
  match readSize s this with
  | .ok n => .ok (n == 0)
  | .error f => .error f

/-! ## SingleLinkedList: construction and destruction of objects -/

/-- Storage for a new list object whose members take their default
initialisers: `head_ = Node()` and `size_ = 0`.  Returns the new state and the
identity of the object. -/
def construct {α : Type} [Inhabited α] (s : Machine α) : Machine α × Nat :=
  ({ s with lists := s.lists ++ [some ⟨⟨default, .null⟩, 0⟩] }, s.lists.length)

/-- The storage of object `this` ends. -/
def release {α : Type} (s : Machine α) (this : Nat) : Machine α :=
  { s with lists := s.lists.set this none }

/-- The default constructor `SingleLinkedList() = default`. -/
def defaultConstruct {α : Type} [Inhabited α] (s : Machine α) : Res (Machine α) Nat :=
  let (s1, this) := construct s
  .ok s1 this

/-! ## SingleLinkedList: element operations -/

/-- The method `PushFront(value)`. -/
def PushFront {α : Type} (s : Machine α) (this : Nat) (value : α) : Res (Machine α) Unit :=
  -- Node before; before.next_node = head_.next_node;   (a local, not used again)
  match readNode s (.head this) with
  | .error f => .fault f
  | .ok h =>
    -- new Node(value, head_.next_node)
    match newNode s value h.next_node with
    | none => .thrown s
    | some (s1, p) =>
      -- head_.next_node = ...
      match writeNext s1 (.head this) p with
      | .error f => .fault f
      | .ok s2 =>
        -- ++size_
        match updSize s2 this incSize with
        | .error f => .fault f
        | .ok s3 => .ok s3 ()

/-- The loop `while (head_.next_node->next_node != nullptr) { ... }` of `Clear()`. -/
def ClearLoop {α : Type} (this : Nat) : Nat → Machine α → Res (Machine α) Unit
  | 0, _ => .fault .outOfFuel
  | fuel + 1, s =>
    match readNode s (.head this) with
    | .error f => .fault f
    | .ok h =>
      match readNode s h.next_node with
      | .error f => .fault f
      | .ok first =>
        if first.next_node ≠ .null then
          -- Node name; name.next_node = head_.next_node->next_node;
          let name_next := first.next_node
          -- delete head_.next_node;
          match deleteNode s h.next_node with
          | .error f => .fault f
          | .ok s1 =>
            -- head_.next_node = name.next_node;
            match writeNext s1 (.head this) name_next with
            | .error f => .fault f
            | .ok s2 =>
              -- --size_;
              match updSize s2 this decSize with
              | .error f => .fault f
              | .ok s3 => ClearLoop this fuel s3
        else .ok s ()

/-- The method `Clear()`. -/
def Clear {α : Type} (s : Machine α) (this : Nat) (fuel : Nat) : Res (Machine α) Unit :=
  match readNode s (.head this) with
  | .error f => .fault f
  | .ok h =>
    if h.next_node ≠ .null then
      match ClearLoop this fuel s with
      | .fault f => .fault f
      | .thrown s1 => .thrown s1
      | .ok s1 _ =>
        -- delete head_.next_node;
        match readNode s1 (.head this) with
        | .error f => .fault f
        | .ok h1 =>
          match deleteNode s1 h1.next_node with
          | .error f => .fault f
          | .ok s2 =>
            -- head_.next_node = nullptr;
            match writeNext s2 (.head this) .null with
            | .error f => .fault f
            | .ok s3 =>
              -- --size_;
              match updSize s3 this decSize with
              | .error f => .fault f
              | .ok s4 => .ok s4 ()
    else .ok s ()

/-- The destructor `~SingleLinkedList() { Clear(); }`, after which the storage
of the object ends. -/
def destroy {α : Type} (s : Machine α) (this : Nat) (fuel : Nat) : Res (Machine α) Unit :=
  match Clear s this fuel with
  | .fault f => .fault f
  | .thrown s1 => .thrown s1
  | .ok s1 _ => .ok (release s1 this) ()

/-- The method `InsertAfter(pos, value)`. -/
def InsertAfter {α : Type} (s : Machine α) (this : Nat) (pos : BasicIterator) (value : α) :
    Res (Machine α) BasicIterator :=
  -- Node* old_pos = pos.node_;
  let old_pos := pos.node_
  -- new Node(value, old_pos->next_node)
  match readNode s old_pos with
  | .error f => .fault f
  | .ok n =>
    match newNode s value n.next_node with
    | none => .thrown s
    | some (s1, p) =>
      -- pos.node_->next_node = ...
      match writeNext s1 pos.node_ p with
      | .error f => .fault f
      | .ok s2 =>
        -- ++size_;
        match updSize s2 this incSize with
        | .error f => .fault f
        | .ok s3 =>
          -- return Iterator(old_pos->next_node);
          match readNode s3 old_pos with
          | .error f => .fault f
          | .ok n1 => .ok s3 ⟨n1.next_node⟩

/-- The method `PopFront()`. -/
def PopFront {α : Type} (s : Machine α) (this : Nat) : Res (Machine α) Unit :=
  -- Node* deleting_element = begin().node_->next_node;
  match begin s this with
  | .error f => .fault f
  | .ok b =>
    match readNode s b.node_ with
    | .error f => .fault f
    | .ok first =>
      let deleting_element := first.next_node
      -- delete begin().node_;
      match deleteNode s b.node_ with
      | .error f => .fault f
      | .ok s1 =>
        -- head_.next_node = deleting_element;
        match writeNext s1 (.head this) deleting_element with
        | .error f => .fault f
        | .ok s2 =>
          -- --size_;
          match updSize s2 this decSize with
          | .error f => .fault f
          | .ok s3 => .ok s3 ()

/-- The method `EraseAfter(pos)`. -/
def EraseAfter {α : Type} (s : Machine α) (this : Nat) (pos : BasicIterator) :
    Res (Machine α) BasicIterator :=
  -- assert(!IsEmpty());
  match IsEmpty s this with
  | .error f => .fault f
  | .ok true => .fault .assertFailed
  | .ok false =>
    -- Node* deleting_element = pos.node_->next_node;
    match readNode s pos.node_ with
    | .error f => .fault f
    | .ok n =>
      let deleting_element := n.next_node
      -- pos.node_->next_node = deleting_element->next_node;
      match readNode s deleting_element with
      | .error f => .fault f
      | .ok d =>
        match writeNext s pos.node_ d.next_node with
        | .error f => .fault f
        | .ok s1 =>
          -- delete deleting_element;
          match deleteNode s1 deleting_element with
          | .error f => .fault f
          | .ok s2 =>
            -- --size_;
            match updSize s2 this decSize with
            | .error f => .fault f
            | .ok s3 =>
              -- return Iterator(pos.node_->next_node);
              match readNode s3 pos.node_ with
              | .error f => .fault f
              | .ok n1 => .ok s3 ⟨n1.next_node⟩

/-- The method `swap(other)`: two `std::swap` calls, each a read of both
operands followed by the two stores. -/
def swap {α : Type} (s : Machine α) (this other : Nat) : Res (Machine α) Unit :=
  -- std::swap(head_.next_node, other.head_.next_node);
  match readNode s (.head this), readNode s (.head other) with
  | .ok a, .ok b =>
    match writeNext s (.head this) b.next_node with
    | .error f => .fault f
    | .ok s1 =>
      match writeNext s1 (.head other) a.next_node with
      | .error f => .fault f
      | .ok s2 =>
        -- std::swap(size_, other.size_);
        match readSize s2 this, readSize s2 other with
        | .ok m, .ok n =>
          match updSize s2 this (fun _ => n) with
          | .error f => .fault f
          | .ok s3 =>
            match updSize s3 other (fun _ => m) with
            | .error f => .fault f
            | .ok s4 => .ok s4 ()
        | .error f, _ => .fault f
        | _, .error f => .fault f
  | .error f, _ => .fault f
  | _, .error f => .fault f

/-- The free function `swap(lhs, rhs)`. -/
def swapFree {α : Type} (s : Machine α) (lhs rhs : Nat) : Res (Machine α) Unit :=
  swap s lhs rhs

/-! ## SingleLinkedList: the other constructors and assignment -/

/-- The loop `for (auto iter = values.end() - 1; iter > values.begin(); --iter)`
of the initializer-list constructor; the first argument is the offset of
`iter` from `values.begin()`. -/
def initLoop {α : Type} (this : Nat) (values : List α) : Nat → Machine α → Res (Machine α) Unit
  | 0, s => .ok s ()
  | i + 1, s =>
    -- PushFront(*iter);
    match values[i + 1]? with
    | none => .fault .outOfBounds
    | some v =>
      match PushFront s this v with
      | .fault f => .fault f
      | .thrown s1 => .thrown s1
      | .ok s1 _ => initLoop this values i s1

/-- The constructor `SingleLinkedList(std::initializer_list<Type> values)`.
The offset of `values.end() - 1` is `values.size() - 1`, which is `-1` for an
empty sequence; the loop then does not run.  An exception leaves the
constructor, so the object never comes to life. -/
def initConstruct {α : Type} [Inhabited α] (s : Machine α) (values : List α) :
    Res (Machine α) Nat :=
  let (s0, this) := construct s
  let iter : Int := (values.length : Int) - 1
  match initLoop this values iter.toNat s0 with
  | .fault f => .fault f
  | .thrown s1 => .thrown (release s1 this)
  | .ok s1 _ =>
    -- PushFront(*values.begin());
    match values[0]? with
    | none => .fault .outOfBounds
    | some v =>
      match PushFront s1 this v with
      | .fault f => .fault f
      | .thrown s2 => .thrown (release s2 this)
      | .ok s2 _ => .ok s2 this

/-- The range-based loop `for (auto iter : other) { ... }` of the copy
constructor: `it` walks the temporary, `b` walks `other`, `e` is `other.end()`. -/
def copyLoop {α : Type} (tmp : Nat) (e : BasicIterator) :
    Nat → Machine α → BasicIterator → BasicIterator → Res (Machine α) Unit
  | 0, _, _, _ => .fault .outOfFuel
  | fuel + 1, s, it, b =>
    if b.node_ ≠ e.node_ then
      -- auto iter = *__begin;
      match deref s b with
      | .error f => .fault f
      | .ok iter =>
        -- it.node_->next_node = new Node(iter, nullptr);
        match newNode s iter .null with
        | none => .thrown s
        | some (s1, p) =>
          match writeNext s1 it.node_ p with
          | .error f => .fault f
          | .ok s2 =>
            -- ++it;
            match preIncrement s2 it with
            | .error f => .fault f
            | .ok it1 =>
              -- ++tmp.size_;
              match updSize s2 tmp incSize with
              | .error f => .fault f
              | .ok s3 =>
                -- ++__begin;
                match preIncrement s3 b with
                | .error f => .fault f
                | .ok b1 => copyLoop tmp e fuel s3 it1 b1
    else .ok s ()

/-- The copy constructor `SingleLinkedList(const SingleLinkedList& other)`.
Returns the identity of the new object.  When an exception leaves the loop the
temporary is destroyed and the object under construction never comes to life. -/
def copyConstruct {α : Type} [Inhabited α] (s : Machine α) (other : Nat) (fuel : Nat) :
    Res (Machine α) Nat :=
  let (s0, this) := construct s
  -- assert(size_ == 0 && head_.next_node == nullptr);
  match cellAt s0.lists this with
  | none => .fault .dangling
  | some o =>
    if ¬ (o.size_ = 0 ∧ o.head_.next_node = .null) then .fault .assertFailed
    else
      -- SingleLinkedList tmp;
      let (s1, tmp) := construct s0
      -- auto it = tmp.before_begin();
      match before_begin s1 tmp with
      | .error f => .fault f
      | .ok it =>
        match begin s1 other, end_ s1 other fuel with
        | .error f, _ => .fault f
        | _, .error f => .fault f
        | .ok b, .ok e =>
          match copyLoop tmp e fuel s1 it b with
          | .fault f => .fault f
          | .thrown s2 =>
            match destroy s2 tmp fuel with
            | .ok s3 _ => .thrown (release s3 this)
            | .thrown s3 => .thrown s3
            | .fault f => .fault f
          | .ok s2 _ =>
            -- if (!tmp.IsEmpty()) { swap(tmp); }
            match IsEmpty s2 tmp with
            | .error f => .fault f
            | .ok emp =>
              match (if !emp then swap s2 this tmp else .ok s2 ()) with
              | .fault f => .fault f
              | .thrown s3 => .thrown s3
              | .ok s3 _ =>
                -- tmp goes out of scope
                match destroy s3 tmp fuel with
                | .fault f => .fault f
                | .thrown s4 => .thrown s4
                | .ok s4 _ => .ok s4 this

/-- The copy assignment `operator=(const SingleLinkedList& rhs)`. -/
def assign {α : Type} [Inhabited α] (s : Machine α) (this rhs : Nat) (fuel : Nat) :
    Res (Machine α) Unit :=
  match IsEmpty s rhs with
  | .error f => .fault f
  | .ok true =>
    -- Clear(); return *this;
    Clear s this fuel
  | .ok false =>
    if this ≠ rhs then
      -- auto rhs_copy(rhs);
      match copyConstruct s rhs fuel with
      | .fault f => .fault f
      | .thrown s1 => .thrown s1
      | .ok s1 rhs_copy =>
        -- swap(rhs_copy);
        match swap s1 this rhs_copy with
        | .fault f => .fault f
        | .thrown s2 => .thrown s2
        | .ok s2 _ =>
          -- rhs_copy goes out of scope
          destroy s2 rhs_copy fuel
    else .ok s ()

/-! ## Observing a list the way a client does -/

/-- The client loop `for (it = begin(); it != end(); ++it) out.push_back(*it)`,
with `e` the value of `end()`. -/
def collect {α : Type} (s : Machine α) (e : BasicIterator) :
    Nat → BasicIterator → Except Fault (List α)
  | 0, _ => .error .outOfFuel
  | fuel + 1, it =>
    if it.node_ ≠ e.node_ then
      match deref s it with
      | .error f => .error f
      | .ok v =>
        match preIncrement s it with
        | .error f => .error f
        | .ok it1 =>
          match collect s e fuel it1 with
          | .error f => .error f
          | .ok vs => .ok (v :: vs)
    else .ok []

/-- The values met when iterating list `this` from `begin()` to `end()`. -/
def elements {α : Type} (s : Machine α) (this : Nat) (fuel : Nat) : Except Fault (List α) :=
  match begin s this, end_ s this fuel with
  | .ok b, .ok e => collect s e fuel b
  | .error f, _ => .error f
  | _, .error f => .error f

/-- The iterator obtained from `before_begin()` by `i` pre-increments:
position `0` is the sentinel, position `k` the `k`-th element. -/
def position {α : Type} (s : Machine α) (this : Nat) : Nat → Except Fault BasicIterator
  | 0 => before_begin s this
  | i + 1 =>
    match position s this i with
    | .ok it => preIncrement s it
    | .error f => .error f

/-- A machine with an empty free store, no list objects and room for `cap` nodes. -/
def Machine.empty (α : Type) (cap : Nat) : Machine α := ⟨[], [], cap⟩

/-! ## Well-formed states -/

/-- The free store never holds more cells than it can hand out, and the
addresses fit a `size_t`. -/
def Machine.WF {α : Type} (s : Machine α) : Prop :=
  s.nodes.length ≤ s.capacity ∧ s.capacity ≤ SIZE_MAX

/-- A segment of linked nodes: starting from pointer `p`, the cells at the
addresses listed in `c` hold the listed values, each linked to the next, and
the link of the last one is `q`. -/
def Seg {α : Type} (nodes : List (Option (Node α))) :
    NodePtr → List (Nat × α) → NodePtr → Prop
  | p, [], q => p = q
  | p, (a, v) :: rest, q =>
    p = .node a ∧
      match cellAt nodes a with
      | some n => n.value = v ∧ Seg nodes n.next_node rest q
      | none => False

/-- A chain: a segment that ends with the null link. -/
def Chain {α : Type} (nodes : List (Option (Node α))) (p : NodePtr) (c : List (Nat × α)) :
    Prop :=
  Seg nodes p c .null

/-- List object `this` is alive, the nodes reachable from its sentinel are
exactly those listed in `c` (address and value, in order), and `size_` counts
them. -/
def Repr {α : Type} (s : Machine α) (this : Nat) (c : List (Nat × α)) : Prop :=
  match cellAt s.lists this with
  | some o => Chain s.nodes o.head_.next_node c ∧ o.size_ = c.length
  | none => False

/-- The pointer held by position `i` of a list with nodes `cs`: the sentinel
for `i = 0`, the `i`-th node otherwise. -/
def posPtr {α : Type} (this : Nat) (cs : List (Nat × α)) (i : Nat) : NodePtr :=
  match i with
  | 0 => .head this
  | k + 1 =>
    match cs[k]? with
    | some (a, _) => .node a
    | none => .null

/-- The pointer to the first node of `c`, null for an empty `c`. -/
def firstPtr {α : Type} (c : List (Nat × α)) : NodePtr :=
  match c with
  | [] => .null
  | (a, _) :: _ => .node a

/-- Whether a segment holds can be computed. -/
instance Seg.decidable {α : Type} [DecidableEq α] (nodes : List (Option (Node α))) :
    ∀ (c : List (Nat × α)) (p q : NodePtr), Decidable (Seg nodes p c q)
  | [], p, q => by unfold Seg; infer_instance
  | (a, v) :: rest, p, q => by
    unfold Seg
    cases h : cellAt nodes a with
    | none => exact isFalse (by simp)
    | some n =>
      have := Seg.decidable nodes rest n.next_node q
      simp only
      infer_instance

/-- Whether a chain holds can be computed. -/
instance Chain.decidable {α : Type} [DecidableEq α] (nodes : List (Option (Node α)))
    (p : NodePtr) (c : List (Nat × α)) : Decidable (Chain nodes p c) :=
  Seg.decidable nodes c p .null

/-- Whether a list object represents a given node list can be computed. -/
instance Repr.decidable {α : Type} [DecidableEq α] (s : Machine α) (this : Nat)
    (c : List (Nat × α)) : Decidable (Repr s this c) := by
  unfold Repr
  cases cellAt s.lists this with
  | none => exact isFalse (by simp)
  | some o => simp only; infer_instance

/-- Whether a machine state is well formed can be computed. -/
instance Machine.WF.decidable {α : Type} (s : Machine α) : Decidable s.WF := by
  unfold Machine.WF; infer_instance

/-- The addresses of the nodes of a chain. -/
def addrs {α : Type} (c : List (Nat × α)) : List Nat := c.map Prod.fst

/-- The values of the nodes of a chain. -/
def vals {α : Type} (c : List (Nat × α)) : List α := c.map Prod.snd

/-- The footprint of a method call on list `this`: the list had nodes `c` and
has nodes `c'` afterwards, the state stays well formed, no other list object
is touched, cells outside `c` keep their content, and a node of `c'` is a node
of `c` or a cell created by the call. -/
def Effect {α : Type} (s s' : Machine α) (this : Nat) (c c' : List (Nat × α)) : Prop :=
  Repr s' this c' ∧ s'.WF ∧ s'.capacity = s.capacity ∧
    s.nodes.length ≤ s'.nodes.length ∧ s'.lists.length = s.lists.length ∧
    (∀ l, l ≠ this → cellAt s'.lists l = cellAt s.lists l) ∧
    (∀ a, a < s.nodes.length → a ∉ addrs c → cellAt s'.nodes a = cellAt s.nodes a) ∧
    (∀ a, a ∈ addrs c' → a ∈ addrs c ∨ s.nodes.length ≤ a)

/-! ## Client programs used to state the properties -/

/-- The client sequence `list.PushFront(x1); ...; list.PushFront(xn);`. -/
def pushAll {α : Type} (this : Nat) : List α → Machine α → Res (Machine α) Unit
  | [], s => .ok s ()
  | x :: xs, s =>
    match PushFront s this x with
    | .fault f => .fault f
    | .thrown s1 => .thrown s1
    | .ok s1 _ => pushAll this xs s1

/-- The footprint of a call that may also create list objects: as `Effect`,
except that the table of list objects may grow, every object beyond the old
table other than `this` being dead on return. -/
def Frame {α : Type} (s s' : Machine α) (this : Nat) (c c' : List (Nat × α)) : Prop :=
  Repr s' this c' ∧ s'.WF ∧ s'.capacity = s.capacity ∧
    s.nodes.length ≤ s'.nodes.length ∧ s.lists.length ≤ s'.lists.length ∧
    (∀ l, s.lists.length ≤ l → l ≠ this → cellAt s'.lists l = none) ∧
    (∀ l, l < s.lists.length → l ≠ this → cellAt s'.lists l = cellAt s.lists l) ∧
    (∀ a, a < s.nodes.length → a ∉ addrs c → cellAt s'.nodes a = cellAt s.nodes a) ∧
    (∀ a, a ∈ addrs c' → a ∈ addrs c ∨ s.nodes.length ≤ a)

/-! ## Concrete states used as worked examples -/

/-- The state after `SingleLinkedList<int> l{1, 2, 3};` on a machine with room
for ten nodes: list object `0` holds 1, 2, 3. -/
def demo3 : Machine Nat :=
  ⟨[some ⟨3, .null⟩, some ⟨2, .node 0⟩, some ⟨1, .node 1⟩], [some ⟨⟨0, .node 2⟩, 3⟩], 10⟩

/-- A state with two list objects: object `0` holds 1, 2 and object `1` holds 7. -/
def demoTwo : Machine Nat :=
  ⟨[some ⟨2, .null⟩, some ⟨1, .node 0⟩, some ⟨7, .null⟩],
    [some ⟨⟨0, .node 1⟩, 2⟩, some ⟨⟨0, .node 2⟩, 1⟩], 10⟩

/-- A state with one empty list object on a machine with room for ten nodes. -/
def demoEmpty : Machine Nat := (construct (Machine.empty Nat 10)).1

/-! ## Histories of calls -/

/-- One call on the lists of a machine.  Positions are given by their index:
the iterator is obtained from `before_begin()` of the same list by `i`
increments. -/
inductive Op (α : Type) where
  | construct
  | PushFront (l : Nat) (v : α)
  | PopFront (l : Nat)
  | InsertAfter (l : Nat) (i : Nat) (v : α)
  | EraseAfter (l : Nat) (i : Nat)
  | Clear (l : Nat)
  | swap (l r : Nat)
  | copyConstruct (src : Nat)
  | copyAssign (l r : Nat)

/-- Forget the value a call returns. -/
def Res.void {σ ρ : Type} : Res σ ρ → Res σ Unit
  | .ok s _ => .ok s ()
  | .thrown s => .thrown s
  | .fault f => .fault f

/-- Perform one call. -/
def step {α : Type} [Inhabited α] (fuel : Nat) (s : Machine α) : Op α → Res (Machine α) Unit
  | .construct => (defaultConstruct s).void
  | .PushFront l v => PushFront s l v
  | .PopFront l => PopFront s l
  | .InsertAfter l i v =>
    match position s l i with
    | .error f => .fault f
    | .ok pos => (InsertAfter s l pos v).void
  | .EraseAfter l i =>
    match position s l i with
    | .error f => .fault f
    | .ok pos => (EraseAfter s l pos).void
  | .Clear l => Clear s l fuel
  | .swap l r => swap s l r
  | .copyConstruct src => (copyConstruct s src fuel).void
  | .copyAssign l r => assign s l r fuel

/-- Perform a sequence of calls.  A call that throws leaves the state the
caller observes when it catches the exception, and the sequence goes on from
there; a fault ends the run. -/
def run {α : Type} [Inhabited α] (fuel : Nat) : List (Op α) → Machine α → Res (Machine α) Unit
  | [], s => .ok s ()
  | op :: ops, s =>
    match step fuel s op with
    | .ok s1 _ => run fuel ops s1
    | .thrown s1 => run fuel ops s1
    | .fault f => .fault f

/-- The invariant of a machine state: it is well formed, every live list
object owns a chain whose length is its `size_`, and distinct list objects own
disjoint chains. -/
def Inv {α : Type} (s : Machine α) : Prop :=
  s.WF ∧ ∃ ch : Nat → List (Nat × α),
    (∀ l, (cellAt s.lists l).isSome → Repr s l (ch l)) ∧
    (∀ l1 l2, l1 ≠ l2 → (cellAt s.lists l1).isSome → (cellAt s.lists l2).isSome →
      ∀ a, a ∈ addrs (ch l1) → a ∉ addrs (ch l2))

/-- A property holds of the state a call leaves, whether it returns or throws. -/
def Safe {α ρ : Type} (P : Machine α → Prop) : Res (Machine α) ρ → Prop
  | .ok s _ => P s
  | .thrown s => P s
  | .fault _ => True

/-- A history that uses every kind of call on two lists. -/
def demoOps : List (Op Nat) :=
  [.PushFront 0 1, .PushFront 0 2, .copyConstruct 0, .InsertAfter 1 1 5, .swap 0 1,
    .PopFront 0, .copyAssign 0 1, .EraseAfter 1 0, .Clear 1]

/-- The state in which `demoOps` ends: list `0` holds 2, 1 and list `1` is empty. -/
def demoEnd : Machine Nat :=
  ⟨[none, none, none, none, none, some ⟨2, .node 6⟩, some ⟨1, .null⟩],
    [some ⟨⟨0, .node 5⟩, 2⟩, some ⟨⟨0, .null⟩, 0⟩, none, none, none], 10⟩

/-! ## The remaining iterator and list methods -/

/-- The `operator==` of an iterator (both overloads): same node, or both none. -/
def BasicIterator.operator_eq (it rhs : BasicIterator) : Bool :=
  it.node_ == rhs.node_

/-- The `operator!=` of an iterator (both overloads). -/
def BasicIterator.operator_ne (it rhs : BasicIterator) : Bool :=
  it.node_ != rhs.node_

/-- The method `cbegin()`. -/
def cbegin {α : Type} (s : Machine α) (this : Nat) : Except Fault BasicIterator :=
  match readNode s (.head this) with
  | .ok h => .ok ⟨h.next_node⟩
  | .error f => .error f

/-- The method `cend()`: the same loop as in `end()`. -/
def cend {α : Type} (s : Machine α) (this : Nat) (fuel : Nat) : Except Fault BasicIterator :=
  match readNode s (.head this) with
  | .ok h => endLoop s fuel ⟨h.next_node⟩
  | .error f => .error f

/-! ## The standard algorithms the comparison operators call -/

/-- The library algorithm `std::equal(first1, last1, first2)` on list
iterators, as the C++ standard defines it:
`for (; first1 != last1; ++first1, ++first2) if (!(*first1 == *first2)) return false;`
`return true;`.  The second range has no end. -/
def std.equal {α : Type} [BEq α] (s : Machine α) (last1 : BasicIterator) :
    Nat → BasicIterator → BasicIterator → Except Fault Bool
  | 0, _, _ => .error .outOfFuel
  | fuel + 1, first1, first2 =>
    if first1.operator_ne last1 then
      -- if (!(*first1 == *first2)) return false;
      match deref s first1 with
      | .error f => .error f
      | .ok a =>
        match deref s first2 with
        | .error f => .error f
        | .ok b =>
          if !(a == b) then .ok false
          else
            -- ++first1, ++first2
            match preIncrement s first1 with
            | .error f => .error f
            | .ok i1 =>
              match preIncrement s first2 with
              | .error f => .error f
              | .ok i2 => std.equal s last1 fuel i1 i2
    else .ok true

/-- The library algorithm
`std::lexicographical_compare(first1, last1, first2, last2)` on list iterators,
as the C++ standard defines it:
`for (; first1 != last1 && first2 != last2; ++first1, ++first2) {`
`if (*first1 < *first2) return true; if (*first2 < *first1) return false; }`
`return first1 == last1 && first2 != last2;`. -/
def std.lexicographical_compare {α : Type} [LT α] [DecidableRel (α := α) (· < ·)]
    (s : Machine α) (last1 last2 : BasicIterator) :
    Nat → BasicIterator → BasicIterator → Except Fault Bool
  | 0, _, _ => .error .outOfFuel
  | fuel + 1, first1, first2 =>
    if first1.operator_ne last1 && first2.operator_ne last2 then
      match deref s first1 with
      | .error f => .error f
      | .ok a =>
        match deref s first2 with
        | .error f => .error f
        | .ok b =>
          -- if (*first1 < *first2) return true;
          if a < b then .ok true
          -- if (*first2 < *first1) return false;
          else if b < a then .ok false
          else
            -- ++first1, ++first2
            match preIncrement s first1 with
            | .error f => .error f
            | .ok i1 =>
              match preIncrement s first2 with
              | .error f => .error f
              | .ok i2 => std.lexicographical_compare s last1 last2 fuel i1 i2
    else .ok (first1.operator_eq last1 && first2.operator_ne last2)

/-! ## The free comparison operators -/

/-- The call `std::equal(lhs.begin(), lhs.end(), rhs.begin())`. -/
def equalCall {α : Type} [BEq α] (s : Machine α) (lhs rhs : Nat) (fuel : Nat) :
    Except Fault Bool :=
  match begin s lhs with
  | .error f => .error f
  | .ok b1 =>
    match end_ s lhs fuel with
    | .error f => .error f
    | .ok e1 =>
      match begin s rhs with
      | .error f => .error f
      | .ok b2 => std.equal s e1 fuel b1 b2

/-- The call
`std::lexicographical_compare(lhs.begin(), lhs.end(), rhs.begin(), rhs.end())`. -/
def lexCall {α : Type} [LT α] [DecidableRel (α := α) (· < ·)] (s : Machine α)
    (lhs rhs : Nat) (fuel : Nat) : Except Fault Bool :=
  match begin s lhs with
  | .error f => .error f
  | .ok b1 =>
    match end_ s lhs fuel with
    | .error f => .error f
    | .ok e1 =>
      match begin s rhs with
      | .error f => .error f
      | .ok b2 =>
        match end_ s rhs fuel with
        | .error f => .error f
        | .ok e2 => std.lexicographical_compare s e1 e2 fuel b1 b2

/-- The free `operator==` on lists. -/
def operator_eq {α : Type} [BEq α] (s : Machine α) (lhs rhs : Nat) (fuel : Nat) :
    Except Fault Bool :=
  equalCall s lhs rhs fuel

/-- The free `operator!=` on lists. -/
def operator_ne {α : Type} [BEq α] (s : Machine α) (lhs rhs : Nat) (fuel : Nat) :
    Except Fault Bool :=
  match equalCall s lhs rhs fuel with
  | .error f => .error f
  | .ok b => .ok (!b)

/-- The free `operator<` on lists. -/
def operator_lt {α : Type} [LT α] [DecidableRel (α := α) (· < ·)] (s : Machine α)
    (lhs rhs : Nat) (fuel : Nat) : Except Fault Bool :=
  lexCall s lhs rhs fuel

/-- The free `operator<=` on lists: `lexicographical_compare(..) || equal(..)`,
the right operand evaluated only when the left one is false. -/
def operator_le {α : Type} [BEq α] [LT α] [DecidableRel (α := α) (· < ·)] (s : Machine α)
    (lhs rhs : Nat) (fuel : Nat) : Except Fault Bool :=
  match lexCall s lhs rhs fuel with
  | .error f => .error f
  | .ok true => .ok true
  | .ok false => equalCall s lhs rhs fuel

/-- The free `operator>` on lists: the ranges of `rhs` come first. -/
def operator_gt {α : Type} [LT α] [DecidableRel (α := α) (· < ·)] (s : Machine α)
    (lhs rhs : Nat) (fuel : Nat) : Except Fault Bool :=
  lexCall s rhs lhs fuel

/-- The free `operator>=` on lists: `lexicographical_compare(rhs.., lhs..) ||
equal(lhs.begin(), lhs.end(), rhs.begin())`. -/
def operator_ge {α : Type} [BEq α] [LT α] [DecidableRel (α := α) (· < ·)] (s : Machine α)
    (lhs rhs : Nat) (fuel : Nat) : Except Fault Bool :=
  match lexCall s rhs lhs fuel with
  | .error f => .error f
  | .ok true => .ok true
  | .ok false => equalCall s lhs rhs fuel

/-! ## Comparisons of plain sequences, to state what the operators compute -/

/-- Every pair of elements at the same index compares equal with `==`. -/
def PairwiseEq {α : Type} [BEq α] (xs ys : List α) : Prop :=
  ∀ (i : Nat) (x y : α), xs[i]? = some x → ys[i]? = some y → (x == y) = true

/-- The lexicographic rule in the words of the specification: the two
sequences agree on their first `k` elements, and then either `xs` has ended
while `ys` goes on (`xs` is a strict prefix of `ys`), or the element of `xs` at
the first index where they differ is the smaller one. -/
def LexLess {α : Type} [LT α] (xs ys : List α) : Prop :=
  ∃ k, xs.take k = ys.take k ∧
    ((k = xs.length ∧ k < ys.length) ∨
      ∃ x y, xs[k]? = some x ∧ ys[k]? = some y ∧ x < y)

/-- What `std::equal` computes when the second sequence is at least as long as
the first: whether the pairs of elements at the same index all compare equal. -/
def pairsEqual {α : Type} [BEq α] : List α → List α → Bool
  | a :: as, b :: bs => (a == b) && pairsEqual as bs
  | _, _ => true

/-- What `std::lexicographical_compare` computes on two finite sequences. -/
def lexBefore {α : Type} [LT α] [DecidableRel (α := α) (· < ·)] : List α → List α → Bool
  | a :: as, b :: bs => if a < b then true else if b < a then false else lexBefore as bs
  | [], _ :: _ => true
  | _, [] => false

/-- A state with three list objects: object `0` holds 1, 2, object `1` holds
1, 2, 3 and object `2` holds 1, 2. -/
def demoCmp : Machine Nat :=
  ⟨[some ⟨2, .null⟩, some ⟨1, .node 0⟩,
      some ⟨3, .null⟩, some ⟨2, .node 2⟩, some ⟨1, .node 3⟩,
      some ⟨2, .null⟩, some ⟨1, .node 5⟩],
    [some ⟨⟨0, .node 1⟩, 2⟩, some ⟨⟨0, .node 4⟩, 3⟩, some ⟨⟨0, .node 6⟩, 2⟩], 10⟩

/-! ## Cells of a table -/

variable {α β : Type}

theorem cellAt_lt {xs : List (Option β)} {i : Nat} {v : β} (h : cellAt xs i = some v) :
    i < xs.length := by
  unfold cellAt at h
  by_contra hn
  rw [List.getElem?_eq_none (by omega)] at h
  simp at h

theorem cellAt_set_ne {xs : List (Option β)} {i j : Nat} (x : Option β) (h : i ≠ j) :
    cellAt (xs.set i x) j = cellAt xs j := by
  unfold cellAt
  rw [List.getElem?_set_ne h]

theorem cellAt_set_eq {xs : List (Option β)} {i : Nat} (x : Option β) (h : i < xs.length) :
    cellAt (xs.set i x) i = x := by
  unfold cellAt
  rw [List.getElem?_set_self h]
  simp

theorem cellAt_append_left {xs : List (Option β)} (ys : List (Option β)) {i : Nat}
    (h : i < xs.length) : cellAt (xs ++ ys) i = cellAt xs i := by
  unfold cellAt
  rw [List.getElem?_append_left h]

theorem cellAt_append_length (xs : List (Option β)) (x : Option β) :
    cellAt (xs ++ [x]) xs.length = x := by
  unfold cellAt
  simp

/-! ## Segments and chains -/

theorem seg_cons {nodes : List (Option (Node α))} {p q : NodePtr} {a : Nat} {v : α}
    {rest : List (Nat × α)} :
    Seg nodes p ((a, v) :: rest) q ↔
      p = .node a ∧ ∃ r, cellAt nodes a = some ⟨v, r⟩ ∧ Seg nodes r rest q := by
  unfold Seg
  constructor
  · rintro ⟨hp, h⟩
    refine ⟨hp, ?_⟩
    cases hc : cellAt nodes a with
    | none => rw [hc] at h; exact h.elim
    | some n =>
      rw [hc] at h
      obtain ⟨hv, hs⟩ := h
      refine ⟨n.next_node, ?_, ?_⟩
      · cases n; simp_all
      · unfold Seg at hs; exact hs
  · rintro ⟨hp, r, hc, hs⟩
    refine ⟨hp, ?_⟩
    rw [hc]
    refine ⟨rfl, ?_⟩
    unfold Seg
    exact hs
theorem seg_nil {nodes : List (Option (Node α))} {p q : NodePtr} :
    Seg nodes p [] q ↔ p = q := by
  unfold Seg; exact Iff.rfl

theorem Seg.congr_cells {nodes nodes' : List (Option (Node α))} {c : List (Nat × α)} {p q : NodePtr}
    (h : ∀ a ∈ addrs c, cellAt nodes' a = cellAt nodes a) (hs : Seg nodes p c q) :
    Seg nodes' p c q := by
  induction c generalizing p with
  | nil => exact seg_nil.2 (seg_nil.1 hs)
  | cons x rest ih =>
    obtain ⟨a, v⟩ := x
    obtain ⟨hp, r, hc, hr⟩ := seg_cons.1 hs
    refine seg_cons.2 ⟨hp, r, ?_, ih (fun b hb => h b ?_) hr⟩
    · rw [h a (by simp [addrs])]; exact hc
    · simp only [addrs, List.map_cons, List.mem_cons] at hb ⊢
      exact Or.inr hb

theorem seg_append {nodes : List (Option (Node α))} {c1 c2 : List (Nat × α)} {p q : NodePtr} :
    Seg nodes p (c1 ++ c2) q ↔ ∃ r, Seg nodes p c1 r ∧ Seg nodes r c2 q := by
  induction c1 generalizing p with
  | nil => simp [seg_nil]
  | cons x rest ih =>
    obtain ⟨a, v⟩ := x
    simp only [List.cons_append, seg_cons, ih]
    constructor
    · rintro ⟨hp, r, hc, r', h1, h2⟩
      exact ⟨r', ⟨hp, r, hc, h1⟩, h2⟩
    · rintro ⟨r', ⟨hp, r, hc, h1⟩, h2⟩
      exact ⟨hp, r, hc, r', h1, h2⟩

theorem Seg.lt {nodes : List (Option (Node α))} {c : List (Nat × α)} {p q : NodePtr}
    (hs : Seg nodes p c q) : ∀ a ∈ addrs c, a < nodes.length := by
  induction c generalizing p with
  | nil => intro a ha; simp [addrs] at ha
  | cons x rest ih =>
    obtain ⟨a, v⟩ := x
    obtain ⟨_, r, hc, hr⟩ := seg_cons.1 hs
    intro b hb
    simp only [addrs, List.map_cons, List.mem_cons] at hb
    rcases hb with rfl | hb
    · exact cellAt_lt hc
    · exact ih hr b hb

theorem Chain.unique {nodes : List (Option (Node α))} {c1 c2 : List (Nat × α)} {p : NodePtr}
    (h1 : Chain nodes p c1) (h2 : Chain nodes p c2) : c1 = c2 := by
  unfold Chain at h1 h2
  induction c1 generalizing p c2 with
  | nil =>
    cases c2 with
    | nil => rfl
    | cons y r2 =>
      obtain ⟨b, w⟩ := y
      have := seg_nil.1 h1
      have := (seg_cons.1 h2).1
      simp_all
  | cons x r1 ih =>
    obtain ⟨a, v⟩ := x
    obtain ⟨hp, r, hc, hr⟩ := seg_cons.1 h1
    cases c2 with
    | nil =>
      have := seg_nil.1 h2
      simp_all
    | cons y r2 =>
      obtain ⟨b, w⟩ := y
      obtain ⟨hp', r', hc', hr'⟩ := seg_cons.1 h2
      have hab : a = b := by rw [hp] at hp'; injection hp'
      subst hab
      rw [hc] at hc'
      simp only [Option.some.injEq, Node.mk.injEq] at hc'
      obtain ⟨rfl, rfl⟩ := hc'
      rw [ih hr hr']

theorem Chain.nodup {nodes : List (Option (Node α))} {c : List (Nat × α)} {p : NodePtr}
    (h : Chain nodes p c) : (addrs c).Nodup := by
  induction c generalizing p with
  | nil => simp [addrs]
  | cons x rest ih =>
    obtain ⟨a, v⟩ := x
    obtain ⟨hp, r, hc, hr⟩ := seg_cons.1 h
    have hrest : (addrs rest).Nodup := ih hr
    simp only [addrs, List.map_cons, List.nodup_cons]
    refine ⟨?_, hrest⟩
    intro hmem
    obtain ⟨⟨a', v'⟩, hx, ha'⟩ := List.mem_map.1 hmem
    simp only at ha'
    subst ha'
    obtain ⟨l1, l2, hsplit⟩ := List.append_of_mem hx
    rw [hsplit] at hr
    obtain ⟨r', _, h2⟩ := seg_append.1 hr
    have hp2 : r' = .node a' := (seg_cons.1 h2).1
    rw [hp2] at h2
    rw [hp] at h
    have := Chain.unique h h2
    have hlen := congrArg List.length this
    rw [hsplit] at hlen
    simp at hlen
    omega

theorem Chain.length_le {nodes : List (Option (Node α))} {c : List (Nat × α)} {p : NodePtr}
    (h : Chain nodes p c) : c.length ≤ nodes.length := by
  have hnd := h.nodup
  have hlt := Seg.lt h
  have hsub : (addrs c).toFinset ⊆ Finset.range nodes.length := by
    intro a ha
    simp only [List.mem_toFinset] at ha
    exact Finset.mem_range.2 (hlt a ha)
  have := Finset.card_le_card hsub
  rw [List.toFinset_card_of_nodup hnd, Finset.card_range] at this
  simpa [addrs] using this
/-! ## Reading a represented list -/

theorem repr_iff {s : Machine α} {this : Nat} {c : List (Nat × α)} :
    Repr s this c ↔
      ∃ o, cellAt s.lists this = some o ∧ Chain s.nodes o.head_.next_node c ∧
        o.size_ = c.length := by
  unfold Repr
  cases h : cellAt s.lists this with
  | none => simp
  | some o => simp

theorem chain_firstPtr {nodes : List (Option (Node α))} {p : NodePtr} {c : List (Nat × α)}
    (h : Chain nodes p c) : p = firstPtr c := by
  cases c with
  | nil => exact seg_nil.1 h
  | cons x rest => obtain ⟨a, v⟩ := x; exact (seg_cons.1 h).1

theorem endLoop_chain {s : Machine α} {p : NodePtr} {c : List (Nat × α)} {fuel : Nat}
    (h : Chain s.nodes p c) (hf : c.length < fuel) : endLoop s fuel ⟨p⟩ = .ok ⟨.null⟩ := by
  induction c generalizing p fuel with
  | nil =>
    obtain ⟨k, rfl⟩ : ∃ k, fuel = k + 1 := ⟨fuel - 1, by simp at hf; omega⟩
    have := seg_nil.1 h
    subst this
    simp [endLoop]
  | cons x rest ih =>
    obtain ⟨a, v⟩ := x
    obtain ⟨k, rfl⟩ : ∃ k, fuel = k + 1 := ⟨fuel - 1, by omega⟩
    obtain ⟨hp, r, hc, hr⟩ := seg_cons.1 h
    subst hp
    have hk : rest.length < k := by simp at hf; omega
    simp [endLoop, preIncrement, readNode, hc, ih hr hk]

theorem collect_chain {s : Machine α} {p : NodePtr} {c : List (Nat × α)} {fuel : Nat}
    (h : Chain s.nodes p c) (hf : c.length < fuel) :
    collect s ⟨.null⟩ fuel ⟨p⟩ = .ok (vals c) := by
  induction c generalizing p fuel with
  | nil =>
    obtain ⟨k, rfl⟩ : ∃ k, fuel = k + 1 := ⟨fuel - 1, by simp at hf; omega⟩
    have := seg_nil.1 h
    subst this
    simp [collect, vals]
  | cons x rest ih =>
    obtain ⟨a, v⟩ := x
    obtain ⟨k, rfl⟩ : ∃ k, fuel = k + 1 := ⟨fuel - 1, by omega⟩
    obtain ⟨hp, r, hc, hr⟩ := seg_cons.1 h
    subst hp
    have hk : rest.length < k := by simp at hf; omega
    simp [collect, deref, preIncrement, readNode, hc, ih hr hk, vals]

theorem elements_repr {s : Machine α} {this : Nat} {c : List (Nat × α)} {fuel : Nat}
    (h : Repr s this c) (hf : c.length < fuel) : elements s this fuel = .ok (vals c) := by
  obtain ⟨o, ho, hc, _⟩ := repr_iff.1 h
  simp [elements, begin, end_, readNode, ho, endLoop_chain hc hf, collect_chain hc hf]

theorem GetSize_repr {s : Machine α} {this : Nat} {c : List (Nat × α)}
    (h : Repr s this c) : GetSize s this = .ok c.length := by
  obtain ⟨o, ho, _, hn⟩ := repr_iff.1 h
  simp [GetSize, readSize, ho, hn]

theorem IsEmpty_repr {s : Machine α} {this : Nat} {c : List (Nat × α)}
    (h : Repr s this c) : IsEmpty s this = .ok (c.length == 0) := by
  obtain ⟨o, ho, _, hn⟩ := repr_iff.1 h
  simp [IsEmpty, readSize, ho, hn]

theorem begin_repr {s : Machine α} {this : Nat} {c : List (Nat × α)}
    (h : Repr s this c) : begin s this = .ok ⟨firstPtr c⟩ := by
  obtain ⟨o, ho, hc, _⟩ := repr_iff.1 h
  simp [begin, readNode, ho, chain_firstPtr hc]

theorem end_repr {s : Machine α} {this : Nat} {c : List (Nat × α)} {fuel : Nat}
    (h : Repr s this c) (hf : c.length < fuel) : end_ s this fuel = .ok ⟨.null⟩ := by
  obtain ⟨o, ho, hc, _⟩ := repr_iff.1 h
  simp [end_, readNode, ho, endLoop_chain hc hf]

/-- The link stored in the node (or sentinel) at position `i`. -/
theorem readNode_posPtr {s : Machine α} {this : Nat} {cs : List (Nat × α)} {i : Nat}
    (h : Repr s this cs) (hi : i ≤ cs.length) :
    ∃ n, readNode s (posPtr this cs i) = .ok n ∧ n.next_node = firstPtr (cs.drop i) ∧
      Chain s.nodes n.next_node (cs.drop i) := by
  obtain ⟨o, ho, hc, _⟩ := repr_iff.1 h
  cases i with
  | zero =>
    refine ⟨o.head_, by simp [posPtr, readNode, ho], ?_, by simpa using hc⟩
    simpa using chain_firstPtr hc
  | succ k =>
    have hk : k < cs.length := hi
    have hsplit : cs = cs.take k ++ (cs[k] :: cs.drop (k + 1)) := by
      rw [List.getElem_cons_drop, List.take_append_drop]
    rcases hx : cs[k] with ⟨a, v⟩
    rw [hx] at hsplit
    have hc' := hc
    rw [hsplit] at hc'
    obtain ⟨r, _, h2⟩ := seg_append.1 hc'
    obtain ⟨_, q, hcell, hq⟩ := seg_cons.1 h2
    refine ⟨⟨v, q⟩, ?_, chain_firstPtr hq, hq⟩
    simp [posPtr, List.getElem?_eq_getElem hk, hx, readNode, hcell]

theorem position_repr {s : Machine α} {this : Nat} {cs : List (Nat × α)} {i : Nat}
    (h : Repr s this cs) (hi : i ≤ cs.length) :
    position s this i = .ok ⟨posPtr this cs i⟩ := by
  induction i with
  | zero =>
    obtain ⟨o, ho, _, _⟩ := repr_iff.1 h
    simp [position, before_begin, ho, posPtr]
  | succ k ih =>
    have hk : k < cs.length := hi
    obtain ⟨n, hn, hnx, _⟩ := readNode_posPtr h (Nat.le_of_lt hk)
    have hne : posPtr this cs k ≠ .null := by
      cases k with
      | zero => simp [posPtr]
      | succ j =>
        have hj : j < cs.length := by omega
        simp only [posPtr, List.getElem?_eq_getElem hj]
        simp
    have hfirst : firstPtr (cs.drop k) = posPtr this cs (k + 1) := by
      rw [← List.getElem_cons_drop cs k hk]
      simp [firstPtr, posPtr, List.getElem?_eq_getElem hk]
    simp [position, ih (Nat.le_of_lt hk), preIncrement, hne, hn, hnx, hfirst]
/-! ## The memory primitives on known cells -/

theorem readNode_head_eq {s : Machine α} {l : Nat} {o : SingleLinkedList α}
    (ho : cellAt s.lists l = some o) : readNode s (.head l) = .ok o.head_ := by
  simp [readNode, ho]

theorem readNode_node_eq {s : Machine α} {a : Nat} {n : Node α}
    (hn : cellAt s.nodes a = some n) : readNode s (.node a) = .ok n := by
  simp [readNode, hn]

theorem writeNext_head_eq {s : Machine α} {l : Nat} {o : SingleLinkedList α} (q : NodePtr)
    (ho : cellAt s.lists l = some o) :
    writeNext s (.head l) q =
      .ok { s with lists := s.lists.set l (some ⟨⟨o.head_.value, q⟩, o.size_⟩) } := by
  simp [writeNext, ho]

theorem writeNext_node_eq {s : Machine α} {a : Nat} {n : Node α} (q : NodePtr)
    (hn : cellAt s.nodes a = some n) :
    writeNext s (.node a) q = .ok { s with nodes := s.nodes.set a (some ⟨n.value, q⟩) } := by
  simp [writeNext, hn]

theorem updSize_eq {s : Machine α} {l : Nat} {o : SingleLinkedList α} (f : Nat → Nat)
    (ho : cellAt s.lists l = some o) :
    updSize s l f = .ok { s with lists := s.lists.set l (some ⟨o.head_, f o.size_⟩) } := by
  simp [updSize, ho]

theorem deleteNode_node_eq {s : Machine α} {a : Nat} {n : Node α}
    (hn : cellAt s.nodes a = some n) :
    deleteNode s (.node a) = .ok { s with nodes := s.nodes.set a none } := by
  simp [deleteNode, hn]

theorem incSize_eq {n : Nat} (h : n < SIZE_MAX) : incSize n = n + 1 := by
  unfold incSize
  unfold SIZE_MAX at h
  exact Nat.mod_eq_of_lt (by omega)

theorem decSize_eq {n : Nat} (h : n ≤ SIZE_MAX) : decSize (n + 1) = n := by
  unfold decSize
  unfold SIZE_MAX at h
  have : n + 1 + (2 ^ 64 - 1) = n + 2 ^ 64 := by omega
  rw [this, Nat.add_mod_right]
  exact Nat.mod_eq_of_lt (by omega)

/-! ## PushFront -/

theorem PushFront_eq {s : Machine α} {this : Nat} {o : SingleLinkedList α} (v : α)
    (ho : cellAt s.lists this = some o) (hroom : s.nodes.length < s.capacity) :
    PushFront s this v =
      .ok { s with
            nodes := s.nodes ++ [some ⟨v, o.head_.next_node⟩]
            lists := s.lists.set this
              (some ⟨⟨o.head_.value, .node s.nodes.length⟩, incSize o.size_⟩) } () := by
  have hthis : this < s.lists.length := cellAt_lt ho
  simp only [PushFront, readNode_head_eq ho, newNode, hroom, if_true]
  rw [writeNext_head_eq (s := { s with nodes := s.nodes ++ [some ⟨v, o.head_.next_node⟩] })
    _ ho]
  simp only
  rw [updSize_eq (l := this) (o := ⟨⟨o.head_.value, .node s.nodes.length⟩, o.size_⟩)
    incSize (by simp [cellAt_set_eq _ hthis])]
  simp only [List.set_set]

theorem PushFront_effect {s : Machine α} {this : Nat} {c : List (Nat × α)} (v : α)
    (hwf : s.WF) (h : Repr s this c) (hroom : s.nodes.length < s.capacity) :
    ∃ s', PushFront s this v = .ok s' () ∧
      Effect s s' this c ((s.nodes.length, v) :: c) := by
  obtain ⟨o, ho, hc, hn⟩ := repr_iff.1 h
  have hthis : this < s.lists.length := cellAt_lt ho
  have hlen := hc.length_le
  obtain ⟨hw1, hw2⟩ := hwf
  refine ⟨_, PushFront_eq v ho hroom, ?_, ?_, rfl, by simp, by simp, ?_, ?_, ?_⟩
  · refine repr_iff.2 ⟨⟨⟨o.head_.value, .node s.nodes.length⟩, incSize o.size_⟩,
      cellAt_set_eq _ hthis, ?_, ?_⟩
    · refine seg_cons.2 ⟨rfl, o.head_.next_node, by simp [cellAt_append_length], ?_⟩
      exact Seg.congr_cells (fun a ha => cellAt_append_left _ (Seg.lt hc a ha)) hc
    · simp only [List.length_cons, hn]
      exact incSize_eq (by omega)
  · exact ⟨by simp; omega, hw2⟩
  · intro l hl
    exact cellAt_set_ne _ (Ne.symm hl)
  · intro a ha _
    exact cellAt_append_left _ ha
  · intro a ha
    simp only [addrs, List.map_cons, List.mem_cons] at ha
    rcases ha with rfl | ha
    · exact Or.inr (le_refl _)
    · exact Or.inl ha
/-! ## Footprints compose -/

theorem Effect.refl {s : Machine α} {this : Nat} {c : List (Nat × α)}
    (hwf : s.WF) (h : Repr s this c) : Effect s s this c c :=
  ⟨h, hwf, rfl, le_refl _, rfl, fun _ _ => rfl, fun _ _ _ => rfl, fun _ ha => Or.inl ha⟩

theorem Effect.trans {s s1 s2 : Machine α} {this : Nat} {c c1 c2 : List (Nat × α)}
    (h1 : Effect s s1 this c c1) (h2 : Effect s1 s2 this c1 c2) : Effect s s2 this c c2 := by
  obtain ⟨_, _, hcap1, hlen1, hll1, hl1, hn1, ha1⟩ := h1
  obtain ⟨hr2, hwf2, hcap2, hlen2, hll2, hl2, hn2, ha2⟩ := h2
  refine ⟨hr2, hwf2, hcap2.trans hcap1, le_trans hlen1 hlen2, hll2.trans hll1, ?_, ?_, ?_⟩
  · intro l hl
    rw [hl2 l hl, hl1 l hl]
  · intro a ha hna
    rw [hn2 a (lt_of_lt_of_le ha hlen1) ?_, hn1 a ha hna]
    intro hmem
    rcases ha1 a hmem with h | h
    · exact hna h
    · omega
  · intro a ha
    rcases ha2 a ha with h | h
    · exact ha1 a h
    · exact Or.inr (le_trans hlen1 h)

theorem Effect.repr {s s' : Machine α} {this : Nat} {c c' : List (Nat × α)}
    (h : Effect s s' this c c') : Repr s' this c' := h.1

theorem Effect.wf {s s' : Machine α} {this : Nat} {c c' : List (Nat × α)}
    (h : Effect s s' this c c') : s'.WF := h.2.1

/-! ## Default construction -/

theorem construct_repr [Inhabited α] (s : Machine α) :
    Repr (construct s).1 (construct s).2 [] := by
  refine repr_iff.2 ⟨⟨⟨default, .null⟩, 0⟩, ?_, seg_nil.2 rfl, rfl⟩
  simp [construct, cellAt_append_length]

theorem construct_wf [Inhabited α] {s : Machine α} (h : s.WF) : (construct s).1.WF := h

/-! ## Sequences of PushFront -/

theorem pushAll_effect {s : Machine α} {this : Nat} {c : List (Nat × α)} (xs : List α)
    (hwf : s.WF) (h : Repr s this c) (hroom : s.nodes.length + xs.length ≤ s.capacity) :
    ∃ s' c', pushAll this xs s = .ok s' () ∧ Effect s s' this c c' ∧
      vals c' = xs.reverse ++ vals c ∧ s'.nodes.length = s.nodes.length + xs.length := by
  induction xs generalizing s c with
  | nil => exact ⟨s, c, rfl, Effect.refl hwf h, by simp, by simp⟩
  | cons x rest ih =>
    simp only [List.length_cons] at hroom
    obtain ⟨s1, hrun, he⟩ := PushFront_effect x hwf h (by omega)
    have hlen1 : s1.nodes.length = s.nodes.length + 1 := by
      rw [PushFront_eq x (repr_iff.1 h).choose_spec.1 (by omega)] at hrun
      injection hrun with hs _
      rw [← hs]
      simp
    have hcap1 : s1.capacity = s.capacity := he.2.2.1
    obtain ⟨s2, c2, hrun2, he2, hv, hlen2⟩ := ih he.wf he.repr (by omega)
    refine ⟨s2, c2, ?_, he.trans he2, ?_, ?_⟩
    · simp [pushAll, hrun, hrun2]
    · rw [hv]; simp [vals]
    · simp only [List.length_cons]; omega
/-! ## The initializer-list constructor -/

theorem initLoop_effect {s : Machine α} {this : Nat} {c : List (Nat × α)} (values : List α)
    (k : Nat) (hk : k < values.length)
    (hwf : s.WF) (h : Repr s this c) (hroom : s.nodes.length + k ≤ s.capacity) :
    ∃ s' c', initLoop this values k s = .ok s' () ∧ Effect s s' this c c' ∧
      vals c' = (values.take (k + 1)).drop 1 ++ vals c ∧
      s'.nodes.length = s.nodes.length + k := by
  induction k generalizing s c with
  | zero =>
    refine ⟨s, c, rfl, Effect.refl hwf h, ?_, rfl⟩
    cases values with
    | nil => simp at hk
    | cons v vs => simp
  | succ k ih =>
    obtain ⟨s1, hrun, he⟩ := PushFront_effect values[k + 1] hwf h (by omega)
    have hlen1 : s1.nodes.length = s.nodes.length + 1 := by
      rw [PushFront_eq _ (repr_iff.1 h).choose_spec.1 (by omega)] at hrun
      injection hrun with hs _
      rw [← hs]
      simp
    have hcap1 : s1.capacity = s.capacity := he.2.2.1
    obtain ⟨s2, c2, hrun2, he2, hv, hlen2⟩ := ih (by omega) he.wf he.repr (by omega)
    refine ⟨s2, c2, ?_, he.trans he2, ?_, by omega⟩
    · simp [initLoop, List.getElem?_eq_getElem hk, hrun, hrun2]
    · rw [hv, List.take_succ (n := k + 1), List.getElem?_eq_getElem hk]
      have : 1 ≤ (values.take (k + 1)).length := by
        rw [List.length_take]; omega
      rw [List.drop_append_of_le_length this]
      simp [vals]

theorem initConstruct_effect [Inhabited α] {s : Machine α} (values : List α)
    (hne : values ≠ []) (hwf : s.WF) (hroom : s.nodes.length + values.length ≤ s.capacity) :
    ∃ s' c', initConstruct s values = .ok s' s.lists.length ∧
      Repr s' s.lists.length c' ∧ vals c' = values ∧ s'.WF := by
  obtain ⟨v, vs, rfl⟩ := List.exists_cons_of_ne_nil hne
  simp only [List.length_cons] at hroom
  have h0 := construct_repr s
  have hwf0 := construct_wf hwf
  obtain ⟨s1, c1, hrun1, he1, hv1, hlen1⟩ :=
    initLoop_effect (v :: vs) vs.length (by simp) hwf0 h0
      (by simp only [construct]; omega)
  obtain ⟨s2, hrun2, he2⟩ := PushFront_effect v he1.wf he1.repr
    (by rw [he1.2.2.1, hlen1]; simp only [construct]; omega)
  refine ⟨s2, _, ?_, he2.repr, ?_, he2.wf⟩
  · simp only [initConstruct, List.length_cons, Nat.cast_add, Nat.cast_one, add_sub_cancel_right,
      Int.toNat_ofNat]
    rw [hrun1]
    simp only [List.getElem?_cons_zero]
    rw [hrun2]
    rfl
  · rw [vals, List.map_cons, ← vals, hv1]
    simp [vals]
/-! ## Splitting a chain at a position -/

theorem addrs_append (c1 c2 : List (Nat × α)) : addrs (c1 ++ c2) = addrs c1 ++ addrs c2 := by
  simp [addrs]

theorem addrs_cons (a : Nat) (v : α) (c : List (Nat × α)) : addrs ((a, v) :: c) = a :: addrs c := by
  simp [addrs]

theorem chain_split {nodes : List (Option (Node α))} {p : NodePtr} {cs : List (Nat × α)}
    {k : Nat} (h : Chain nodes p cs) (hk : k < cs.length) :
    ∃ a v q, cs = cs.take k ++ (a, v) :: cs.drop (k + 1) ∧
      Seg nodes p (cs.take k) (.node a) ∧ cellAt nodes a = some ⟨v, q⟩ ∧
      Chain nodes q (cs.drop (k + 1)) ∧ a ∉ addrs (cs.take k) ∧
      a ∉ addrs (cs.drop (k + 1)) ∧
      (∀ b, b ∈ addrs (cs.take k) → b ∉ addrs (cs.drop (k + 1))) := by
  have hsplit : cs = cs.take k ++ (cs[k] :: cs.drop (k + 1)) := by
    rw [List.getElem_cons_drop, List.take_append_drop]
  rcases hx : cs[k] with ⟨a, v⟩
  rw [hx] at hsplit
  have hnd := h.nodup
  have h' := h
  rw [hsplit] at h' hnd
  obtain ⟨r, h1, h2⟩ := seg_append.1 h'
  obtain ⟨hr, q, hcell, hq⟩ := seg_cons.1 h2
  subst hr
  rw [addrs_append, addrs_cons, List.nodup_append] at hnd
  obtain ⟨_, hnd2, hdisj⟩ := hnd
  rw [List.nodup_cons] at hnd2
  refine ⟨a, v, q, hsplit, h1, hcell, hq, ?_, hnd2.1, ?_⟩
  · intro ha
    exact hdisj ha (List.mem_cons_self _ _)
  · intro b hb hb2
    exact hdisj hb (List.mem_cons_of_mem _ hb2)

theorem posPtr_succ {this : Nat} {cs : List (Nat × α)} {k a : Nat} {v : α}
    (hk : k < cs.length) (hx : cs = cs.take k ++ (a, v) :: cs.drop (k + 1)) :
    posPtr this cs (k + 1) = .node a := by
  have : cs[k]? = some (a, v) := by
    rw [hx, List.getElem?_append_right (by rw [List.length_take]; omega)]
    simp [List.length_take, Nat.min_eq_left (Nat.le_of_lt hk)]
  simp [posPtr, this]

/-! ## InsertAfter -/

theorem InsertAfter_head_eq {s : Machine α} {this : Nat} {o : SingleLinkedList α} (v : α)
    (ho : cellAt s.lists this = some o) (hroom : s.nodes.length < s.capacity) :
    InsertAfter s this ⟨.head this⟩ v =
      .ok { s with
            nodes := s.nodes ++ [some ⟨v, o.head_.next_node⟩]
            lists := s.lists.set this
              (some ⟨⟨o.head_.value, .node s.nodes.length⟩, incSize o.size_⟩) }
        ⟨.node s.nodes.length⟩ := by
  have hthis : this < s.lists.length := cellAt_lt ho
  simp only [InsertAfter, readNode_head_eq ho, newNode, hroom, if_true]
  rw [writeNext_head_eq (s := { s with nodes := s.nodes ++ [some ⟨v, o.head_.next_node⟩] })
    _ ho]
  simp only
  rw [updSize_eq (l := this) (o := ⟨⟨o.head_.value, .node s.nodes.length⟩, o.size_⟩)
    incSize (by simp [cellAt_set_eq _ hthis])]
  simp only [List.set_set]
  rw [readNode_head_eq (o := ⟨⟨o.head_.value, .node s.nodes.length⟩, incSize o.size_⟩)
    (by simp [cellAt_set_eq _ hthis])]

theorem InsertAfter_node_eq {s : Machine α} {this a : Nat} {o : SingleLinkedList α}
    {n : Node α} (v : α)
    (ho : cellAt s.lists this = some o) (hn : cellAt s.nodes a = some n)
    (hroom : s.nodes.length < s.capacity) :
    InsertAfter s this ⟨.node a⟩ v =
      .ok { s with
            nodes := (s.nodes ++ [some (Node.mk v n.next_node)]).set a
              (some ⟨n.value, .node s.nodes.length⟩)
            lists := s.lists.set this (some ⟨o.head_, incSize o.size_⟩) }
        ⟨.node s.nodes.length⟩ := by
  have ha : a < s.nodes.length := cellAt_lt hn
  simp only [InsertAfter, readNode_node_eq hn, newNode, hroom, if_true]
  rw [writeNext_node_eq (s := { s with nodes := s.nodes ++ [some ⟨v, n.next_node⟩] })
    (n := n) _ (by simp [cellAt_append_left _ ha, hn])]
  simp only
  rw [updSize_eq (o := o) incSize (by simpa using ho)]
  simp only
  rw [readNode_node_eq (n := ⟨n.value, .node s.nodes.length⟩)
    (by simp only; rw [cellAt_set_eq _ (by simp; omega)])]

theorem InsertAfter_effect {s : Machine α} {this : Nat} {cs : List (Nat × α)} (i : Nat) (v : α)
    (hwf : s.WF) (h : Repr s this cs) (hi : i ≤ cs.length)
    (hroom : s.nodes.length < s.capacity) :
    ∃ s', InsertAfter s this ⟨posPtr this cs i⟩ v = .ok s' ⟨.node s.nodes.length⟩ ∧
      Effect s s' this cs (cs.take i ++ (s.nodes.length, v) :: cs.drop i) := by
  obtain ⟨o, ho, hc, hn⟩ := repr_iff.1 h
  have hthis : this < s.lists.length := cellAt_lt ho
  have hlen := hc.length_le
  obtain ⟨hw1, hw2⟩ := hwf
  cases i with
  | zero =>
    obtain ⟨s', hrun, he⟩ := PushFront_effect v ⟨hw1, hw2⟩ h hroom
    rw [PushFront_eq v ho hroom] at hrun
    injection hrun with hs _
    refine ⟨s', ?_, by simpa using he⟩
    rw [← hs]
    exact InsertAfter_head_eq v ho hroom
  | succ k =>
    have hk : k < cs.length := hi
    obtain ⟨a, va, q, hsplit, hseg, hcell, hq, hna1, hna2, _⟩ := chain_split hc hk
    have ha : a < s.nodes.length := cellAt_lt hcell
    rw [posPtr_succ hk hsplit]
    refine ⟨_, InsertAfter_node_eq v ho hcell hroom, ?_, ?_, rfl, by simp, by simp, ?_, ?_, ?_⟩
    · refine repr_iff.2 ⟨⟨o.head_, incSize o.size_⟩, cellAt_set_eq _ hthis, ?_, ?_⟩
      · have hfar : ∀ b, b ≠ a → b < s.nodes.length →
            cellAt ((s.nodes ++ [some (Node.mk v q)]).set a (some ⟨va, .node s.nodes.length⟩)) b =
              cellAt s.nodes b := by
          intro b hb hlt
          rw [cellAt_set_ne _ (Ne.symm hb), cellAt_append_left _ hlt]
        have htake : cs.take (k + 1) = cs.take k ++ [(a, va)] := by
          conv_lhs => rw [hsplit]
          rw [List.take_append_eq_append_take]
          simp [List.length_take, Nat.min_eq_left (Nat.le_of_lt hk)]
        show Chain _ _ _
        rw [htake, List.append_assoc]
        refine seg_append.2 ⟨.node a, ?_, ?_⟩
        · refine Seg.congr_cells (fun b hb => hfar b ?_ (Seg.lt hseg b hb)) hseg
          rintro rfl; exact hna1 hb
        · simp only [List.singleton_append]
          refine seg_cons.2 ⟨rfl, .node s.nodes.length, ?_, ?_⟩
          · rw [cellAt_set_eq _ (by simp; omega)]
          · refine seg_cons.2 ⟨rfl, q, ?_, ?_⟩
            · rw [cellAt_set_ne _ (by omega), cellAt_append_length]
            · refine Seg.congr_cells (fun b hb => hfar b ?_ (Seg.lt hq b hb)) hq
              rintro rfl; exact hna2 hb
      · simp only [List.length_append, List.length_take, List.length_cons, List.length_drop, hn]
        rw [incSize_eq (by omega)]
        omega
    · exact ⟨by simp; omega, hw2⟩
    · intro l hl
      exact cellAt_set_ne _ (Ne.symm hl)
    · intro b hb hnb
      have : b ≠ a := by
        rintro rfl
        apply hnb
        rw [hsplit, addrs_append, addrs_cons]
        simp
      rw [cellAt_set_ne _ (Ne.symm this), cellAt_append_left _ hb]
    · intro b hb
      rw [addrs_append, addrs_cons] at hb
      simp only [List.mem_append, List.mem_cons] at hb
      rcases hb with hb | rfl | hb
      · left
        exact List.mem_map.2 (by
          obtain ⟨x, hx, hxe⟩ := List.mem_map.1 hb
          exact ⟨x, List.mem_of_mem_take hx, hxe⟩)
      · right; exact le_refl _
      · left
        exact List.mem_map.2 (by
          obtain ⟨x, hx, hxe⟩ := List.mem_map.1 hb
          exact ⟨x, List.mem_of_mem_drop hx, hxe⟩)
/-! ## EraseAfter and PopFront -/

theorem readSize_eq {s : Machine α} {l : Nat} {o : SingleLinkedList α}
    (ho : cellAt s.lists l = some o) : readSize s l = .ok o.size_ := by
  simp [readSize, ho]

theorem EraseAfter_head_eq {s : Machine α} {this a : Nat} {o : SingleLinkedList α}
    {n : Node α} (ho : cellAt s.lists this = some o) (hsz : o.size_ ≠ 0)
    (hfirst : o.head_.next_node = .node a) (hn : cellAt s.nodes a = some n) :
    EraseAfter s this ⟨.head this⟩ =
      .ok { s with
            nodes := s.nodes.set a none
            lists := s.lists.set this (some ⟨⟨o.head_.value, n.next_node⟩, decSize o.size_⟩) }
        ⟨n.next_node⟩ := by
  have hthis : this < s.lists.length := cellAt_lt ho
  simp only [EraseAfter, IsEmpty, readSize_eq ho, beq_iff_eq, hsz, decide_False,
    readNode_head_eq ho, hfirst, readNode_node_eq hn, writeNext_head_eq _ ho]
  rw [deleteNode_node_eq (n := n) (by simpa using hn)]
  simp only
  rw [updSize_eq (l := this) (o := ⟨⟨o.head_.value, n.next_node⟩, o.size_⟩)
    decSize (by simp [cellAt_set_eq _ hthis])]
  simp only [List.set_set]
  rw [readNode_head_eq (o := ⟨⟨o.head_.value, n.next_node⟩, decSize o.size_⟩)
    (by simp [cellAt_set_eq _ hthis])]
  have hz : (o.size_ == 0) = false := by simp [hsz]
  simp [hz]

theorem PopFront_eq {s : Machine α} {this a : Nat} {o : SingleLinkedList α}
    {n : Node α} (ho : cellAt s.lists this = some o)
    (hfirst : o.head_.next_node = .node a) (hn : cellAt s.nodes a = some n) :
    PopFront s this =
      .ok { s with
            nodes := s.nodes.set a none
            lists := s.lists.set this (some ⟨⟨o.head_.value, n.next_node⟩, decSize o.size_⟩) }
        () := by
  have hthis : this < s.lists.length := cellAt_lt ho
  simp only [PopFront, begin, readNode_head_eq ho, hfirst, readNode_node_eq hn,
    deleteNode_node_eq hn]
  rw [writeNext_head_eq (s := { s with nodes := s.nodes.set a none }) _ ho]
  simp only
  rw [updSize_eq (l := this) (o := ⟨⟨o.head_.value, n.next_node⟩, o.size_⟩)
    decSize (by simp [cellAt_set_eq _ hthis])]
  simp only [List.set_set]

theorem EraseAfter_node_eq {s : Machine α} {this a b : Nat} {o : SingleLinkedList α}
    {n m : Node α} (ho : cellAt s.lists this = some o) (hsz : o.size_ ≠ 0)
    (hm : cellAt s.nodes b = some m) (hnext : m.next_node = .node a)
    (hn : cellAt s.nodes a = some n) (hab : a ≠ b) :
    EraseAfter s this ⟨.node b⟩ =
      .ok { s with
            nodes := (s.nodes.set b (some ⟨m.value, n.next_node⟩)).set a none
            lists := s.lists.set this (some ⟨o.head_, decSize o.size_⟩) }
        ⟨n.next_node⟩ := by
  have hb : b < s.nodes.length := cellAt_lt hm
  have ha : a < s.nodes.length := cellAt_lt hn
  simp only [EraseAfter, IsEmpty, readSize_eq ho, beq_iff_eq, hsz, decide_False,
    readNode_node_eq hm, hnext, readNode_node_eq hn, writeNext_node_eq _ hm]
  rw [deleteNode_node_eq (n := n) (by simp only; rw [cellAt_set_ne _ (Ne.symm hab)]; exact hn)]
  simp only
  rw [updSize_eq (o := o) decSize (by simpa using ho)]
  simp only
  rw [readNode_node_eq (n := ⟨m.value, n.next_node⟩)
    (by simp only; rw [cellAt_set_ne _ hab, cellAt_set_eq _ hb])]
  have hz : (o.size_ == 0) = false := by simp [hsz]
  simp [hz]
theorem get_of_split {cs : List β} {k : Nat} {x : β} (hk : k < cs.length)
    (hx : cs = cs.take k ++ x :: cs.drop (k + 1)) : cs[k]? = some x := by
  rw [hx, List.getElem?_append_right (by rw [List.length_take]; omega)]
  simp [List.length_take, Nat.min_eq_left (Nat.le_of_lt hk)]

theorem take_succ_of_get {cs : List β} {k : Nat} {x : β} (h : cs[k]? = some x) :
    cs.take (k + 1) = cs.take k ++ [x] := by
  rw [List.take_succ, h]; rfl

theorem drop_of_get {cs : List β} {k : Nat} {x : β} (h : cs[k]? = some x) :
    cs.drop k = x :: cs.drop (k + 1) := by
  obtain ⟨hk, hx⟩ := List.getElem?_eq_some.1 h
  rw [← hx, List.getElem_cons_drop]

theorem mem_addrs_take {cs : List (Nat × α)} {k b : Nat} (h : b ∈ addrs (cs.take k)) :
    b ∈ addrs cs := by
  obtain ⟨x, hx, hxe⟩ := List.mem_map.1 h
  exact List.mem_map.2 ⟨x, List.mem_of_mem_take hx, hxe⟩

theorem mem_addrs_drop {cs : List (Nat × α)} {k b : Nat} (h : b ∈ addrs (cs.drop k)) :
    b ∈ addrs cs := by
  obtain ⟨x, hx, hxe⟩ := List.mem_map.1 h
  exact List.mem_map.2 ⟨x, List.mem_of_mem_drop hx, hxe⟩

theorem EraseAfter_effect {s : Machine α} {this : Nat} {cs : List (Nat × α)} (i : Nat)
    (hwf : s.WF) (h : Repr s this cs) (hi : i < cs.length) :
    ∃ s', EraseAfter s this ⟨posPtr this cs i⟩ = .ok s' ⟨firstPtr (cs.drop (i + 1))⟩ ∧
      Effect s s' this cs (cs.take i ++ cs.drop (i + 1)) := by
  obtain ⟨o, ho, hc, hn⟩ := repr_iff.1 h
  have hthis : this < s.lists.length := cellAt_lt ho
  have hlen := hc.length_le
  obtain ⟨hw1, hw2⟩ := hwf
  have hsz : o.size_ ≠ 0 := by omega
  have hdec : decSize o.size_ = cs.length - 1 := by
    have : o.size_ = (cs.length - 1) + 1 := by omega
    rw [this, decSize_eq (by omega)]
  obtain ⟨a, va, q, hsplit, hseg, hcell, hq, hna1, hna2, hdisj⟩ := chain_split hc hi
  have ha : a < s.nodes.length := cellAt_lt hcell
  have hamem : a ∈ addrs cs := by
    rw [hsplit, addrs_append, addrs_cons]; simp
  have hlen' : (cs.take i ++ cs.drop (i + 1)).length = cs.length - 1 := by
    simp only [List.length_append, List.length_take, List.length_drop]; omega
  have hsub : ∀ b, b ∈ addrs (cs.take i ++ cs.drop (i + 1)) →
      b ∈ addrs cs ∨ s.nodes.length ≤ b := by
    intro b hb
    rw [addrs_append, List.mem_append] at hb
    exact Or.inl (hb.elim mem_addrs_take mem_addrs_drop)
  cases i with
  | zero =>
    have hfirst : o.head_.next_node = .node a := by simpa [seg_nil] using hseg
    rw [← chain_firstPtr hq]
    refine ⟨_, EraseAfter_head_eq ho hsz hfirst hcell, ?_, ⟨by simpa using hw1, hw2⟩, rfl,
      by simp, by simp, ?_, ?_, hsub⟩
    · refine repr_iff.2 ⟨⟨⟨o.head_.value, q⟩, decSize o.size_⟩, cellAt_set_eq _ hthis, ?_, ?_⟩
      · refine Seg.congr_cells (fun b hb => cellAt_set_ne _ ?_) (by simpa using hq)
        rintro rfl; exact hna2 (by simpa using hb)
      · rw [hdec, hlen']
    · intro l hl
      exact cellAt_set_ne _ (Ne.symm hl)
    · intro b _ hnb
      exact cellAt_set_ne _ (by rintro rfl; exact hnb hamem)
  | succ k =>
    have hk : k < cs.length := by omega
    obtain ⟨b, vb, qb, hsplitb, hsegb, hcellb, hqb, hnb1, hnb2, _⟩ := chain_split hc hk
    have hgetb := get_of_split hk hsplitb
    have hgeta := get_of_split hi hsplit
    have hdrop : cs.drop (k + 1) = (a, va) :: cs.drop (k + 1 + 1) := drop_of_get hgeta
    have htake : cs.take (k + 1) = cs.take k ++ [(b, vb)] := take_succ_of_get hgetb
    have hqb' : qb = .node a := by
      rw [hdrop] at hqb; exact (seg_cons.1 hqb).1
    have hab : a ≠ b := by
      rintro rfl
      apply hnb2; rw [hdrop, addrs_cons]; simp
    have hbmem : b ∈ addrs cs := by
      rw [hsplitb, addrs_append, addrs_cons]; simp
    have hb : b < s.nodes.length := cellAt_lt hcellb
    have hfar : ∀ x, x ≠ a → x ≠ b →
        cellAt ((s.nodes.set b (some ⟨vb, q⟩)).set a none) x = cellAt s.nodes x := by
      intro x hxa hxb
      rw [cellAt_set_ne _ (Ne.symm hxa), cellAt_set_ne _ (Ne.symm hxb)]
    rw [posPtr_succ hk hsplitb, ← chain_firstPtr hq]
    refine ⟨_, EraseAfter_node_eq (n := ⟨va, q⟩) (m := ⟨vb, qb⟩) ho hsz hcellb hqb' hcell hab,
      ?_, ⟨by simpa using hw1, hw2⟩, rfl, by simp, by simp, ?_, ?_, hsub⟩
    · refine repr_iff.2 ⟨⟨o.head_, decSize o.size_⟩, cellAt_set_eq _ hthis, ?_, ?_⟩
      · show Chain _ _ _
        rw [htake, List.append_assoc]
        refine seg_append.2 ⟨.node b, ?_, ?_⟩
        · refine Seg.congr_cells (fun x hx => hfar x ?_ ?_) hsegb
          · rintro rfl; apply hna1; rw [htake, addrs_append]; simp [hx]
          · rintro rfl; exact hnb1 hx
        · simp only [List.singleton_append]
          refine seg_cons.2 ⟨rfl, q, ?_, ?_⟩
          · rw [cellAt_set_ne _ hab, cellAt_set_eq _ hb]
          · refine Seg.congr_cells (fun x hx => hfar x ?_ ?_) hq
            · rintro rfl; exact hna2 hx
            · rintro rfl; apply hnb2; rw [hdrop, addrs_cons]; simp [hx]
      · rw [hdec, hlen']
    · intro l hl
      exact cellAt_set_ne _ (Ne.symm hl)
    · intro x _ hnx
      exact hfar x (by rintro rfl; exact hnx hamem) (by rintro rfl; exact hnx hbmem)

theorem PopFront_effect {s : Machine α} {this : Nat} {cs : List (Nat × α)}
    (hwf : s.WF) (h : Repr s this cs) (hne : cs ≠ []) :
    ∃ s', PopFront s this = .ok s' () ∧ Effect s s' this cs cs.tail := by
  obtain ⟨o, ho, hc, hn⟩ := repr_iff.1 h
  have hpos : 0 < cs.length := List.length_pos.2 hne
  obtain ⟨s', hrun, he⟩ := EraseAfter_effect 0 hwf h hpos
  obtain ⟨a, va, q, hsplit, hseg, hcell, hq, -⟩ := chain_split hc hpos
  have hfirst : o.head_.next_node = .node a := by simpa [seg_nil] using hseg
  have hsz : o.size_ ≠ 0 := by omega
  simp only [posPtr] at hrun
  rw [EraseAfter_head_eq ho hsz hfirst hcell] at hrun
  injection hrun with hs _
  refine ⟨s', ?_, by simpa using he⟩
  rw [← hs]
  exact PopFront_eq ho hfirst hcell
/-! ## Clear -/

theorem ClearLoop_step {s : Machine α} {this a : Nat} {o : SingleLinkedList α}
    {n : Node α} (fuel : Nat) (ho : cellAt s.lists this = some o)
    (hfirst : o.head_.next_node = .node a) (hn : cellAt s.nodes a = some n)
    (hnext : n.next_node ≠ .null) :
    ClearLoop this (fuel + 1) s =
      ClearLoop this fuel
        { s with
          nodes := s.nodes.set a none
          lists := s.lists.set this
            (some ⟨⟨o.head_.value, n.next_node⟩, decSize o.size_⟩) } := by
  have hthis : this < s.lists.length := cellAt_lt ho
  rw [ClearLoop]
  simp only [readNode_head_eq ho, hfirst, readNode_node_eq hn, hnext, ne_eq, not_false_eq_true,
    if_true, deleteNode_node_eq hn]
  rw [writeNext_head_eq (s := { s with nodes := s.nodes.set a none }) _ ho]
  simp only
  rw [updSize_eq (l := this) (o := ⟨⟨o.head_.value, n.next_node⟩, o.size_⟩)
    decSize (by simp [cellAt_set_eq _ hthis])]
  simp only [List.set_set]

theorem ClearLoop_stop {s : Machine α} {this a : Nat} {o : SingleLinkedList α}
    {n : Node α} (fuel : Nat) (ho : cellAt s.lists this = some o)
    (hfirst : o.head_.next_node = .node a) (hn : cellAt s.nodes a = some n)
    (hnext : n.next_node = .null) :
    ClearLoop this (fuel + 1) s = .ok s () := by
  rw [ClearLoop]
  simp [readNode_head_eq ho, hfirst, readNode_node_eq hn, hnext]

theorem ClearLoop_effect {s : Machine α} {this : Nat} {cs : List (Nat × α)} {fuel : Nat}
    (hwf : s.WF) (h : Repr s this cs) (hne : cs ≠ []) (hf : cs.length ≤ fuel) :
    ∃ s' x, ClearLoop this fuel s = .ok s' () ∧ Effect s s' this cs [x] := by
  induction cs generalizing s fuel with
  | nil => exact absurd rfl hne
  | cons x rest ih =>
    obtain ⟨a, v⟩ := x
    obtain ⟨o, ho, hc, hn⟩ := repr_iff.1 h
    obtain ⟨hp, q, hcell, hq⟩ := seg_cons.1 hc
    obtain ⟨k, rfl⟩ : ∃ k, fuel = k + 1 := ⟨fuel - 1, by simp at hf; omega⟩
    cases rest with
    | nil =>
      have hqn : q = .null := seg_nil.1 hq
      exact ⟨s, (a, v), ClearLoop_stop k ho hp hcell hqn, Effect.refl hwf h⟩
    | cons y rest' =>
      obtain ⟨b, w⟩ := y
      have hqn : q ≠ .null := by
        rw [(seg_cons.1 hq).1]; simp
      obtain ⟨s1, hrun, he⟩ := PopFront_effect hwf h (by simp)
      rw [PopFront_eq ho hp hcell] at hrun
      injection hrun with hs _
      simp only [List.tail_cons] at he
      obtain ⟨s2, z, hrun2, he2⟩ := @ih _ k he.wf he.repr (by simp)
        (by simp only [List.length_cons] at hf ⊢; omega)
      refine ⟨s2, z, ?_, he.trans he2⟩
      rw [ClearLoop_step k ho hp hcell hqn, hs]
      exact hrun2

theorem Clear_nil {s : Machine α} {this : Nat} (h : Repr s this []) (fuel : Nat) :
    Clear s this fuel = .ok s () := by
  obtain ⟨o, ho, hc, _⟩ := repr_iff.1 h
  have hnull : o.head_.next_node = .null := seg_nil.1 hc
  simp [Clear, readNode_head_eq ho, hnull]

theorem Clear_effect {s : Machine α} {this : Nat} {cs : List (Nat × α)} {fuel : Nat}
    (hwf : s.WF) (h : Repr s this cs) (hf : cs.length ≤ fuel) :
    ∃ s', Clear s this fuel = .ok s' () ∧ Effect s s' this cs [] := by
  by_cases hne : cs = []
  · subst hne
    exact ⟨s, Clear_nil h fuel, Effect.refl hwf h⟩
  · obtain ⟨o, ho, hc, hn⟩ := repr_iff.1 h
    have hnn : o.head_.next_node ≠ .null := by
      obtain ⟨x, rest, rfl⟩ := List.exists_cons_of_ne_nil hne
      obtain ⟨a, v⟩ := x
      rw [(seg_cons.1 hc).1]; simp
    obtain ⟨s1, x, hrun1, he1⟩ := ClearLoop_effect hwf h hne hf
    obtain ⟨a, v⟩ := x
    obtain ⟨o1, ho1, hc1, hn1⟩ := repr_iff.1 he1.repr
    obtain ⟨hp1, q, hcell1, hq1⟩ := seg_cons.1 hc1
    have hqn : q = .null := seg_nil.1 hq1
    subst hqn
    obtain ⟨s2, hrun2, he2⟩ := PopFront_effect he1.wf he1.repr (by simp)
    rw [PopFront_eq ho1 hp1 hcell1] at hrun2
    injection hrun2 with hs _
    have hthis : this < s1.lists.length := cellAt_lt ho1
    refine ⟨s2, ?_, he1.trans (by simpa using he2)⟩
    simp only [Clear, readNode_head_eq ho, hnn, ne_eq, not_false_eq_true, if_true, hrun1,
      readNode_head_eq ho1, hp1, deleteNode_node_eq hcell1]
    rw [writeNext_head_eq (s := { s1 with nodes := s1.nodes.set a none }) _ ho1]
    simp only
    rw [updSize_eq (l := this) (o := ⟨⟨o1.head_.value, .null⟩, o1.size_⟩)
      decSize (by simp [cellAt_set_eq _ hthis])]
    simp only [List.set_set]
    rw [← hs]
/-! ## swap -/

theorem set_middle (l : List β) {t o : Nat} (A B A' : β) (h : t ≠ o) :
    ((l.set t A).set o B).set t A' = (l.set t A').set o B := by
  rw [List.set_comm A B l h, List.set_set, List.set_comm B A' l (Ne.symm h)]

theorem set_same {xs : List (Option β)} {i : Nat} {x : β} (h : cellAt xs i = some x) :
    xs.set i (some x) = xs := by
  have hi : i < xs.length := cellAt_lt h
  apply List.ext_getElem?
  intro j
  by_cases hj : i = j
  · subst hj
    rw [List.getElem?_set_self hi]
    unfold cellAt at h
    rw [List.getElem?_eq_getElem hi] at h ⊢
    simp at h
    rw [h]
  · rw [List.getElem?_set_ne hj]

theorem swap_eq {s : Machine α} {this other : Nat} {o1 o2 : SingleLinkedList α}
    (h1 : cellAt s.lists this = some o1) (h2 : cellAt s.lists other = some o2) :
    swap s this other =
      .ok { s with
            lists := (s.lists.set this
                (some ⟨⟨o1.head_.value, o2.head_.next_node⟩, o2.size_⟩)).set other
                (some ⟨⟨o2.head_.value, o1.head_.next_node⟩, o1.size_⟩) } () := by
  have ht : this < s.lists.length := cellAt_lt h1
  have hot : other < s.lists.length := cellAt_lt h2
  by_cases he : this = other
  · subst he
    rw [h1] at h2
    injection h2 with h2
    subst h2
    simp only [swap, readNode_head_eq h1, writeNext_head_eq _ h1]
    rw [writeNext_head_eq (o := ⟨⟨o1.head_.value, o1.head_.next_node⟩, o1.size_⟩) _
      (by simp [cellAt_set_eq _ ht])]
    simp only [List.set_set]
    rw [readSize_eq (o := ⟨⟨o1.head_.value, o1.head_.next_node⟩, o1.size_⟩)
      (by simp [cellAt_set_eq _ ht])]
    simp only
    rw [updSize_eq (o := ⟨⟨o1.head_.value, o1.head_.next_node⟩, o1.size_⟩) _
      (by simp [cellAt_set_eq _ ht])]
    simp only [List.set_set]
    rw [updSize_eq (o := ⟨⟨o1.head_.value, o1.head_.next_node⟩, o1.size_⟩) _
      (by simp [cellAt_set_eq _ ht])]
    simp only [List.set_set]
  · have he' : other ≠ this := Ne.symm he
    simp only [swap, readNode_head_eq h1, readNode_head_eq h2, writeNext_head_eq _ h1]
    rw [writeNext_head_eq (o := o2) _ (by simp only; rw [cellAt_set_ne _ he]; exact h2)]
    simp only
    rw [readSize_eq (o := ⟨⟨o1.head_.value, o2.head_.next_node⟩, o1.size_⟩)
      (by simp only; rw [cellAt_set_ne _ he', cellAt_set_eq _ ht])]
    rw [readSize_eq (o := ⟨⟨o2.head_.value, o1.head_.next_node⟩, o2.size_⟩)
      (by simp only; rw [cellAt_set_eq _ (by simpa using hot)])]
    simp only
    rw [updSize_eq (o := ⟨⟨o1.head_.value, o2.head_.next_node⟩, o1.size_⟩) _
      (by simp only; rw [cellAt_set_ne _ he', cellAt_set_eq _ ht])]
    simp only
    rw [updSize_eq (o := ⟨⟨o2.head_.value, o1.head_.next_node⟩, o2.size_⟩) _
      (by simp only; rw [cellAt_set_ne _ he, cellAt_set_eq _ (by simpa using hot)])]
    simp only [List.set_set]
    rw [set_middle _ _ _ _ he, List.set_set]

theorem swap_repr {s : Machine α} {this other : Nat} {c1 c2 : List (Nat × α)}
    (h1 : Repr s this c1) (h2 : Repr s other c2) :
    ∃ s', swap s this other = .ok s' () ∧ Repr s' this c2 ∧ Repr s' other c1 ∧
      s'.nodes = s.nodes ∧ s'.capacity = s.capacity ∧ s'.lists.length = s.lists.length ∧
      (∀ l, l ≠ this → l ≠ other → cellAt s'.lists l = cellAt s.lists l) := by
  obtain ⟨o1, ho1, hc1, hn1⟩ := repr_iff.1 h1
  obtain ⟨o2, ho2, hc2, hn2⟩ := repr_iff.1 h2
  have ht : this < s.lists.length := cellAt_lt ho1
  have hot : other < s.lists.length := cellAt_lt ho2
  refine ⟨_, swap_eq ho1 ho2, ?_, ?_, rfl, rfl, by simp, ?_⟩
  · by_cases he : this = other
    · subst he
      rw [ho1] at ho2
      injection ho2 with ho2
      subst ho2
      exact repr_iff.2 ⟨_, cellAt_set_eq _ (by simpa using ht), hc2, hn2⟩
    · refine repr_iff.2 ⟨⟨⟨o1.head_.value, o2.head_.next_node⟩, o2.size_⟩, ?_, hc2, hn2⟩
      simp only
      rw [cellAt_set_ne _ (Ne.symm he), cellAt_set_eq _ ht]
  · exact repr_iff.2 ⟨_, cellAt_set_eq _ (by simpa using hot), hc1, hn1⟩
  · intro l hl1 hl2
    simp only
    rw [cellAt_set_ne _ (Ne.symm hl2), cellAt_set_ne _ (Ne.symm hl1)]

theorem swap_swap {s : Machine α} {this other : Nat} {o1 o2 : SingleLinkedList α}
    (h1 : cellAt s.lists this = some o1) (h2 : cellAt s.lists other = some o2) :
    ∃ s', swap s this other = .ok s' () ∧ swap s' this other = .ok s () := by
  have ht : this < s.lists.length := cellAt_lt h1
  have hot : other < s.lists.length := cellAt_lt h2
  refine ⟨_, swap_eq h1 h2, ?_⟩
  by_cases he : this = other
  · subst he
    rw [h1] at h2
    injection h2 with h2
    subst h2
    rw [@swap_eq _ _ _ _ o1 o1 (by simp [cellAt_set_eq _ ht])
      (by simp [cellAt_set_eq _ ht])]
    simp only [List.set_set]
    have e1 : (⟨⟨o1.head_.value, o1.head_.next_node⟩, o1.size_⟩ : SingleLinkedList α) = o1 := rfl
    rw [e1, set_same h1]
  · rw [@swap_eq _ _ _ _ ⟨⟨o1.head_.value, o2.head_.next_node⟩, o2.size_⟩
      ⟨⟨o2.head_.value, o1.head_.next_node⟩, o1.size_⟩
      (by simp only; rw [cellAt_set_ne _ (Ne.symm he), cellAt_set_eq _ ht])
      (by simp only; rw [cellAt_set_eq _ (by simpa using hot)])]
    simp only [List.set_set]
    rw [set_middle _ _ _ _ he, List.set_set]
    have e1 : (⟨⟨o1.head_.value, o1.head_.next_node⟩, o1.size_⟩ : SingleLinkedList α) = o1 := rfl
    have e2 : (⟨⟨o2.head_.value, o2.head_.next_node⟩, o2.size_⟩ : SingleLinkedList α) = o2 := rfl
    rw [e1, e2, set_same h1, set_same h2]
/-! ## The copy constructor -/

theorem copyLoop_nil {s : Machine α} (tmp : Nat) (fuel : Nat) (it : BasicIterator) :
    copyLoop tmp ⟨.null⟩ (fuel + 1) s it ⟨.null⟩ = .ok s () := by
  simp [copyLoop]

theorem copyLoop_head {s : Machine α} {tmp a : Nat} {o : SingleLinkedList α} {n : Node α}
    (fuel : Nat) (ho : cellAt s.lists tmp = some o) (hn : cellAt s.nodes a = some n)
    (hroom : s.nodes.length < s.capacity) :
    copyLoop tmp ⟨.null⟩ (fuel + 1) s ⟨.head tmp⟩ ⟨.node a⟩ =
      copyLoop tmp ⟨.null⟩ fuel
        { s with
          nodes := s.nodes ++ [some ⟨n.value, .null⟩]
          lists := s.lists.set tmp
            (some ⟨⟨o.head_.value, .node s.nodes.length⟩, incSize o.size_⟩) }
        ⟨.node s.nodes.length⟩ ⟨n.next_node⟩ := by
  have hthis : tmp < s.lists.length := cellAt_lt ho
  have ha : a < s.nodes.length := cellAt_lt hn
  rw [copyLoop]
  simp only [ne_eq, reduceCtorEq, not_false_eq_true, if_true, deref, if_false,
    readNode_node_eq hn, newNode, hroom]
  rw [writeNext_head_eq (s := { s with nodes := s.nodes ++ [some ⟨n.value, .null⟩] }) _ ho]
  simp only [preIncrement, reduceCtorEq, if_false]
  rw [readNode_head_eq (o := ⟨⟨o.head_.value, .node s.nodes.length⟩, o.size_⟩)
    (by simp [cellAt_set_eq _ hthis])]
  simp only
  rw [updSize_eq (l := tmp) (o := ⟨⟨o.head_.value, .node s.nodes.length⟩, o.size_⟩)
    incSize (by simp [cellAt_set_eq _ hthis])]
  simp only [List.set_set]
  rw [readNode_node_eq (n := n) (by simp only; rw [cellAt_append_left _ ha]; exact hn)]

theorem copyLoop_node {s : Machine α} {tmp a t : Nat} {o : SingleLinkedList α} {n m : Node α}
    (fuel : Nat) (ho : cellAt s.lists tmp = some o) (hn : cellAt s.nodes a = some n)
    (hm : cellAt s.nodes t = some m) (hat : a ≠ t)
    (hroom : s.nodes.length < s.capacity) :
    copyLoop tmp ⟨.null⟩ (fuel + 1) s ⟨.node t⟩ ⟨.node a⟩ =
      copyLoop tmp ⟨.null⟩ fuel
        { s with
          nodes := (s.nodes ++ [some (Node.mk n.value .null)]).set t
            (some ⟨m.value, .node s.nodes.length⟩)
          lists := s.lists.set tmp (some ⟨o.head_, incSize o.size_⟩) }
        ⟨.node s.nodes.length⟩ ⟨n.next_node⟩ := by
  have ha : a < s.nodes.length := cellAt_lt hn
  have ht : t < s.nodes.length := cellAt_lt hm
  rw [copyLoop]
  simp only [ne_eq, reduceCtorEq, not_false_eq_true, if_true, deref, if_false,
    readNode_node_eq hn, newNode, hroom]
  rw [writeNext_node_eq (s := { s with nodes := s.nodes ++ [some ⟨n.value, .null⟩] })
    (n := m) _ (by simp only; rw [cellAt_append_left _ ht]; exact hm)]
  simp only [preIncrement, reduceCtorEq, if_false]
  rw [readNode_node_eq (n := ⟨m.value, .node s.nodes.length⟩)
    (by simp only; rw [cellAt_set_eq _ (by simp; omega)])]
  simp only
  rw [updSize_eq (o := o) incSize (by simpa using ho)]
  simp only
  rw [readNode_node_eq (n := n)
    (by simp only; rw [cellAt_set_ne _ (Ne.symm hat), cellAt_append_left _ ha]; exact hn)]

theorem copyLoop_full {s : Machine α} {tmp a : Nat} {n : Node α} (k : Nat)
    (it : BasicIterator) (hn : cellAt s.nodes a = some n)
    (hroom : ¬ s.nodes.length < s.capacity) :
    copyLoop tmp ⟨.null⟩ (k + 1) s it ⟨.node a⟩ = .thrown s := by
  rw [copyLoop]
  simp [deref, readNode_node_eq hn, newNode, hroom]

theorem copyLoop_step {s : Machine α} {tmp a : Nat} {v : α} {ct rest : List (Nat × α)}
    (k : Nat) (hwf : s.WF) (ht : Repr s tmp ct)
    (hb : Chain s.nodes (.node a) ((a, v) :: rest))
    (hdisj : ∀ x, x ∈ addrs ct → x ∉ addrs ((a, v) :: rest))
    (hroom : s.nodes.length < s.capacity) :
    ∃ s1 qa, copyLoop tmp ⟨.null⟩ (k + 1) s ⟨posPtr tmp ct ct.length⟩ ⟨.node a⟩ =
        copyLoop tmp ⟨.null⟩ k s1
          ⟨posPtr tmp (ct ++ [(s.nodes.length, v)]) (ct ++ [(s.nodes.length, v)]).length⟩
          ⟨qa⟩ ∧
      Effect s s1 tmp ct (ct ++ [(s.nodes.length, v)]) ∧ Chain s1.nodes qa rest ∧
      (∀ x, x ∈ addrs (ct ++ [(s.nodes.length, v)]) → x ∉ addrs rest) ∧
      s1.nodes.length = s.nodes.length + 1 := by
  obtain ⟨_, qa, hcell, hqa⟩ := seg_cons.1 hb
  have ha : a < s.nodes.length := cellAt_lt hcell
  obtain ⟨o, ho, hc, hn⟩ := repr_iff.1 ht
  obtain ⟨s1, hrun, he⟩ := InsertAfter_effect ct.length v hwf ht (le_refl _) hroom
  simp only [List.take_length, List.drop_length] at he
  have hframe := he.2.2.2.2.2.2.1
  have hrest : Chain s1.nodes qa rest := by
    refine Seg.congr_cells (fun x hx => hframe x (Seg.lt hqa x hx) ?_) hqa
    intro hxc
    exact hdisj x hxc (by rw [addrs_cons]; exact List.mem_cons_of_mem _ hx)
  have hdisj1 : ∀ x, x ∈ addrs (ct ++ [(s.nodes.length, v)]) → x ∉ addrs rest := by
    intro x hx hxr
    rw [addrs_append, List.mem_append] at hx
    rcases hx with hx | hx
    · exact hdisj x hx (by rw [addrs_cons]; exact List.mem_cons_of_mem _ hxr)
    · simp only [addrs, List.map_cons, List.map_nil, List.mem_singleton] at hx
      have := Seg.lt hqa x hxr
      omega
  have hpos : posPtr tmp (ct ++ [(s.nodes.length, v)]) (ct ++ [(s.nodes.length, v)]).length =
      .node s.nodes.length := by
    simp [posPtr]
  rw [hpos]
  rcases List.eq_nil_or_concat ct with hnil | ⟨ct0, z, hz⟩
  · subst hnil
    have hnull : o.head_.next_node = .null := seg_nil.1 hc
    simp only [List.length_nil, posPtr] at hrun ⊢
    rw [InsertAfter_head_eq v ho hroom] at hrun
    injection hrun with hs _
    refine ⟨s1, qa, ?_, he, hrest, hdisj1, by rw [← hs]; simp⟩
    rw [copyLoop_head k ho hcell hroom, ← hs, hnull]
  · have hk : ct0.length < ct.length := by rw [hz]; simp
    obtain ⟨t, vt, q, hsplit, -, hcellt, hq, -⟩ := chain_split hc hk
    have hlen : ct.length = ct0.length + 1 := by rw [hz]; simp
    have hqn : q = .null := by
      rw [← hlen, List.drop_length] at hq
      exact seg_nil.1 hq
    subst hqn
    have hpt : posPtr tmp ct ct.length = .node t := by
      rw [hlen]; exact posPtr_succ hk hsplit
    have hat : a ≠ t := by
      rintro rfl
      refine hdisj a ?_ (by rw [addrs_cons]; exact List.mem_cons_self _ _)
      rw [hsplit, addrs_append, addrs_cons]; simp
    rw [hpt] at hrun ⊢
    rw [InsertAfter_node_eq v ho hcellt hroom] at hrun
    injection hrun with hs _
    refine ⟨s1, qa, ?_, he, hrest, hdisj1, by rw [← hs]; simp⟩
    rw [copyLoop_node k ho hcell hcellt hat hroom, ← hs]

theorem copyLoop_effect {s : Machine α} {tmp : Nat} {ct cb : List (Nat × α)} {pb : NodePtr}
    {fuel : Nat} (hwf : s.WF) (ht : Repr s tmp ct) (hb : Chain s.nodes pb cb)
    (hdisj : ∀ x, x ∈ addrs ct → x ∉ addrs cb)
    (hroom : s.nodes.length + cb.length ≤ s.capacity) (hf : cb.length < fuel) :
    ∃ s' ct', copyLoop tmp ⟨.null⟩ fuel s ⟨posPtr tmp ct ct.length⟩ ⟨pb⟩ = .ok s' () ∧
      Effect s s' tmp ct ct' ∧ vals ct' = vals ct ++ vals cb ∧
      s'.nodes.length = s.nodes.length + cb.length := by
  induction cb generalizing s ct pb fuel with
  | nil =>
    obtain ⟨k, rfl⟩ : ∃ k, fuel = k + 1 := ⟨fuel - 1, by simp at hf; omega⟩
    have hp : pb = .null := seg_nil.1 hb
    subst hp
    exact ⟨s, ct, copyLoop_nil tmp k _, Effect.refl hwf ht, by simp [vals], by simp⟩
  | cons y rest ih =>
    obtain ⟨a, v⟩ := y
    obtain ⟨k, rfl⟩ : ∃ k, fuel = k + 1 := ⟨fuel - 1, by omega⟩
    simp only [List.length_cons] at hroom hf
    have hp : pb = .node a := (seg_cons.1 hb).1
    subst hp
    obtain ⟨s1, qa, hstep, he, hrest, hdisj1, hlen1⟩ :=
      copyLoop_step k hwf ht hb hdisj (by omega)
    have hcap1 : s1.capacity = s.capacity := he.2.2.1
    obtain ⟨s2, ct2, hrun2, he2, hv2, hlen2⟩ :=
      @ih _ _ _ k he.wf he.repr hrest hdisj1 (by omega) (by omega)
    refine ⟨s2, ct2, by rw [hstep]; exact hrun2, he.trans he2, ?_,
      by simp only [List.length_cons]; omega⟩
    rw [hv2]; simp [vals]

theorem copyLoop_thrown {s : Machine α} {tmp : Nat} {ct cb : List (Nat × α)} {pb : NodePtr}
    {fuel : Nat} (hwf : s.WF) (ht : Repr s tmp ct) (hb : Chain s.nodes pb cb)
    (hdisj : ∀ x, x ∈ addrs ct → x ∉ addrs cb)
    (hroom : s.capacity < s.nodes.length + cb.length) (hf : cb.length < fuel) :
    ∃ s' ct', copyLoop tmp ⟨.null⟩ fuel s ⟨posPtr tmp ct ct.length⟩ ⟨pb⟩ = .thrown s' ∧
      Effect s s' tmp ct ct' ∧ ct'.length ≤ ct.length + cb.length := by
  induction cb generalizing s ct pb fuel with
  | nil =>
    have := hwf.1
    simp at hroom
    omega
  | cons y rest ih =>
    obtain ⟨a, v⟩ := y
    obtain ⟨k, rfl⟩ : ∃ k, fuel = k + 1 := ⟨fuel - 1, by omega⟩
    simp only [List.length_cons] at hroom hf
    obtain ⟨hp, qa, hcell, _⟩ := seg_cons.1 hb
    subst hp
    by_cases hfull : s.nodes.length < s.capacity
    · obtain ⟨s1, qa, hstep, he, hrest, hdisj1, hlen1⟩ :=
        copyLoop_step k hwf ht hb hdisj hfull
      have hcap1 : s1.capacity = s.capacity := he.2.2.1
      obtain ⟨s2, ct2, hrun2, he2, hlen2⟩ :=
        @ih _ _ _ k he.wf he.repr hrest hdisj1 (by omega) (by omega)
      refine ⟨s2, ct2, by rw [hstep]; exact hrun2, he.trans he2, ?_⟩
      simp only [List.length_append, List.length_cons, List.length_nil] at hlen2 ⊢
      omega
    · exact ⟨s, ct, copyLoop_full k _ hcell hfull, Effect.refl hwf ht, by omega⟩

theorem Repr.congr {s s' : Machine α} {this : Nat} {c : List (Nat × α)}
    (hl : cellAt s'.lists this = cellAt s.lists this)
    (hn : ∀ a, a ∈ addrs c → cellAt s'.nodes a = cellAt s.nodes a) (h : Repr s this c) :
    Repr s' this c := by
  obtain ⟨o, ho, hc, hsz⟩ := repr_iff.1 h
  exact repr_iff.2 ⟨o, by rw [hl]; exact ho, Seg.congr_cells hn hc, hsz⟩

theorem Repr.addr_lt {s : Machine α} {this : Nat} {c : List (Nat × α)} (h : Repr s this c) :
    ∀ a, a ∈ addrs c → a < s.nodes.length := by
  obtain ⟨o, _, hc, _⟩ := repr_iff.1 h
  exact Seg.lt hc

theorem Repr.live {s : Machine α} {this : Nat} {c : List (Nat × α)} (h : Repr s this c) :
    this < s.lists.length := by
  obtain ⟨o, ho, _, _⟩ := repr_iff.1 h
  exact cellAt_lt ho

theorem release_clear_nil {s : Machine α} {tmp : Nat} (h : Repr s tmp []) (fuel : Nat) :
    destroy s tmp fuel = .ok (release s tmp) () := by
  simp [destroy, Clear_nil h fuel]

theorem copyConstruct_core [Inhabited α] {s : Machine α} {other : Nat} {c : List (Nat × α)}
    {fuel : Nat} (hwf : s.WF) (h1 : Repr (construct (construct s).1).1 other c)
    (hroom : s.nodes.length + c.length ≤ s.capacity) (hf : c.length < fuel) :
    ∃ s' c', copyConstruct s other fuel = .ok s' s.lists.length ∧
      Repr s' s.lists.length c' ∧ vals c' = vals c ∧ s'.WF ∧ s'.capacity = s.capacity ∧
      s'.lists.length = s.lists.length + 2 ∧ cellAt s'.lists (s.lists.length + 1) = none ∧
      (∀ l, l < s.lists.length → cellAt s'.lists l = cellAt s.lists l) ∧
      (∀ a, a < s.nodes.length → cellAt s'.nodes a = cellAt s.nodes a) ∧
      (∀ a, a ∈ addrs c' → s.nodes.length ≤ a) ∧
      s'.nodes.length = s.nodes.length + c.length := by
  -- the state after the two objects (`*this` and `tmp`) have been set up
  obtain ⟨s1, hs1⟩ : ∃ s1 : Machine α, s1 = (construct (construct s).1).1 := ⟨_, rfl⟩
  have hs1n : s1.nodes = s.nodes := by rw [hs1]; rfl
  have hs1c : s1.capacity = s.capacity := by rw [hs1]; rfl
  have hs1l : s1.lists = s.lists ++ [some ⟨⟨default, .null⟩, 0⟩] ++
      [some ⟨⟨default, .null⟩, 0⟩] := by rw [hs1]; rfl
  have hwf1 : s1.WF := by rw [hs1]; exact construct_wf (construct_wf hwf)
  have htmp : Repr s1 (s.lists.length + 1) [] := by
    have := construct_repr (construct s).1
    rw [← hs1] at this
    simpa [construct] using this
  have hthis1 : cellAt s1.lists s.lists.length = some ⟨⟨default, .null⟩, 0⟩ := by
    rw [hs1l, cellAt_append_left _ (by simp), cellAt_append_length]
  have hold1 : ∀ l, l < s.lists.length → cellAt s1.lists l = cellAt s.lists l := by
    intro l hl
    rw [hs1l, cellAt_append_left _ (by simp; omega), cellAt_append_left _ hl]
  have hoth1 : Repr s1 other c := by rw [hs1]; exact h1
  obtain ⟨o, ho, hc, hsz⟩ := repr_iff.1 hoth1
  obtain ⟨s2, ct, hrun2, he2, hv2, hlen2⟩ :=
    @copyLoop_effect _ _ (s.lists.length + 1) _ _ _ fuel hwf1 htmp hc
      (by intro x hx; simp [addrs] at hx) (by rw [hs1n, hs1c]; exact hroom) hf
  obtain ⟨hr2, hwf2, hcap2, hnl2, hll2, hfl2, hfn2, hsub2⟩ := he2
  have hthis2 : Repr s2 s.lists.length [] := by
    refine repr_iff.2 ⟨⟨⟨default, .null⟩, 0⟩, ?_, seg_nil.2 rfl, rfl⟩
    rw [hfl2 _ (by omega), hthis1]
  -- the conditional swap
  have hswap : ∃ s3, (if !(ct.length == 0) then swap s2 s.lists.length (s.lists.length + 1)
        else .ok s2 ()) = .ok s3 () ∧ Repr s3 s.lists.length ct ∧
      Repr s3 (s.lists.length + 1) [] ∧ s3.nodes = s2.nodes ∧ s3.capacity = s2.capacity ∧
      s3.lists.length = s2.lists.length ∧
      (∀ l, l ≠ s.lists.length → l ≠ s.lists.length + 1 →
        cellAt s3.lists l = cellAt s2.lists l) := by
    by_cases hct : ct = []
    · subst hct
      exact ⟨s2, by simp, hthis2, hr2, rfl, rfl, rfl, fun _ _ _ => rfl⟩
    · have hne : (ct.length == 0) = false := by
        simpa using hct
      obtain ⟨s3, hrun3, ha, hb, hn3, hc3, hl3, hf3⟩ := swap_repr hthis2 hr2
      exact ⟨s3, by simp [hne, hrun3], ha, hb, hn3, hc3, hl3, hf3⟩
  obtain ⟨s3, hrun3, hr3, htmp3, hn3, hc3, hl3, hf3⟩ := hswap
  have hlt3 : s.lists.length + 1 < s3.lists.length := htmp3.live
  have hlen3 : s3.lists.length = s.lists.length + 2 := by
    rw [hl3, hll2, hs1l]; simp
  refine ⟨release s3 (s.lists.length + 1), ct, ?_, ?_, ?_, ?_, ?_, ?_, ?_, ?_, ?_, ?_, ?_⟩
  · simp only [copyConstruct]
    have hc0 : cellAt (construct s).1.lists (construct s).2 = some ⟨⟨default, .null⟩, 0⟩ := by
      simp [construct, cellAt_append_length]
    rw [hc0]
    simp only [and_self, not_true_eq_false, if_false]
    rw [← hs1]
    have htmpid : (construct (construct s).1).2 = s.lists.length + 1 := by
      simp [construct]
    rw [htmpid]
    have hbb : before_begin s1 (s.lists.length + 1) = .ok ⟨.head (s.lists.length + 1)⟩ := by
      obtain ⟨ot, hot, _, _⟩ := repr_iff.1 htmp
      simp [before_begin, hot]
    rw [hbb, begin_repr hoth1, end_repr hoth1 hf]
    simp only
    have hfp : firstPtr c = o.head_.next_node := (chain_firstPtr hc).symm
    rw [hfp]
    simp only [List.length_nil, posPtr] at hrun2
    rw [hrun2]
    have hthisid : (construct s).2 = s.lists.length := rfl
    simp only [IsEmpty_repr hr2, hthisid]
    rw [hrun3]
    simp only [release_clear_nil htmp3 fuel]
  · refine Repr.congr (s := s3) ?_ (fun a _ => rfl) hr3
    simp only [release]
    rw [cellAt_set_ne _ (by omega)]
  · rw [hv2]; simp [vals]
  · exact ⟨by simp only [release]; rw [hn3, hc3]; exact hwf2.1, by
      simp only [release]; rw [hc3]; exact hwf2.2⟩
  · simp only [release]; rw [hc3, hcap2, hs1c]
  · simp only [release, List.length_set]; exact hlen3
  · simp only [release]; rw [cellAt_set_eq _ hlt3]
  · intro l hl
    simp only [release]
    rw [cellAt_set_ne _ (by omega), hf3 l (by omega) (by omega), hfl2 l (by omega), hold1 l hl]
  · intro a ha
    simp only [release]
    rw [hn3, hfn2 a (by rw [hs1n]; exact ha) (by simp [addrs]), hs1n]
  · intro a ha
    rcases hsub2 a ha with h' | h'
    · simp [addrs] at h'
    · rw [hs1n] at h'; exact h'
  · simp only [release]
    rw [hn3, hlen2, hs1n]
theorem construct2_repr [Inhabited α] {s : Machine α} {other : Nat} {c : List (Nat × α)}
    (h : Repr s other c) : Repr (construct (construct s).1).1 other c := by
  refine Repr.congr (s := s) ?_ (fun a _ => rfl) h
  simp only [construct]
  rw [cellAt_append_left _ (by simp; have := h.live; omega), cellAt_append_left _ h.live]

theorem copyConstruct_effect [Inhabited α] {s : Machine α} {other : Nat} {c : List (Nat × α)}
    {fuel : Nat} (hwf : s.WF) (h : Repr s other c)
    (hroom : s.nodes.length + c.length ≤ s.capacity) (hf : c.length < fuel) :
    ∃ s' c', copyConstruct s other fuel = .ok s' s.lists.length ∧
      Repr s' s.lists.length c' ∧ vals c' = vals c ∧ s'.WF ∧ s'.capacity = s.capacity ∧
      s'.lists.length = s.lists.length + 2 ∧ cellAt s'.lists (s.lists.length + 1) = none ∧
      (∀ l, l < s.lists.length → cellAt s'.lists l = cellAt s.lists l) ∧
      (∀ a, a < s.nodes.length → cellAt s'.nodes a = cellAt s.nodes a) ∧
      (∀ a, a ∈ addrs c' → s.nodes.length ≤ a) ∧
      s'.nodes.length = s.nodes.length + c.length :=
  copyConstruct_core hwf (construct2_repr h) hroom hf

/-! ## Frames -/

theorem cellAt_ge {xs : List (Option β)} {i : Nat} (h : xs.length ≤ i) : cellAt xs i = none := by
  unfold cellAt
  rw [List.getElem?_eq_none h]
  rfl

theorem Effect.frame {s s' : Machine α} {this : Nat} {c c' : List (Nat × α)}
    (h : Effect s s' this c c') : Frame s s' this c c' := by
  obtain ⟨hr, hwf, hcap, hlen, hll, hl, hn, ha⟩ := h
  refine ⟨hr, hwf, hcap, hlen, by omega, ?_, fun l _ hne => hl l hne, hn, ha⟩
  intro l hl' _
  exact cellAt_ge (by omega)

theorem Frame.refl_of_repr {s : Machine α} {this : Nat} {c : List (Nat × α)}
    (hwf : s.WF) (h : Repr s this c) : Frame s s this c c :=
  (Effect.refl hwf h).frame

/-! ## Copy assignment -/

theorem assign_effect [Inhabited α] {s : Machine α} {this rhs : Nat} {c1 c2 : List (Nat × α)}
    {fuel : Nat} (hwf : s.WF) (h1 : Repr s this c1) (h2 : Repr s rhs c2)
    (hdisj : this ≠ rhs → ∀ a, a ∈ addrs c1 → a ∉ addrs c2)
    (hroom : this ≠ rhs → c2 ≠ [] → s.nodes.length + c2.length ≤ s.capacity)
    (hf1 : c1.length < fuel) (hf2 : c2.length < fuel) :
    ∃ s' c', assign s this rhs fuel = .ok s' () ∧ Frame s s' this c1 c' ∧
      vals c' = vals c2 ∧ Repr s' rhs c2 := by
  by_cases hemp : c2 = []
  · -- the right-hand side is empty: `Clear()`
    subst hemp
    obtain ⟨s', hrun, he⟩ := Clear_effect hwf h1 (Nat.le_of_lt hf1)
    refine ⟨s', [], ?_, he.frame, rfl, ?_⟩
    · simp [assign, IsEmpty_repr h2, hrun]
    · by_cases hne : this = rhs
      · subst hne; exact he.repr
      · refine Repr.congr (he.2.2.2.2.2.1 rhs (Ne.symm hne)) ?_ h2
        intro a ha; simp [addrs] at ha
  · have hne2 : (c2.length == 0) = false := by simpa using hemp
    by_cases hself : this = rhs
    · -- self-assignment
      subst hself
      obtain ⟨o1, ho1, hc1, _⟩ := repr_iff.1 h1
      obtain ⟨o2, ho2, hc2, _⟩ := repr_iff.1 h2
      rw [ho1] at ho2
      injection ho2 with ho2
      subst ho2
      have hcc : c1 = c2 := Chain.unique hc1 hc2
      subst hcc
      exact ⟨s, c1, by simp [assign, IsEmpty_repr h2, hne2], Frame.refl_of_repr hwf h1, rfl, h2⟩
    · -- copy and swap
      have hd := hdisj hself
      obtain ⟨s1, ct, hrun1, hr1, hv1, hwf1, hcap1, hll1, hdead1, hfl1, hfn1, hnew1, hlen1⟩ :=
        copyConstruct_effect hwf h2 (hroom hself hemp) hf2
      have hthis1 : Repr s1 this c1 :=
        Repr.congr (hfl1 this h1.live) (fun a ha => hfn1 a (h1.addr_lt a ha)) h1
      obtain ⟨s2, hrun2, hr2a, hr2b, hn2, hcap2, hll2, hfl2⟩ := swap_repr hthis1 hr1
      have hwf2 : s2.WF := ⟨by rw [hn2, hcap2]; exact hwf1.1, by rw [hcap2]; exact hwf1.2⟩
      obtain ⟨s3, hrun3, he3⟩ := @Clear_effect _ _ _ _ fuel hwf2 hr2b (Nat.le_of_lt hf1)
      obtain ⟨hr3, hwf3, hcap3, hnl3, hll3, hfl3, hfn3, -⟩ := he3
      have hL : s.lists.length < s3.lists.length := by rw [hll3, hll2, hll1]; omega
      have hthisL : this ≠ s.lists.length := Nat.ne_of_lt h1.live
      have hrhsL : rhs ≠ s.lists.length := Nat.ne_of_lt h2.live
      have hctfar : ∀ a, a ∈ addrs ct → a ∉ addrs c1 := by
        intro a ha ha1
        have := hnew1 a ha
        have := h1.addr_lt a ha1
        omega
      have hthis3 : Repr s3 this ct := by
        refine Repr.congr (hfl3 this hthisL) (fun a ha => hfn3 a ?_ (hctfar a ha)) hr2a
        exact hr2a.addr_lt a ha
      refine ⟨release s3 s.lists.length, ct, ?_, ⟨?_, ?_, ?_, ?_, ?_, ?_, ?_, ?_, ?_⟩, hv1, ?_⟩
      · simp only [assign, IsEmpty_repr h2, hne2, ne_eq, hself, not_false_eq_true, if_true,
          hrun1, hrun2, destroy, hrun3]
      · refine Repr.congr (s := s3) ?_ (fun a _ => rfl) hthis3
        simp only [release]
        rw [cellAt_set_ne _ (Ne.symm hthisL)]
      · exact hwf3
      · simp only [release]; rw [hcap3, hcap2, hcap1]
      · simp only [release]; rw [hn2, hlen1] at hnl3; omega
      · simp only [release, List.length_set]; omega
      · intro l hl hlt
        simp only [release]
        by_cases hlL : l = s.lists.length
        · subst hlL; rw [cellAt_set_eq _ hL]
        · rw [cellAt_set_ne _ (Ne.symm hlL), hfl3 l hlL, hfl2 l hlt hlL]
          by_cases hl1 : l = s.lists.length + 1
          · subst hl1; exact hdead1
          · exact cellAt_ge (by omega)
      · intro l hl hlt
        simp only [release]
        rw [cellAt_set_ne _ (by omega), hfl3 l (by omega), hfl2 l hlt (by omega), hfl1 l hl]
      · intro a ha hna
        simp only [release]
        rw [hfn3 a (by rw [hn2, hlen1]; omega) hna, hn2, hfn1 a ha]
      · intro a ha
        exact Or.inr (hnew1 a ha)
      · have hrhs1 : Repr s1 rhs c2 :=
          Repr.congr (hfl1 rhs h2.live) (fun a ha => hfn1 a (h2.addr_lt a ha)) h2
        have hrhs2 : Repr s2 rhs c2 :=
          Repr.congr (hfl2 rhs (Ne.symm hself) hrhsL) (fun a _ => by rw [hn2]) hrhs1
        have hrhs3 : Repr s3 rhs c2 := by
          refine Repr.congr (hfl3 rhs hrhsL) (fun a ha => hfn3 a ?_ ?_) hrhs2
          · exact hrhs2.addr_lt a ha
          · intro ha1; exact hd a ha1 ha
        refine Repr.congr (s := s3) ?_ (fun a _ => rfl) hrhs3
        simp only [release]
        rw [cellAt_set_ne _ (Ne.symm hrhsL)]
/-! ## Iterators at a position -/

theorem posPtr_ne_null {this : Nat} {cs : List (Nat × α)} {i : Nat} (hi : i ≤ cs.length) :
    posPtr this cs i ≠ .null := by
  cases i with
  | zero => simp [posPtr]
  | succ j =>
    have hj : j < cs.length := hi
    simp only [posPtr, List.getElem?_eq_getElem hj]
    simp

theorem preIncrement_posPtr {s : Machine α} {this : Nat} {cs : List (Nat × α)} {i : Nat}
    (h : Repr s this cs) (hi : i ≤ cs.length) :
    preIncrement s ⟨posPtr this cs i⟩ = .ok ⟨firstPtr (cs.drop i)⟩ := by
  obtain ⟨n, hn, hnx, _⟩ := readNode_posPtr h hi
  simp [preIncrement, posPtr_ne_null hi, hn, hnx]

theorem deref_firstPtr {s : Machine α} {p : NodePtr} {cs : List (Nat × α)} {a : Nat} {v : α}
    (h : Chain s.nodes p ((a, v) :: cs)) : deref s ⟨p⟩ = .ok v := by
  obtain ⟨hp, q, hc, _⟩ := seg_cons.1 h
  subst hp
  simp [deref, readNode_node_eq hc]

theorem assign_self [Inhabited α] {s : Machine α} {this : Nat} {c : List (Nat × α)}
    (h : Repr s this c) (fuel : Nat) : assign s this this fuel = .ok s () := by
  by_cases hemp : c = []
  · subst hemp
    simp [assign, IsEmpty_repr h, Clear_nil h]
  · have hne : (c.length == 0) = false := by simpa using hemp
    simp [assign, IsEmpty_repr h, hne]
/-! ## The invariant and frames -/

theorem Repr.unique_chain {s : Machine α} {this : Nat} {c1 c2 : List (Nat × α)}
    (h1 : Repr s this c1) (h2 : Repr s this c2) : c1 = c2 := by
  obtain ⟨o1, ho1, hc1, _⟩ := repr_iff.1 h1
  obtain ⟨o2, ho2, hc2, _⟩ := repr_iff.1 h2
  rw [ho1] at ho2
  injection ho2 with ho2
  subst ho2
  exact Chain.unique hc1 hc2

theorem Repr.isSome {s : Machine α} {this : Nat} {c : List (Nat × α)} (h : Repr s this c) :
    (cellAt s.lists this).isSome := by
  obtain ⟨o, ho, _, _⟩ := repr_iff.1 h
  simp [ho]

theorem inv_of_frame {s s' : Machine α} {this : Nat} {c c' : List (Nat × α)}
    (hinv : Inv s) (hlive : (cellAt s.lists this).isSome → Repr s this c)
    (hdead : cellAt s.lists this = none → c = []) (hf : Frame s s' this c c') : Inv s' := by
  obtain ⟨_, ch, hch, hdisj⟩ := hinv
  obtain ⟨hr, hwf, _, _, _, hnew, hold, hnodes, hsub⟩ := hf
  -- a node of another live list is not a node of `c`
  have hfar : ∀ l, l ≠ this → (cellAt s.lists l).isSome → ∀ a, a ∈ addrs (ch l) →
      a ∉ addrs c := by
    intro l hl hsome a ha hac
    cases hthis : cellAt s.lists this with
    | none => rw [hdead hthis] at hac; simp [addrs] at hac
    | some o =>
      have hs : (cellAt s.lists this).isSome := by simp [hthis]
      have hcc : c = ch this := (hlive hs).unique_chain (hch this hs)
      rw [hcc] at hac
      exact hdisj l this hl hsome hs a ha hac
  -- another list that is alive afterwards was alive before, unchanged
  have hother : ∀ l, l ≠ this → (cellAt s'.lists l).isSome →
      (cellAt s.lists l).isSome ∧ Repr s' l (ch l) := by
    intro l hl hsome
    have hlt : l < s.lists.length := by
      by_contra hge
      rw [hnew l (by omega) hl] at hsome
      simp at hsome
    have heq := hold l hlt hl
    have hs : (cellAt s.lists l).isSome := by rw [← heq]; exact hsome
    refine ⟨hs, Repr.congr heq (fun a ha => ?_) (hch l hs)⟩
    exact hnodes a ((hch l hs).addr_lt a ha) (hfar l hl hs a ha)
  refine ⟨hwf, Function.update ch this c', ?_, ?_⟩
  · intro l hsome
    by_cases hl : l = this
    · subst hl; simpa using hr
    · rw [Function.update_noteq hl]
      exact (hother l hl hsome).2
  · intro l1 l2 hne h1 h2 a ha1 ha2
    by_cases e1 : l1 = this
    · subst e1
      have e2 : l2 ≠ l1 := Ne.symm hne
      rw [Function.update_same] at ha1
      rw [Function.update_noteq e2] at ha2
      obtain ⟨hs2, hr2⟩ := hother l2 e2 h2
      rcases hsub a ha1 with h' | h'
      · exact hfar l2 e2 hs2 a ha2 h'
      · have := (hch l2 hs2).addr_lt a ha2
        omega
    · rw [Function.update_noteq e1] at ha1
      obtain ⟨hs1, hr1⟩ := hother l1 e1 h1
      by_cases e2 : l2 = this
      · subst e2
        rw [Function.update_same] at ha2
        rcases hsub a ha2 with h' | h'
        · exact hfar l1 e1 hs1 a ha1 h'
        · have := (hch l1 hs1).addr_lt a ha1
          omega
      · rw [Function.update_noteq e2] at ha2
        obtain ⟨hs2, _⟩ := hother l2 e2 h2
        exact hdisj l1 l2 hne hs1 hs2 a ha1 ha2

theorem Inv.repr_of_isSome {s : Machine α} (h : Inv s) {l : Nat} (hl : (cellAt s.lists l).isSome) :
    ∃ c, Repr s l c := by
  obtain ⟨_, ch, hch, _⟩ := h
  exact ⟨ch l, hch l hl⟩

theorem inv_of_effect {s s' : Machine α} {this : Nat} {c c' : List (Nat × α)}
    (hinv : Inv s) (h : Repr s this c) (he : Effect s s' this c c') : Inv s' :=
  inv_of_frame hinv (fun _ => h) (fun hn => by
    have hs := h.isSome
    rw [hn] at hs
    simp at hs) he.frame
/-! ## Every call keeps the invariant: the element operations -/

theorem live_cases (s : Machine α) (l : Nat) :
    cellAt s.lists l = none ∨ ∃ o, cellAt s.lists l = some o := by
  cases h : cellAt s.lists l with
  | none => exact Or.inl rfl
  | some o => exact Or.inr ⟨o, rfl⟩

theorem Inv.repr_of_some {s : Machine α} (h : Inv s) {l : Nat} {o : SingleLinkedList α}
    (hl : cellAt s.lists l = some o) : ∃ c, Repr s l c :=
  h.repr_of_isSome (by simp [hl])

theorem construct_safe [Inhabited α] {s : Machine α} (hinv : Inv s) :
    Safe Inv (defaultConstruct s).void := by
  have hr := construct_repr s
  have hframe : Frame s (construct s).1 s.lists.length ([] : List (Nat × α)) [] := by
    refine ⟨hr, construct_wf hinv.1, rfl, le_refl _, by simp [construct], ?_, ?_,
      fun _ _ _ => rfl, fun a ha => by simp [addrs] at ha⟩
    · intro l hl hne
      exact cellAt_ge (by simp [construct]; omega)
    · intro l hl _
      simp only [construct]
      exact cellAt_append_left _ hl
  have hdead : cellAt s.lists s.lists.length = none := cellAt_ge (le_refl _)
  exact inv_of_frame hinv (fun hs => by rw [hdead] at hs; simp at hs) (fun _ => rfl) hframe

theorem PushFront_safe {s : Machine α} (hinv : Inv s) (l : Nat) (v : α) :
    Safe Inv (PushFront s l v) := by
  rcases live_cases s l with hd | ⟨o, ho⟩
  · simp [PushFront, readNode, hd, Safe]
  · obtain ⟨c, hc⟩ := hinv.repr_of_some ho
    by_cases hroom : s.nodes.length < s.capacity
    · obtain ⟨s', hrun, he⟩ := PushFront_effect v hinv.1 hc hroom
      rw [hrun]
      exact inv_of_effect hinv hc he
    · simp only [PushFront, readNode_head_eq ho, newNode, hroom, if_false, Safe]
      exact hinv

theorem PopFront_safe {s : Machine α} (hinv : Inv s) (l : Nat) : Safe Inv (PopFront s l) := by
  rcases live_cases s l with hd | ⟨o, ho⟩
  · simp [PopFront, begin, readNode, hd, Safe]
  · obtain ⟨c, hc⟩ := hinv.repr_of_some ho
    by_cases hne : c = []
    · subst hne
      simp [PopFront, begin_repr hc, firstPtr, readNode, Safe]
    · obtain ⟨s', hrun, he⟩ := PopFront_effect hinv.1 hc hne
      rw [hrun]
      exact inv_of_effect hinv hc he

theorem position_dead {s : Machine α} {l : Nat} (hd : cellAt s.lists l = none) (i : Nat) :
    ∃ f, position s l i = .error f := by
  induction i with
  | zero => exact ⟨.dangling, by simp [position, before_begin, hd]⟩
  | succ k ih =>
    obtain ⟨f, hf⟩ := ih
    exact ⟨f, by simp [position, hf]⟩

theorem position_beyond {s : Machine α} {l : Nat} {c : List (Nat × α)} (h : Repr s l c)
    {i : Nat} (hi : c.length < i) :
    position s l i = .ok ⟨.null⟩ ∨ ∃ f, position s l i = .error f := by
  induction i with
  | zero => omega
  | succ k ih =>
    by_cases hk : c.length < k
    · rcases ih hk with h' | ⟨f, h'⟩
      · right
        exact ⟨.assertFailed, by simp [position, h', preIncrement]⟩
      · right
        exact ⟨f, by simp [position, h']⟩
    · have hkeq : k = c.length := by omega
      subst hkeq
      left
      simp only [position, position_repr h (le_refl _), preIncrement_posPtr h (le_refl _),
        List.drop_length]
      rfl

theorem InsertAfter_null (s : Machine α) (l : Nat) (v : α) :
    InsertAfter s l ⟨.null⟩ v = .fault .nullDeref := by
  simp [InsertAfter, readNode]

theorem EraseAfter_null (s : Machine α) (l : Nat) : ∃ f, EraseAfter s l ⟨.null⟩ = .fault f := by
  simp only [EraseAfter]
  cases h : IsEmpty s l with
  | error f => exact ⟨f, rfl⟩
  | ok b =>
    cases b with
    | true => exact ⟨.assertFailed, rfl⟩
    | false => exact ⟨.nullDeref, by simp [readNode]⟩

theorem EraseAfter_last {s : Machine α} {l : Nat} {c : List (Nat × α)} (h : Repr s l c) :
    ∃ f, EraseAfter s l ⟨posPtr l c c.length⟩ = .fault f := by
  simp only [EraseAfter, IsEmpty_repr h]
  by_cases hc : c.length = 0
  · exact ⟨.assertFailed, by simp [hc]⟩
  · have hb : (c.length == 0) = false := by simpa using hc
    obtain ⟨n, hn, hnx, _⟩ := readNode_posPtr h (le_refl _)
    rw [List.drop_length] at hnx
    refine ⟨.nullDeref, ?_⟩
    simp only [hb, hn, hnx, firstPtr]
    simp [readNode]

theorem InsertAfter_safe [Inhabited α] {s : Machine α} (hinv : Inv s) (fuel l i : Nat) (v : α) :
    Safe Inv (step fuel s (.InsertAfter l i v)) := by
  simp only [step]
  rcases live_cases s l with hd | ⟨o, ho⟩
  · obtain ⟨f, hf⟩ := position_dead hd i
    simp [hf, Safe]
  · obtain ⟨c, hc⟩ := hinv.repr_of_some ho
    by_cases hi : i ≤ c.length
    · rw [position_repr hc hi]
      by_cases hroom : s.nodes.length < s.capacity
      · obtain ⟨s', hrun, he⟩ := InsertAfter_effect i v hinv.1 hc hi hroom
        simp only [hrun, Res.void, Safe]
        exact inv_of_effect hinv hc he
      · obtain ⟨n, hn, _⟩ := readNode_posPtr hc hi
        simp only [InsertAfter, hn, newNode, hroom, if_false, Res.void, Safe]
        exact hinv
    · rcases position_beyond hc (by omega : c.length < i) with h' | ⟨f, h'⟩
      · simp [h', InsertAfter_null, Res.void, Safe]
      · simp [h', Safe]

theorem EraseAfter_safe [Inhabited α] {s : Machine α} (hinv : Inv s) (fuel l i : Nat) :
    Safe Inv (step fuel s (.EraseAfter l i : Op α)) := by
  simp only [step]
  rcases live_cases s l with hd | ⟨o, ho⟩
  · obtain ⟨f, hf⟩ := position_dead hd i
    simp [hf, Safe]
  · obtain ⟨c, hc⟩ := hinv.repr_of_some ho
    by_cases hi : i < c.length
    · rw [position_repr hc (Nat.le_of_lt hi)]
      obtain ⟨s', hrun, he⟩ := EraseAfter_effect i hinv.1 hc hi
      simp only [hrun, Res.void, Safe]
      exact inv_of_effect hinv hc he
    · by_cases hlast : i = c.length
      · subst hlast
        obtain ⟨f, hf⟩ := EraseAfter_last hc
        simp [position_repr hc (le_refl _), hf, Res.void, Safe]
      · rcases position_beyond hc (by omega : c.length < i) with h' | ⟨f, h'⟩
        · obtain ⟨f, hf⟩ := EraseAfter_null s l
          simp [h', hf, Res.void, Safe]
        · simp [h', Safe]
theorem ClearLoop_nofuel {s : Machine α} {this : Nat} {cs : List (Nat × α)} {fuel : Nat}
    (hwf : s.WF) (h : Repr s this cs) (hf : fuel < cs.length) :
    ClearLoop this fuel s = .fault .outOfFuel := by
  induction cs generalizing s fuel with
  | nil => simp at hf
  | cons x rest ih =>
    cases fuel with
    | zero => rfl
    | succ k =>
      obtain ⟨a, v⟩ := x
      obtain ⟨o, ho, hc, hn⟩ := repr_iff.1 h
      obtain ⟨hp, q, hcell, hq⟩ := seg_cons.1 hc
      cases rest with
      | nil => simp at hf
      | cons y rest' =>
        obtain ⟨b, w⟩ := y
        have hqn : q ≠ .null := by
          rw [(seg_cons.1 hq).1]; simp
        obtain ⟨s1, hrun, he⟩ := PopFront_effect hwf h (by simp)
        rw [PopFront_eq ho hp hcell] at hrun
        injection hrun with hs _
        simp only [List.tail_cons] at he
        rw [ClearLoop_step k ho hp hcell hqn, hs]
        exact ih he.wf he.repr (by simp only [List.length_cons] at hf ⊢; omega)

theorem Clear_safe {s : Machine α} (hinv : Inv s) (l fuel : Nat) :
    Safe Inv (Clear s l fuel) := by
  rcases live_cases s l with hd | ⟨o, ho⟩
  · simp [Clear, readNode, hd, Safe]
  · obtain ⟨c, hc⟩ := hinv.repr_of_some ho
    by_cases hf : c.length ≤ fuel
    · obtain ⟨s', hrun, he⟩ := Clear_effect hinv.1 hc hf
      rw [hrun]
      exact inv_of_effect hinv hc he
    · have hlt : fuel < c.length := by omega
      obtain ⟨o', ho', hch, _⟩ := repr_iff.1 hc
      have hnn : o'.head_.next_node ≠ .null := by
        cases c with
        | nil => simp at hlt
        | cons x rest => obtain ⟨a, v⟩ := x; rw [(seg_cons.1 hch).1]; simp
      simp only [Clear, readNode_head_eq ho', hnn, ne_eq, not_false_eq_true, if_true,
        ClearLoop_nofuel hinv.1 hc hlt, Safe]

theorem swap_dead_left {s : Machine α} {l : Nat} (r : Nat) (hd : cellAt s.lists l = none) :
    ∃ f, swap s l r = .fault f := by
  simp only [swap, readNode, hd]
  cases cellAt s.lists r with
  | none => exact ⟨_, rfl⟩
  | some o => exact ⟨_, rfl⟩

theorem swap_dead_right {s : Machine α} {r : Nat} (l : Nat) (hd : cellAt s.lists r = none) :
    ∃ f, swap s l r = .fault f := by
  simp only [swap, readNode, hd]
  cases cellAt s.lists l with
  | none => exact ⟨_, rfl⟩
  | some o => exact ⟨_, rfl⟩

theorem inv_of_swap {s s' : Machine α} {l r : Nat} {c1 c2 : List (Nat × α)}
    (hinv : Inv s) (hne : l ≠ r) (h1 : Repr s l c1) (h2 : Repr s r c2)
    (hr1 : Repr s' l c2) (hr2 : Repr s' r c1) (hn : s'.nodes = s.nodes)
    (hcap : s'.capacity = s.capacity)
    (hfr : ∀ x, x ≠ l → x ≠ r → cellAt s'.lists x = cellAt s.lists x) : Inv s' := by
  obtain ⟨hwf, ch, hch, hdisj⟩ := hinv
  have e1 : c1 = ch l := h1.unique_chain (hch l h1.isSome)
  have e2 : c2 = ch r := h2.unique_chain (hch r h2.isSome)
  have key : ∀ x, (cellAt s'.lists x).isSome →
      (cellAt s.lists (Equiv.swap l r x)).isSome ∧ Repr s' x (ch (Equiv.swap l r x)) := by
    intro x hx
    by_cases hxl : x = l
    · subst hxl
      rw [Equiv.swap_apply_left, ← e2]
      exact ⟨h2.isSome, hr1⟩
    · by_cases hxr : x = r
      · subst hxr
        rw [Equiv.swap_apply_right, ← e1]
        exact ⟨h1.isSome, hr2⟩
      · rw [Equiv.swap_apply_of_ne_of_ne hxl hxr]
        have hs : (cellAt s.lists x).isSome := by rw [← hfr x hxl hxr]; exact hx
        exact ⟨hs, Repr.congr (hfr x hxl hxr) (fun a _ => by rw [hn]) (hch x hs)⟩
  refine ⟨⟨by rw [hn, hcap]; exact hwf.1, by rw [hcap]; exact hwf.2⟩,
    fun x => ch (Equiv.swap l r x), fun x hx => (key x hx).2, ?_⟩
  intro x1 x2 hx h1' h2'
  exact hdisj _ _ (fun h => hx ((Equiv.swap l r).injective h)) (key x1 h1').1 (key x2 h2').1

theorem swap_safe {s : Machine α} (hinv : Inv s) (l r : Nat) : Safe Inv (swap s l r) := by
  rcases live_cases s l with hd | ⟨o1, ho1⟩
  · obtain ⟨f, hf⟩ := swap_dead_left r hd
    simp [hf, Safe]
  · rcases live_cases s r with hd | ⟨o2, ho2⟩
    · obtain ⟨f, hf⟩ := swap_dead_right l hd
      simp [hf, Safe]
    · obtain ⟨c1, hc1⟩ := hinv.repr_of_some ho1
      obtain ⟨c2, hc2⟩ := hinv.repr_of_some ho2
      obtain ⟨s', hrun, hr1, hr2, hn, hcap, hll, hfr⟩ := swap_repr hc1 hc2
      rw [hrun]
      simp only [Safe]
      by_cases hlr : l = r
      · subst hlr
        have hcc : c1 = c2 := hc1.unique_chain hc2
        subst hcc
        refine @inv_of_frame _ _ _ _ _ c1 hinv (fun _ => hc1)
          (fun hn' => by rw [ho1] at hn'; simp at hn') ⟨hr1, ⟨by rw [hn, hcap]; exact hinv.1.1, by rw [hcap]; exact hinv.1.2⟩,
            hcap, by rw [hn], by rw [hll], ?_, ?_, ?_, fun a ha => Or.inl ha⟩
        · intro x hx _
          exact cellAt_ge (by omega)
        · intro x _ hx
          exact hfr x hx hx
        · intro a _ _
          rw [hn]
      · exact inv_of_swap hinv hlr hc1 hc2 hr1 hr2 hn hcap hfr
/-! ## Every call keeps the invariant: copy construction -/

theorem endLoop_nofuel {s : Machine α} {p : NodePtr} {c : List (Nat × α)} {fuel : Nat}
    (h : Chain s.nodes p c) (hf : fuel ≤ c.length) : endLoop s fuel ⟨p⟩ = .error .outOfFuel := by
  induction c generalizing p fuel with
  | nil =>
    have : fuel = 0 := by simpa using hf
    subst this
    rfl
  | cons x rest ih =>
    obtain ⟨a, v⟩ := x
    cases fuel with
    | zero => rfl
    | succ k =>
      obtain ⟨hp, r, hc, hr⟩ := seg_cons.1 h
      subst hp
      have hk : k ≤ rest.length := by simpa using hf
      simp [endLoop, preIncrement, readNode, hc, ih hr hk]

theorem inv_of_quiet {s s' : Machine α} (hinv : Inv s) (hwf : s'.WF)
    (hnew : ∀ l, s.lists.length ≤ l → cellAt s'.lists l = none)
    (hold : ∀ l, l < s.lists.length → cellAt s'.lists l = cellAt s.lists l)
    (hnodes : ∀ a, a < s.nodes.length → cellAt s'.nodes a = cellAt s.nodes a) : Inv s' := by
  obtain ⟨_, ch, hch, hdisj⟩ := hinv
  have key : ∀ l, (cellAt s'.lists l).isSome → (cellAt s.lists l).isSome ∧ Repr s' l (ch l) := by
    intro l hsome
    have hlt : l < s.lists.length := by
      by_contra hge
      rw [hnew l (by omega)] at hsome
      simp at hsome
    have hs : (cellAt s.lists l).isSome := by rw [← hold l hlt]; exact hsome
    exact ⟨hs, Repr.congr (hold l hlt) (fun a ha => hnodes a ((hch l hs).addr_lt a ha))
      (hch l hs)⟩
  exact ⟨hwf, ch, fun l hl => (key l hl).2,
    fun l1 l2 hne h1 h2 => hdisj l1 l2 hne (key l1 h1).1 (key l2 h2).1⟩

theorem copyConstruct_dead [Inhabited α] {s : Machine α} {other : Nat} (fuel : Nat)
    (hd : cellAt (construct (construct s).1).1.lists other = none) :
    ∃ f, copyConstruct s other fuel = .fault f := by
  simp only [copyConstruct]
  have hc0 : cellAt (construct s).1.lists (construct s).2 = some ⟨⟨default, .null⟩, 0⟩ := by
    simp [construct, cellAt_append_length]
  rw [hc0]
  simp only [and_self, not_true_eq_false, if_false]
  cases hbb : before_begin (construct (construct s).1).1 (construct (construct s).1).2 with
  | error f => exact ⟨f, rfl⟩
  | ok it =>
    simp only [begin, readNode, hd]
    exact ⟨_, rfl⟩

theorem copyConstruct_nofuel [Inhabited α] {s : Machine α} {other : Nat} {c : List (Nat × α)}
    {fuel : Nat} (h1 : Repr (construct (construct s).1).1 other c) (hf : fuel ≤ c.length) :
    ∃ f, copyConstruct s other fuel = .fault f := by
  simp only [copyConstruct]
  have hc0 : cellAt (construct s).1.lists (construct s).2 = some ⟨⟨default, .null⟩, 0⟩ := by
    simp [construct, cellAt_append_length]
  rw [hc0]
  simp only [and_self, not_true_eq_false, if_false]
  cases hbb : before_begin (construct (construct s).1).1 (construct (construct s).1).2 with
  | error f => exact ⟨f, rfl⟩
  | ok it =>
    obtain ⟨o, ho, hc, _⟩ := repr_iff.1 h1
    have hend : end_ (construct (construct s).1).1 other fuel = .error .outOfFuel := by
      simp [end_, readNode_head_eq ho, endLoop_nofuel hc hf]
    rw [begin_repr h1, hend]
    exact ⟨_, rfl⟩

theorem copyConstruct_thrown [Inhabited α] {s : Machine α} {other : Nat} {c : List (Nat × α)}
    {fuel : Nat} (hwf : s.WF) (h1 : Repr (construct (construct s).1).1 other c)
    (hroom : s.capacity < s.nodes.length + c.length) (hf : c.length < fuel) :
    ∃ s', copyConstruct s other fuel = .thrown s' ∧ s'.WF ∧
      (∀ l, s.lists.length ≤ l → cellAt s'.lists l = none) ∧
      (∀ l, l < s.lists.length → cellAt s'.lists l = cellAt s.lists l) ∧
      (∀ a, a < s.nodes.length → cellAt s'.nodes a = cellAt s.nodes a) := by
  obtain ⟨s1, hs1⟩ : ∃ s1 : Machine α, s1 = (construct (construct s).1).1 := ⟨_, rfl⟩
  have hs1n : s1.nodes = s.nodes := by rw [hs1]; rfl
  have hs1c : s1.capacity = s.capacity := by rw [hs1]; rfl
  have hs1l : s1.lists = s.lists ++ [some ⟨⟨default, .null⟩, 0⟩] ++
      [some ⟨⟨default, .null⟩, 0⟩] := by rw [hs1]; rfl
  have hwf1 : s1.WF := by rw [hs1]; exact construct_wf (construct_wf hwf)
  have htmp : Repr s1 (s.lists.length + 1) [] := by
    have := construct_repr (construct s).1
    rw [← hs1] at this
    simpa [construct] using this
  have hold1 : ∀ l, l < s.lists.length → cellAt s1.lists l = cellAt s.lists l := by
    intro l hl
    rw [hs1l, cellAt_append_left _ (by simp; omega), cellAt_append_left _ hl]
  have hoth1 : Repr s1 other c := by rw [hs1]; exact h1
  obtain ⟨o, ho, hc, hsz⟩ := repr_iff.1 hoth1
  obtain ⟨s2, ct, hrun2, he2, hlen2⟩ :=
    @copyLoop_thrown _ _ (s.lists.length + 1) _ _ _ fuel hwf1 htmp hc
      (by intro x hx; simp [addrs] at hx) (by rw [hs1n, hs1c]; exact hroom) hf
  obtain ⟨hr2, hwf2, hcap2, hnl2, hll2, hfl2, hfn2, hsub2⟩ := he2
  obtain ⟨s3, hrun3, he3⟩ := @Clear_effect _ _ _ _ fuel hwf2 hr2
    (by simp only [List.length_nil] at hlen2; omega)
  obtain ⟨hr3, hwf3, hcap3, hnl3, hll3, hfl3, hfn3, -⟩ := he3
  have hlen3 : s3.lists.length = s.lists.length + 2 := by
    rw [hll3, hll2, hs1l]; simp
  refine ⟨release (release s3 (s.lists.length + 1)) s.lists.length, ?_, hwf3, ?_, ?_, ?_⟩
  · simp only [copyConstruct]
    have hc0 : cellAt (construct s).1.lists (construct s).2 = some ⟨⟨default, .null⟩, 0⟩ := by
      simp [construct, cellAt_append_length]
    rw [hc0]
    simp only [and_self, not_true_eq_false, if_false]
    rw [← hs1]
    have htmpid : (construct (construct s).1).2 = s.lists.length + 1 := by
      simp [construct]
    rw [htmpid]
    have hbb : before_begin s1 (s.lists.length + 1) = .ok ⟨.head (s.lists.length + 1)⟩ := by
      obtain ⟨ot, hot, _, _⟩ := repr_iff.1 htmp
      simp [before_begin, hot]
    rw [hbb, begin_repr hoth1, end_repr hoth1 hf]
    simp only
    have hfp : firstPtr c = o.head_.next_node := (chain_firstPtr hc).symm
    rw [hfp]
    simp only [List.length_nil, posPtr] at hrun2
    rw [hrun2]
    have hthisid : (construct s).2 = s.lists.length := rfl
    simp only [destroy, hrun3, hthisid]
  · intro l hl
    simp only [release]
    by_cases e0 : l = s.lists.length
    · subst e0
      rw [cellAt_set_eq _ (by simp only [List.length_set]; omega)]
    · rw [cellAt_set_ne _ (Ne.symm e0)]
      by_cases e1 : l = s.lists.length + 1
      · subst e1
        rw [cellAt_set_eq _ (by omega)]
      · exact cellAt_ge (by simp only [List.length_set]; omega)
  · intro l hl
    simp only [release]
    rw [cellAt_set_ne _ (by omega), cellAt_set_ne _ (by omega), hfl3 l (by omega),
      hfl2 l (by omega), hold1 l hl]
  · intro a ha
    simp only [release]
    have hna : a ∉ addrs ct := by
      intro hmem
      rcases hsub2 a hmem with h' | h'
      · simp [addrs] at h'
      · rw [hs1n] at h'; omega
    rw [hfn3 a (by rw [hs1n] at hnl2; omega) hna,
      hfn2 a (by rw [hs1n]; exact ha) (by simp [addrs]), hs1n]

theorem copyConstruct_safe [Inhabited α] {s : Machine α} (hinv : Inv s) (src fuel : Nat) :
    Safe Inv (copyConstruct s src fuel).void := by
  rcases live_cases (construct (construct s).1).1 src with hd | ⟨o, ho⟩
  · obtain ⟨f, hf⟩ := copyConstruct_dead fuel hd
    simp [hf, Res.void, Safe]
  · -- the source is alive once `*this` and `tmp` have been set up
    have hsrc : ∃ c, Repr (construct (construct s).1).1 src c := by
      by_cases hlt : src < s.lists.length
      · have hs : cellAt s.lists src = some o := by
          rw [← ho]
          simp only [construct]
          rw [cellAt_append_left _ (by simp; omega), cellAt_append_left _ hlt]
        obtain ⟨c, hc⟩ := hinv.repr_of_some hs
        exact ⟨c, construct2_repr hc⟩
      · refine ⟨[], repr_iff.2 ⟨o, ho, ?_, ?_⟩⟩
        · have hlt2 : src < s.lists.length + 2 := by
            have := cellAt_lt ho
            simpa [construct] using this
          have hcase : src = s.lists.length ∨ src = s.lists.length + 1 := by omega
          rcases hcase with e | e
          · subst e
            simp only [construct] at ho
            rw [cellAt_append_left _ (by simp), cellAt_append_length] at ho
            injection ho with ho
            rw [← ho]; exact seg_nil.2 rfl
          · subst e
            have hh : cellAt (construct (construct s).1).1.lists (s.lists.length + 1) =
                some ⟨⟨default, .null⟩, 0⟩ := by
              simp only [construct]
              have := cellAt_append_length (s.lists ++ [some ⟨⟨(default : α), .null⟩, 0⟩])
                (some ⟨⟨default, .null⟩, 0⟩)
              simpa using this
            rw [hh] at ho
            injection ho with ho
            rw [← ho]; exact seg_nil.2 rfl
        · have hlt2 : src < s.lists.length + 2 := by
            have := cellAt_lt ho
            simpa [construct] using this
          have hcase : src = s.lists.length ∨ src = s.lists.length + 1 := by omega
          rcases hcase with e | e
          · subst e
            simp only [construct] at ho
            rw [cellAt_append_left _ (by simp), cellAt_append_length] at ho
            injection ho with ho
            rw [← ho]; rfl
          · subst e
            have hh : cellAt (construct (construct s).1).1.lists (s.lists.length + 1) =
                some ⟨⟨default, .null⟩, 0⟩ := by
              simp only [construct]
              have := cellAt_append_length (s.lists ++ [some ⟨⟨(default : α), .null⟩, 0⟩])
                (some ⟨⟨default, .null⟩, 0⟩)
              simpa using this
            rw [hh] at ho
            injection ho with ho
            rw [← ho]; rfl
    obtain ⟨c, hc⟩ := hsrc
    by_cases hf : c.length < fuel
    · by_cases hroom : s.nodes.length + c.length ≤ s.capacity
      · obtain ⟨s', c', hrun, hr, _, hwf', hcap', hll', hdead', hold', hnodes', hnew', hlen'⟩ :=
          copyConstruct_core hinv.1 hc hroom hf
        simp only [hrun, Res.void, Safe]
        have hdead : cellAt s.lists s.lists.length = none := cellAt_ge (le_refl _)
        refine @inv_of_frame _ _ _ s.lists.length [] _ hinv
          (fun hs => by rw [hdead] at hs; simp at hs) (fun _ => rfl)
          ⟨hr, hwf', hcap', by omega, by omega, ?_, fun l hl _ => hold' l hl,
            fun a ha _ => hnodes' a ha, fun a ha => Or.inr (hnew' a ha)⟩
        intro l hl hne
        by_cases e1 : l = s.lists.length + 1
        · subst e1; exact hdead'
        · exact cellAt_ge (by omega)
      · obtain ⟨s', hrun, hwf', hnew', hold', hnodes'⟩ :=
          copyConstruct_thrown hinv.1 hc (by omega) hf
        simp only [hrun, Res.void, Safe]
        exact inv_of_quiet hinv hwf' hnew' hold' hnodes'
    · obtain ⟨f, hrun⟩ := copyConstruct_nofuel hc (by omega : fuel ≤ c.length)
      simp [hrun, Res.void, Safe]
/-! ## Every call keeps the invariant: assignment, and whole histories -/

theorem inv_release {s : Machine α} (hinv : Inv s) (l : Nat) : Inv (release s l) := by
  obtain ⟨hwf, ch, hch, hdisj⟩ := hinv
  have key : ∀ x, (cellAt (release s l).lists x).isSome →
      (cellAt s.lists x).isSome ∧ Repr (release s l) x (ch x) := by
    intro x hx
    have hxl : x ≠ l := by
      rintro rfl
      simp only [release] at hx
      by_cases hlt : x < s.lists.length
      · rw [cellAt_set_eq _ hlt] at hx; simp at hx
      · rw [cellAt_ge (by simp only [List.length_set]; omega)] at hx; simp at hx
    have heq : cellAt (release s l).lists x = cellAt s.lists x := by
      simp only [release]
      exact cellAt_set_ne _ (Ne.symm hxl)
    have hs : (cellAt s.lists x).isSome := by rw [← heq]; exact hx
    exact ⟨hs, Repr.congr heq (fun a _ => rfl) (hch x hs)⟩
  exact ⟨hwf, ch, fun x hx => (key x hx).2,
    fun x1 x2 hne h1 h2 => hdisj x1 x2 hne (key x1 h1).1 (key x2 h2).1⟩

theorem safe_void {ρ : Type} {P : Machine α → Prop} {r : Res (Machine α) ρ} :
    Safe P r.void ↔ Safe P r := by
  cases r <;> simp [Res.void, Safe]

theorem destroy_safe {s : Machine α} (hinv : Inv s) (l fuel : Nat) :
    Safe Inv (destroy s l fuel) := by
  have h := Clear_safe hinv l fuel
  simp only [destroy]
  cases hc : Clear s l fuel with
  | fault f => simp [Safe]
  | thrown s1 => rw [hc] at h; exact h
  | ok s1 u => rw [hc] at h; exact inv_release h l

theorem assign_safe [Inhabited α] {s : Machine α} (hinv : Inv s) (l r fuel : Nat) :
    Safe Inv (assign s l r fuel) := by
  simp only [assign]
  cases hemp : IsEmpty s r with
  | error f => simp [Safe]
  | ok b =>
    cases b with
    | true => exact Clear_safe hinv l fuel
    | false =>
      simp only
      by_cases hlr : l = r
      · simp [hlr, Safe, hinv]
      · simp only [ne_eq, hlr, not_false_eq_true, if_true]
        have h1 := safe_void.1 (copyConstruct_safe hinv r fuel)
        cases hc : copyConstruct s r fuel with
        | fault f => simp [Safe]
        | thrown s1 => rw [hc] at h1; exact h1
        | ok s1 rhs_copy =>
          rw [hc] at h1
          have h2 := swap_safe (s := s1) h1 l rhs_copy
          simp only
          cases hs : swap s1 l rhs_copy with
          | fault f => simp [Safe]
          | thrown s2 => rw [hs] at h2; exact h2
          | ok s2 u =>
            rw [hs] at h2
            exact destroy_safe h2 rhs_copy fuel

theorem step_safe [Inhabited α] {s : Machine α} (hinv : Inv s) (fuel : Nat) (op : Op α) :
    Safe Inv (step fuel s op) := by
  cases op with
  | construct => exact construct_safe hinv
  | PushFront l v => exact PushFront_safe hinv l v
  | PopFront l => exact PopFront_safe hinv l
  | InsertAfter l i v => exact InsertAfter_safe hinv fuel l i v
  | EraseAfter l i => exact EraseAfter_safe hinv fuel l i
  | Clear l => exact Clear_safe hinv l fuel
  | swap l r => exact swap_safe hinv l r
  | copyConstruct src => exact copyConstruct_safe hinv src fuel
  | copyAssign l r => exact assign_safe hinv l r fuel

theorem run_safe [Inhabited α] {s : Machine α} (hinv : Inv s) (fuel : Nat) (ops : List (Op α)) :
    Safe Inv (run fuel ops s) := by
  induction ops generalizing s with
  | nil => exact hinv
  | cons op rest ih =>
    have h := step_safe hinv fuel op
    simp only [run]
    cases hs : step fuel s op with
    | fault f => simp [Safe]
    | thrown s1 => rw [hs] at h; exact ih h
    | ok s1 u => rw [hs] at h; exact ih h

theorem inv_initial [Inhabited α] {cap : Nat} (hcap : cap ≤ SIZE_MAX) :
    Inv (construct (Machine.empty α cap)).1 := by
  have h0 : Inv (Machine.empty α cap) := by
    refine ⟨⟨Nat.zero_le _, hcap⟩, fun _ => [], ?_, ?_⟩
    · intro l hl
      simp [Machine.empty, cellAt] at hl
    · intro l1 l2 _ _ _ a ha
      simp [addrs] at ha
  have := construct_safe h0
  simpa [defaultConstruct, Res.void, Safe] using this

theorem Inv.size {s : Machine α} (hinv : Inv s) {l : Nat} {o : SingleLinkedList α}
    (ho : cellAt s.lists l = some o) :
    ∃ c, Chain s.nodes o.head_.next_node c ∧ o.size_ = c.length ∧
      (o.head_.next_node = .null ↔ o.size_ = 0) := by
  obtain ⟨c, hc⟩ := hinv.repr_of_some ho
  obtain ⟨o', ho', hch, hsz⟩ := repr_iff.1 hc
  rw [ho] at ho'
  injection ho' with ho'
  subst ho'
  refine ⟨c, hch, hsz, ?_⟩
  rw [hsz]
  cases c with
  | nil => simp [seg_nil.1 hch]
  | cons x rest =>
    obtain ⟨a, v⟩ := x
    rw [(seg_cons.1 hch).1]
    simp
/-! ## The comparison algorithms on chains -/

theorem pairsEqual_iff [BEq α] (xs ys : List α) :
    pairsEqual xs ys = true ↔ PairwiseEq xs ys := by
  induction xs generalizing ys with
  | nil =>
    simp only [pairsEqual, true_iff]
    intro i x y hx
    simp at hx
  | cons a as ih =>
    cases ys with
    | nil =>
      simp only [pairsEqual, true_iff]
      intro i x y _ hy
      simp at hy
    | cons b bs =>
      simp only [pairsEqual, Bool.and_eq_true, ih]
      constructor
      · rintro ⟨hab, hrest⟩ i x y hx hy
        cases i with
        | zero =>
          simp only [List.getElem?_cons_zero, Option.some.injEq] at hx hy
          subst hx; subst hy; exact hab
        | succ k =>
          simp only [List.getElem?_cons_succ] at hx hy
          exact hrest k x y hx hy
      · intro h
        refine ⟨h 0 a b (by simp) (by simp), ?_⟩
        intro i x y hx hy
        exact h (i + 1) x y (by simpa using hx) (by simpa using hy)

theorem std_equal_chain [BEq α] {s : Machine α} {p1 p2 : NodePtr} {c1 c2 : List (Nat × α)}
    {fuel : Nat} (h1 : Chain s.nodes p1 c1) (h2 : Chain s.nodes p2 c2)
    (hlen : c1.length ≤ c2.length) (hf : c1.length < fuel) :
    std.equal s ⟨.null⟩ fuel ⟨p1⟩ ⟨p2⟩ = .ok (pairsEqual (vals c1) (vals c2)) := by
  induction c1 generalizing p1 p2 c2 fuel with
  | nil =>
    obtain ⟨k, rfl⟩ : ∃ k, fuel = k + 1 := ⟨fuel - 1, by simp at hf; omega⟩
    have hp : p1 = .null := seg_nil.1 h1
    subst hp
    simp [std.equal, BasicIterator.operator_ne, vals, pairsEqual]
  | cons x r1 ih =>
    obtain ⟨a, v⟩ := x
    obtain ⟨k, rfl⟩ : ∃ k, fuel = k + 1 := ⟨fuel - 1, by omega⟩
    cases c2 with
    | nil => simp at hlen
    | cons y r2 =>
      obtain ⟨b, w⟩ := y
      obtain ⟨hp1, q1, hc1, hq1⟩ := seg_cons.1 h1
      obtain ⟨hp2, q2, hc2, hq2⟩ := seg_cons.1 h2
      subst hp1; subst hp2
      have hk : r1.length < k := by simp at hf; omega
      have hl : r1.length ≤ r2.length := by simpa using hlen
      have hrec := ih hq1 hq2 hl hk
      by_cases hvw : (v == w) = true
      · simp [std.equal, BasicIterator.operator_ne, deref, preIncrement, readNode_node_eq hc1,
          readNode_node_eq hc2, hvw, hrec, vals, pairsEqual]
      · simp [std.equal, BasicIterator.operator_ne, deref, readNode_node_eq hc1,
          readNode_node_eq hc2, hvw, vals, pairsEqual]

theorem std_equal_short [BEq α] {s : Machine α} {p1 p2 : NodePtr} {c1 c2 : List (Nat × α)}
    {fuel : Nat} (h1 : Chain s.nodes p1 c1) (h2 : Chain s.nodes p2 c2)
    (hlen : c2.length < c1.length) (hpre : PairwiseEq (vals c1) (vals c2))
    (hf : c2.length < fuel) :
    std.equal s ⟨.null⟩ fuel ⟨p1⟩ ⟨p2⟩ = .error .assertFailed := by
  induction c2 generalizing p1 p2 c1 fuel with
  | nil =>
    obtain ⟨k, rfl⟩ : ∃ k, fuel = k + 1 := ⟨fuel - 1, by simp at hf; omega⟩
    have hp : p2 = .null := seg_nil.1 h2
    subst hp
    cases c1 with
    | nil => simp at hlen
    | cons x r1 =>
      obtain ⟨a, v⟩ := x
      obtain ⟨hp1, q1, hc1, hq1⟩ := seg_cons.1 h1
      subst hp1
      simp [std.equal, BasicIterator.operator_ne, deref, readNode_node_eq hc1]
  | cons y r2 ih =>
    obtain ⟨b, w⟩ := y
    obtain ⟨k, rfl⟩ : ∃ k, fuel = k + 1 := ⟨fuel - 1, by omega⟩
    cases c1 with
    | nil => simp at hlen
    | cons x r1 =>
      obtain ⟨a, v⟩ := x
      obtain ⟨hp1, q1, hc1, hq1⟩ := seg_cons.1 h1
      obtain ⟨hp2, q2, hc2, hq2⟩ := seg_cons.1 h2
      subst hp1; subst hp2
      have hk : r2.length < k := by simp at hf; omega
      have hl : r2.length < r1.length := by simpa using hlen
      have hvw : (v == w) = true := hpre 0 v w (by simp [vals]) (by simp [vals])
      have hpre' : PairwiseEq (vals r1) (vals r2) := by
        intro i x y hx hy
        exact hpre (i + 1) x y (by simpa [vals] using hx) (by simpa [vals] using hy)
      have hrec := ih hq1 hq2 hl hpre' hk
      simp [std.equal, BasicIterator.operator_ne, deref, preIncrement, readNode_node_eq hc1,
        readNode_node_eq hc2, hvw, hrec]

theorem lex_chain [LT α] [DecidableRel (α := α) (· < ·)] {s : Machine α} {p1 p2 : NodePtr}
    {c1 c2 : List (Nat × α)} {fuel : Nat} (h1 : Chain s.nodes p1 c1)
    (h2 : Chain s.nodes p2 c2) (hf1 : c1.length < fuel) (hf2 : c2.length < fuel) :
    std.lexicographical_compare s ⟨.null⟩ ⟨.null⟩ fuel ⟨p1⟩ ⟨p2⟩ =
      .ok (lexBefore (vals c1) (vals c2)) := by
  induction c1 generalizing p1 p2 c2 fuel with
  | nil =>
    obtain ⟨k, rfl⟩ : ∃ k, fuel = k + 1 := ⟨fuel - 1, by simp at hf1; omega⟩
    have hp : p1 = .null := seg_nil.1 h1
    subst hp
    cases c2 with
    | nil =>
      have hp2 : p2 = .null := seg_nil.1 h2
      subst hp2
      simp [std.lexicographical_compare, BasicIterator.operator_ne, BasicIterator.operator_eq,
        vals, lexBefore]
    | cons y r2 =>
      obtain ⟨b, w⟩ := y
      have hp2 : p2 = .node b := (seg_cons.1 h2).1
      subst hp2
      simp [std.lexicographical_compare, BasicIterator.operator_ne, BasicIterator.operator_eq,
        vals, lexBefore]
  | cons x r1 ih =>
    obtain ⟨a, v⟩ := x
    obtain ⟨k, rfl⟩ : ∃ k, fuel = k + 1 := ⟨fuel - 1, by omega⟩
    obtain ⟨hp1, q1, hc1, hq1⟩ := seg_cons.1 h1
    subst hp1
    cases c2 with
    | nil =>
      have hp2 : p2 = .null := seg_nil.1 h2
      subst hp2
      simp [std.lexicographical_compare, BasicIterator.operator_ne, BasicIterator.operator_eq,
        vals, lexBefore]
    | cons y r2 =>
      obtain ⟨b, w⟩ := y
      obtain ⟨hp2, q2, hc2, hq2⟩ := seg_cons.1 h2
      subst hp2
      have hk1 : r1.length < k := by simp at hf1; omega
      have hk2 : r2.length < k := by simp at hf2; omega
      have hrec := ih hq1 hq2 hk1 hk2
      by_cases hvw : v < w
      · simp [std.lexicographical_compare, BasicIterator.operator_ne, deref,
          readNode_node_eq hc1, readNode_node_eq hc2, hvw, vals, lexBefore]
      · by_cases hwv : w < v
        · simp [std.lexicographical_compare, BasicIterator.operator_ne, deref,
            readNode_node_eq hc1, readNode_node_eq hc2, hvw, hwv, vals, lexBefore]
        · simp [std.lexicographical_compare, BasicIterator.operator_ne, deref, preIncrement,
            readNode_node_eq hc1, readNode_node_eq hc2, hvw, hwv, hrec, vals, lexBefore]
theorem lexLess_cons_iff [LinearOrder α] (a : α) (as bs : List α) :
    LexLess (a :: as) (a :: bs) ↔ LexLess as bs := by
  constructor
  · rintro ⟨k, htake, h⟩
    cases k with
    | zero =>
      rcases h with ⟨h0, _⟩ | ⟨x, y, hx, hy, hlt⟩
      · simp at h0
      · simp only [List.getElem?_cons_zero, Option.some.injEq] at hx hy
        subst hx; subst hy
        exact absurd hlt (lt_irrefl _)
    | succ j =>
      refine ⟨j, ?_, ?_⟩
      · simpa using htake
      · rcases h with ⟨h0, h1⟩ | ⟨x, y, hx, hy, hlt⟩
        · left
          simp only [List.length_cons] at h0 h1
          exact ⟨by omega, by omega⟩
        · right
          exact ⟨x, y, by simpa using hx, by simpa using hy, hlt⟩
  · rintro ⟨k, htake, h⟩
    refine ⟨k + 1, by simp [htake], ?_⟩
    rcases h with ⟨h0, h1⟩ | ⟨x, y, hx, hy, hlt⟩
    · left
      simp only [List.length_cons]
      exact ⟨by omega, by omega⟩
    · right
      exact ⟨x, y, by simpa using hx, by simpa using hy, hlt⟩

theorem lexBefore_iff [LinearOrder α] (xs ys : List α) :
    lexBefore xs ys = true ↔ LexLess xs ys := by
  induction xs generalizing ys with
  | nil =>
    cases ys with
    | nil =>
      simp only [lexBefore, Bool.false_eq_true, false_iff]
      rintro ⟨k, _, ⟨_, h1⟩ | ⟨x, y, hx, _⟩⟩
      · simp at h1
      · simp at hx
    | cons b bs =>
      simp only [lexBefore, true_iff]
      exact ⟨0, rfl, Or.inl ⟨rfl, by simp⟩⟩
  | cons a as ih =>
    cases ys with
    | nil =>
      simp only [lexBefore, Bool.false_eq_true, false_iff]
      rintro ⟨k, _, ⟨_, h1⟩ | ⟨x, y, _, hy, _⟩⟩
      · simp at h1
      · simp at hy
    | cons b bs =>
      simp only [lexBefore]
      by_cases hab : a < b
      · simp only [hab, if_true, true_iff]
        exact ⟨0, rfl, Or.inr ⟨a, b, by simp, by simp, hab⟩⟩
      · by_cases hba : b < a
        · simp only [hab, hba, if_false, if_true, Bool.false_eq_true, false_iff]
          rintro ⟨k, htake, h⟩
          cases k with
          | zero =>
            rcases h with ⟨h0, _⟩ | ⟨x, y, hx, hy, hlt⟩
            · simp at h0
            · simp only [List.getElem?_cons_zero, Option.some.injEq] at hx hy
              subst hx; subst hy
              exact hab hlt
          | succ j =>
            simp only [List.take_succ_cons, List.cons.injEq] at htake
            rw [htake.1] at hba
            exact lt_irrefl _ hba
        · have heq : a = b := le_antisymm (not_lt.1 hba) (not_lt.1 hab)
          subst heq
          simp only [hab, if_false, ih, lexLess_cons_iff]
/-! ## The comparison operators on represented lists -/

theorem equalCall_repr [BEq α] {s : Machine α} {lhs rhs : Nat} {c1 c2 : List (Nat × α)}
    {fuel : Nat} (h1 : Repr s lhs c1) (h2 : Repr s rhs c2)
    (hlen : c1.length ≤ c2.length) (hf : c1.length < fuel) :
    equalCall s lhs rhs fuel = .ok (pairsEqual (vals c1) (vals c2)) := by
  obtain ⟨o1, _, hc1, _⟩ := repr_iff.1 h1
  obtain ⟨o2, _, hc2, _⟩ := repr_iff.1 h2
  rw [chain_firstPtr hc1] at hc1
  rw [chain_firstPtr hc2] at hc2
  simp only [equalCall, begin_repr h1, end_repr h1 hf, begin_repr h2]
  exact std_equal_chain hc1 hc2 hlen hf

theorem equalCall_short [BEq α] {s : Machine α} {lhs rhs : Nat} {c1 c2 : List (Nat × α)}
    {fuel : Nat} (h1 : Repr s lhs c1) (h2 : Repr s rhs c2)
    (hlen : c2.length < c1.length) (hpre : PairwiseEq (vals c1) (vals c2))
    (hf : c1.length < fuel) :
    equalCall s lhs rhs fuel = .error .assertFailed := by
  obtain ⟨o1, _, hc1, _⟩ := repr_iff.1 h1
  obtain ⟨o2, _, hc2, _⟩ := repr_iff.1 h2
  rw [chain_firstPtr hc1] at hc1
  rw [chain_firstPtr hc2] at hc2
  simp only [equalCall, begin_repr h1, end_repr h1 hf, begin_repr h2]
  exact std_equal_short hc1 hc2 hlen hpre (by omega)

theorem lexCall_repr [LT α] [DecidableRel (α := α) (· < ·)] {s : Machine α} {lhs rhs : Nat}
    {c1 c2 : List (Nat × α)} {fuel : Nat} (h1 : Repr s lhs c1) (h2 : Repr s rhs c2)
    (hf1 : c1.length < fuel) (hf2 : c2.length < fuel) :
    lexCall s lhs rhs fuel = .ok (lexBefore (vals c1) (vals c2)) := by
  obtain ⟨o1, _, hc1, _⟩ := repr_iff.1 h1
  obtain ⟨o2, _, hc2, _⟩ := repr_iff.1 h2
  rw [chain_firstPtr hc1] at hc1
  rw [chain_firstPtr hc2] at hc2
  simp only [lexCall, begin_repr h1, end_repr h1 hf1, begin_repr h2, end_repr h2 hf2]
  exact lex_chain hc1 hc2 hf1 hf2

theorem pairwiseEq_append_right [BEq α] [LawfulBEq α] (xs rest : List α) :
    PairwiseEq xs (xs ++ rest) := by
  intro i x y hx hy
  have hi : i < xs.length := (List.getElem?_eq_some.1 hx).1
  rw [List.getElem?_append_left hi, hx] at hy
  injection hy with hy
  subst hy
  exact beq_self_eq_true x

theorem pairwiseEq_append_left [BEq α] [LawfulBEq α] (xs rest : List α) :
    PairwiseEq (xs ++ rest) xs := by
  intro i x y hx hy
  have hi : i < xs.length := (List.getElem?_eq_some.1 hy).1
  rw [List.getElem?_append_left hi, hy] at hx
  injection hx with hx
  subst hx
  exact beq_self_eq_true y

theorem lexLess_append [LT α] (xs rest : List α) (hne : rest ≠ []) :
    LexLess xs (xs ++ rest) := by
  refine ⟨xs.length, by simp, Or.inl ⟨rfl, ?_⟩⟩
  have : 0 < rest.length := List.length_pos.2 hne
  simp only [List.length_append]
  omega

theorem not_lexLess_append [LinearOrder α] (xs rest : List α) :
    ¬ LexLess (xs ++ rest) xs := by
  rintro ⟨k, _, ⟨h0, h1⟩ | ⟨x, y, hx, hy, hlt⟩⟩
  · simp only [List.length_append] at h0
    omega
  · have hk : k < xs.length := (List.getElem?_eq_some.1 hy).1
    rw [List.getElem?_append_left hk, hy] at hx
    injection hx with hx
    subst hx
    exact lt_irrefl _ hlt

/-! ## Failure to create a node, and insertion at the sentinel -/

theorem InsertAfter_thrown_eq {s s' : Machine α} {this : Nat} {pos : BasicIterator} {v : α}
    (h : InsertAfter s this pos v = .thrown s') : s' = s := by
  simp only [InsertAfter] at h
  split at h
  · cases h
  · split at h
    · injection h with h; exact h.symm
    · split at h
      · cases h
      · split at h
        · cases h
        · split at h
          · cases h
          · cases h

theorem InsertAfter_head_void (s : Machine α) (l : Nat) (v : α) :
    (InsertAfter s l ⟨.head l⟩ v).void = PushFront s l v := by
  rcases live_cases s l with hd | ⟨o, ho⟩
  · simp [InsertAfter, PushFront, readNode, hd, Res.void]
  · by_cases hroom : s.nodes.length < s.capacity
    · rw [InsertAfter_head_eq v ho hroom, PushFront_eq v ho hroom]
      rfl
    · simp [InsertAfter, PushFront, readNode_head_eq ho, newNode, hroom, Res.void]

/-! ## The properties of the specification -/

/-- C1: starting from a default-constructed list, after any finite sequence of
`PushFront`, `PopFront`, `InsertAfter`, `EraseAfter`, `Clear`, `swap`,
copy-construction and copy-assignment calls (and further default
constructions) that runs without a fault, that is with every precondition
met, every live list object has a `size_` (the value of `GetSize()`) equal to
the number of nodes reachable from the next link of its sentinel, and that link
is null exactly when `size_` is 0.  Calls that throw are part of the history:
the run goes on from the state they leave. -/
theorem C1_size_invariant [Inhabited α] (cap fuel : Nat) (ops : List (Op α)) (s : Machine α)
    (hcap : cap ≤ SIZE_MAX)
    (hrun : run fuel ops (construct (Machine.empty α cap)).1 = .ok s ()) :
    ∀ l o, cellAt s.lists l = some o →
      ∃ c, Chain s.nodes o.head_.next_node c ∧ o.size_ = c.length ∧
        GetSize s l = .ok c.length ∧ (o.head_.next_node = .null ↔ o.size_ = 0) := by
  intro l o ho
  have hsafe := run_safe (inv_initial (α := α) hcap) fuel ops
  rw [hrun] at hsafe
  obtain ⟨c, hc, hsz, hiff⟩ := Inv.size hsafe ho
  refine ⟨c, hc, hsz, ?_, hiff⟩
  simp [GetSize, readSize, ho, hsz]

/-- C1, worked example: a history with every kind of call, ending with the
list 2, 1 of size 2 and an empty list of size 0. -/
theorem C1_witness :
    (10 ≤ SIZE_MAX ∧ run 5 demoOps (construct (Machine.empty Nat 10)).1 = .ok demoEnd ()) ∧
    ∀ l o, cellAt demoEnd.lists l = some o →
      ∃ c, Chain demoEnd.nodes o.head_.next_node c ∧ o.size_ = c.length ∧
        GetSize demoEnd l = .ok c.length ∧ (o.head_.next_node = .null ↔ o.size_ = 0) :=
  ⟨⟨by decide, by decide⟩, C1_size_invariant 10 5 demoOps demoEnd (by decide) (by decide)⟩

/-- C2: for every non-empty sequence of initial values, the list built by the
initializer-list constructor iterates from `begin()` to `end()` as exactly
these values in the given order, `GetSize()` returns their number and
`IsEmpty()` returns false (on a well-formed machine with room for the nodes). -/
theorem C2_initializer_list_order [Inhabited α] (s : Machine α) (values : List α)
    (hne : values ≠ []) (hwf : s.WF)
    (hroom : s.nodes.length + values.length ≤ s.capacity) :
    ∃ s' this, initConstruct s values = .ok s' this ∧
      (∀ fuel, values.length < fuel → elements s' this fuel = .ok values) ∧
      GetSize s' this = .ok values.length ∧ IsEmpty s' this = .ok false := by
  obtain ⟨s', c', hrun, hr, hv, _⟩ := initConstruct_effect values hne hwf hroom
  have hlen : c'.length = values.length := by
    rw [← hv]; simp [vals]
  refine ⟨s', s.lists.length, hrun, ?_, ?_, ?_⟩
  · intro fuel hf
    rw [elements_repr hr (by omega), hv]
  · rw [GetSize_repr hr, hlen]
  · rw [IsEmpty_repr hr, hlen]
    have : values.length ≠ 0 := fun h => hne (List.length_eq_zero.1 h)
    simp [this]

/-- C2, worked example: the list built from 1, 2, 3 iterates as 1, 2, 3 and has size 3. -/
theorem C2_witness :
    ([1, 2, 3] ≠ [] ∧ (Machine.empty Nat 3).WF ∧
      (Machine.empty Nat 3).nodes.length + [1, 2, 3].length ≤ (Machine.empty Nat 3).capacity) ∧
    ∃ s' this, initConstruct (Machine.empty Nat 3) [1, 2, 3] = .ok s' this ∧
      (∀ fuel, [1, 2, 3].length < fuel → elements s' this fuel = .ok [1, 2, 3]) ∧
      GetSize s' this = .ok [1, 2, 3].length ∧ IsEmpty s' this = .ok false :=
  ⟨⟨by decide, by decide, by decide⟩,
    C2_initializer_list_order (Machine.empty Nat 3) [1, 2, 3] (by decide) (by decide)
      (by decide)⟩

/-- C3: `n` calls of `PushFront` with values `x1 .. xn` on an empty list leave
`GetSize()` equal to `n` and the iteration order `xn, .., x1`. -/
theorem C3_PushFront_reverse_order (s : Machine α) (this : Nat) (xs : List α)
    (hwf : s.WF) (hempty : Repr s this [])
    (hroom : s.nodes.length + xs.length ≤ s.capacity) :
    ∃ s', pushAll this xs s = .ok s' () ∧ GetSize s' this = .ok xs.length ∧
      ∀ fuel, xs.length < fuel → elements s' this fuel = .ok xs.reverse := by
  obtain ⟨s', c', hrun, he, hv, _⟩ := pushAll_effect xs hwf hempty hroom
  have hv' : vals c' = xs.reverse := by simpa [vals] using hv
  have hlen : c'.length = xs.length := by
    have := congrArg List.length hv'
    simpa [vals] using this
  refine ⟨s', hrun, ?_, ?_⟩
  · rw [GetSize_repr he.repr, hlen]
  · intro fuel hf
    rw [elements_repr he.repr (by omega), hv']

/-- C3, worked example: pushing 1, 2, 3 gives size 3 and the order 3, 2, 1. -/
theorem C3_witness :
    (demoEmpty.WF ∧ Repr demoEmpty 0 [] ∧
      demoEmpty.nodes.length + [1, 2, 3].length ≤ demoEmpty.capacity) ∧
    ∃ s', pushAll 0 [1, 2, 3] demoEmpty = .ok s' () ∧ GetSize s' 0 = .ok [1, 2, 3].length ∧
      ∀ fuel, [1, 2, 3].length < fuel → elements s' 0 fuel = .ok [1, 2, 3].reverse :=
  ⟨⟨by decide, by decide, by decide⟩,
    C3_PushFront_reverse_order demoEmpty 0 [1, 2, 3] (by decide) (by decide) (by decide)⟩

/-- C4: on a list with element sequence `vals cs`, for a position index
`i ≤ n` (`0` is `before_begin()`, `k` the `k`-th element) `InsertAfter(pos_i, v)`
returns normally, the list then iterates as the first `i` elements, `v`, and the
remaining elements, `GetSize()` grows by exactly one, and the returned iterator
references the new node: dereferencing it gives `v` and it is the successor of
`pos_i`. -/
theorem C4_InsertAfter (s : Machine α) (this : Nat) (cs : List (Nat × α)) (i : Nat) (v : α)
    (hwf : s.WF) (h : Repr s this cs) (hi : i ≤ cs.length)
    (hroom : s.nodes.length < s.capacity) :
    ∃ pos s' r, position s this i = .ok pos ∧ InsertAfter s this pos v = .ok s' r ∧
      (∀ fuel, cs.length + 1 < fuel →
        elements s this fuel = .ok (vals cs) ∧
        elements s' this fuel = .ok ((vals cs).take i ++ v :: (vals cs).drop i)) ∧
      GetSize s this = .ok cs.length ∧ GetSize s' this = .ok (cs.length + 1) ∧
      deref s' r = .ok v ∧ preIncrement s' pos = .ok r := by
  obtain ⟨s', hrun, he⟩ := InsertAfter_effect i v hwf h hi hroom
  have hr := he.repr
  have hlen : (cs.take i ++ (s.nodes.length, v) :: cs.drop i).length = cs.length + 1 := by
    simp only [List.length_append, List.length_take, List.length_cons, List.length_drop]
    omega
  have hi' : i ≤ (cs.take i ++ (s.nodes.length, v) :: cs.drop i).length := by omega
  have hdrop : (cs.take i ++ (s.nodes.length, v) :: cs.drop i).drop i =
      (s.nodes.length, v) :: cs.drop i := by
    rw [List.drop_append_eq_append_drop]
    simp [List.length_take, Nat.min_eq_left hi]
  have hpos : posPtr this (cs.take i ++ (s.nodes.length, v) :: cs.drop i) i =
      posPtr this cs i := by
    cases i with
    | zero => rfl
    | succ k =>
      have hk : k < cs.length := hi
      simp only [posPtr]
      rw [List.getElem?_append_left (by rw [List.length_take]; omega),
        List.getElem?_take_of_lt (by omega)]
  refine ⟨⟨posPtr this cs i⟩, s', ⟨.node s.nodes.length⟩, position_repr h hi, hrun, ?_,
    GetSize_repr h, ?_, ?_, ?_⟩
  · intro fuel hf
    refine ⟨elements_repr h (by omega), ?_⟩
    rw [elements_repr hr (by omega)]
    simp [vals]
  · rw [GetSize_repr hr, hlen]
  · obtain ⟨n, _, hnx, hch⟩ := readNode_posPtr hr hi'
    rw [hdrop] at hch hnx
    rw [hnx] at hch
    exact deref_firstPtr hch
  · have := preIncrement_posPtr hr hi'
    rw [hpos, hdrop] at this
    exact this

/-- C4, worked example: inserting 7 after the first element of 1, 2, 3. -/
theorem C4_witness :
    (demo3.WF ∧ Repr demo3 0 [(2, 1), (1, 2), (0, 3)] ∧
      1 ≤ [(2, 1), (1, 2), (0, 3)].length ∧ demo3.nodes.length < demo3.capacity) ∧
    ∃ pos s' r, position demo3 0 1 = .ok pos ∧ InsertAfter demo3 0 pos 7 = .ok s' r ∧
      (∀ fuel, [(2, 1), (1, 2), (0, 3)].length + 1 < fuel →
        elements demo3 0 fuel = .ok (vals [(2, 1), (1, 2), (0, 3)]) ∧
        elements s' 0 fuel = .ok ((vals [(2, 1), (1, 2), (0, 3)]).take 1 ++
          7 :: (vals [(2, 1), (1, 2), (0, 3)]).drop 1)) ∧
      GetSize demo3 0 = .ok [(2, 1), (1, 2), (0, 3)].length ∧
      GetSize s' 0 = .ok ([(2, 1), (1, 2), (0, 3)].length + 1) ∧
      deref s' r = .ok 7 ∧ preIncrement s' pos = .ok r :=
  ⟨⟨by decide, by decide, by decide, by decide⟩,
    C4_InsertAfter demo3 0 [(2, 1), (1, 2), (0, 3)] 1 7 (by decide) (by decide) (by decide)
      (by decide)⟩
/-- C5: on a list with `n ≥ 1` elements and for a position index `i < n`,
`EraseAfter(pos_i)` returns normally (no failed assertion, no null or dangling
dereference), the list then iterates as the old sequence without its element at
index `i`, `GetSize()` shrinks by exactly one, and the returned iterator is the
successor of `pos_i`: it references the element that followed the removed one,
or is the `end()` position when the removed element was the last. -/
theorem C5_EraseAfter (s : Machine α) (this : Nat) (cs : List (Nat × α)) (i : Nat)
    (hwf : s.WF) (h : Repr s this cs) (hi : i < cs.length) :
    ∃ pos s' r, position s this i = .ok pos ∧ EraseAfter s this pos = .ok s' r ∧
      (∀ fuel, cs.length < fuel →
        elements s this fuel = .ok (vals cs) ∧
        elements s' this fuel = .ok ((vals cs).eraseIdx i) ∧
        (i + 1 = cs.length → end_ s' this fuel = .ok r)) ∧
      GetSize s this = .ok cs.length ∧ GetSize s' this = .ok (cs.length - 1) ∧
      preIncrement s' pos = .ok r ∧
      (∀ hlt : i + 1 < (vals cs).length, deref s' r = .ok ((vals cs).get ⟨i + 1, hlt⟩)) := by
  obtain ⟨s', hrun, he⟩ := EraseAfter_effect i hwf h hi
  have hr := he.repr
  have hlen : (cs.take i ++ cs.drop (i + 1)).length = cs.length - 1 := by
    simp only [List.length_append, List.length_take, List.length_drop]; omega
  have hi' : i ≤ (cs.take i ++ cs.drop (i + 1)).length := by omega
  have hdrop : (cs.take i ++ cs.drop (i + 1)).drop i = cs.drop (i + 1) := by
    rw [List.drop_append_eq_append_drop]
    simp [List.length_take, Nat.min_eq_left (Nat.le_of_lt hi)]
  have hpos : posPtr this (cs.take i ++ cs.drop (i + 1)) i = posPtr this cs i := by
    cases i with
    | zero => rfl
    | succ k =>
      simp only [posPtr]
      rw [List.getElem?_append_left (by rw [List.length_take]; omega),
        List.getElem?_take_of_lt (by omega)]
  have hvals : vals (cs.take i ++ cs.drop (i + 1)) = (vals cs).eraseIdx i := by
    rw [List.eraseIdx_eq_take_drop_succ]
    simp [vals]
  refine ⟨⟨posPtr this cs i⟩, s', ⟨firstPtr (cs.drop (i + 1))⟩, position_repr h (Nat.le_of_lt hi),
    hrun, ?_, GetSize_repr h, ?_, ?_, ?_⟩
  · intro fuel hf
    refine ⟨elements_repr h hf, ?_, ?_⟩
    · rw [elements_repr hr (by omega), hvals]
    · intro hlast
      rw [end_repr hr (by omega), hlast, List.drop_length]
      rfl
  · rw [GetSize_repr hr, hlen]
  · have := preIncrement_posPtr hr hi'
    rw [hpos, hdrop] at this
    exact this
  · intro hlt
    have hlt' : i + 1 < cs.length := by simpa [vals] using hlt
    obtain ⟨n, _, hnx, hch⟩ := readNode_posPtr hr hi'
    rw [hdrop] at hch hnx
    rw [hnx] at hch
    have hd : cs.drop (i + 1) = cs.get ⟨i + 1, hlt'⟩ :: cs.drop (i + 1 + 1) := by simp
    rcases hx : cs.get ⟨i + 1, hlt'⟩ with ⟨a, v⟩
    have hch' : Chain s'.nodes (firstPtr (cs.drop (i + 1))) ((a, v) :: cs.drop (i + 1 + 1)) := by
      rw [← hx, ← hd]; exact hch
    rw [deref_firstPtr hch']
    simp only [vals, List.get_eq_getElem, List.getElem_map]
    simp only [List.get_eq_getElem] at hx
    rw [hx]

/-- C5, worked example: erasing after the first element of 1, 2, 3 leaves 1, 3. -/
theorem C5_witness :
    (demo3.WF ∧ Repr demo3 0 [(2, 1), (1, 2), (0, 3)] ∧ 1 < [(2, 1), (1, 2), (0, 3)].length) ∧
    ∃ pos s' r, position demo3 0 1 = .ok pos ∧ EraseAfter demo3 0 pos = .ok s' r ∧
      (∀ fuel, [(2, 1), (1, 2), (0, 3)].length < fuel →
        elements demo3 0 fuel = .ok (vals [(2, 1), (1, 2), (0, 3)]) ∧
        elements s' 0 fuel = .ok ((vals [(2, 1), (1, 2), (0, 3)]).eraseIdx 1) ∧
        (1 + 1 = [(2, 1), (1, 2), (0, 3)].length → end_ s' 0 fuel = .ok r)) ∧
      GetSize demo3 0 = .ok [(2, 1), (1, 2), (0, 3)].length ∧
      GetSize s' 0 = .ok ([(2, 1), (1, 2), (0, 3)].length - 1) ∧
      preIncrement s' pos = .ok r ∧
      (∀ hlt : 1 + 1 < (vals [(2, 1), (1, 2), (0, 3)]).length,
        deref s' r = .ok ((vals [(2, 1), (1, 2), (0, 3)]).get ⟨1 + 1, hlt⟩)) :=
  ⟨⟨by decide, by decide, by decide⟩,
    C5_EraseAfter demo3 0 [(2, 1), (1, 2), (0, 3)] 1 (by decide) (by decide) (by decide)⟩

/-- C6: on a non-empty list `x1, x2, .., xn`, `PopFront()` returns normally,
leaves the sequence `x2, .., xn` and `GetSize()` equal to `n - 1`; in
particular `InsertAfter(before_begin(), x)` on an empty list gives the
one-element list `x`, and `PopFront()` on that list gives an empty list. -/
theorem C6_PopFront (s : Machine α) (this : Nat) (cs : List (Nat × α))
    (hwf : s.WF) (h : Repr s this cs) (hne : cs ≠ []) :
    (∃ s', PopFront s this = .ok s' () ∧
      (∀ fuel, cs.length < fuel →
        elements s this fuel = .ok (vals cs) ∧ elements s' this fuel = .ok (vals cs).tail) ∧
      GetSize s' this = .ok (cs.length - 1)) ∧
    (∀ (s0 : Machine α) (l : Nat) (x : α), s0.WF → Repr s0 l [] →
      s0.nodes.length < s0.capacity →
      ∃ bb s1 r s2, before_begin s0 l = .ok bb ∧ InsertAfter s0 l bb x = .ok s1 r ∧
        (∀ fuel, 1 < fuel → elements s1 l fuel = .ok [x]) ∧ GetSize s1 l = .ok 1 ∧
        PopFront s1 l = .ok s2 () ∧
        (∀ fuel, 0 < fuel → elements s2 l fuel = .ok []) ∧
        GetSize s2 l = .ok 0 ∧ IsEmpty s2 l = .ok true) := by
  constructor
  · obtain ⟨s', hrun, he⟩ := PopFront_effect hwf h hne
    refine ⟨s', hrun, ?_, ?_⟩
    · intro fuel hf
      refine ⟨elements_repr h hf, ?_⟩
      rw [elements_repr he.repr (by simp; omega)]
      simp [vals, List.map_tail]
    · rw [GetSize_repr he.repr]; simp
  · intro s0 l x hwf0 h0 hroom0
    obtain ⟨s1, hrun1, he1⟩ := InsertAfter_effect 0 x hwf0 h0 (Nat.zero_le _) hroom0
    simp only [List.take_nil, List.drop_nil, List.nil_append, posPtr] at hrun1 he1
    obtain ⟨s2, hrun2, he2⟩ := PopFront_effect he1.wf he1.repr (by simp)
    simp only [List.tail_cons] at he2
    have hbb : before_begin s0 l = .ok ⟨.head l⟩ := by
      have := position_repr h0 (Nat.zero_le _)
      simpa [position, posPtr] using this
    refine ⟨⟨.head l⟩, s1, _, s2, hbb, hrun1, ?_, ?_, hrun2, ?_, ?_, ?_⟩
    · intro fuel hf
      rw [elements_repr he1.repr (by simpa using hf)]; rfl
    · rw [GetSize_repr he1.repr]; rfl
    · intro fuel hf
      rw [elements_repr he2.repr (by simpa using hf)]; rfl
    · rw [GetSize_repr he2.repr]; rfl
    · rw [IsEmpty_repr he2.repr]; rfl

/-- C6, worked example: popping the front of 1, 2, 3 leaves 2, 3; and inserting
5 into an empty list and popping it again gives an empty list. -/
theorem C6_witness :
    (demo3.WF ∧ Repr demo3 0 [(2, 1), (1, 2), (0, 3)] ∧ [(2, 1), (1, 2), (0, 3)] ≠ []) ∧
    (∃ s', PopFront demo3 0 = .ok s' () ∧
      (∀ fuel, [(2, 1), (1, 2), (0, 3)].length < fuel →
        elements demo3 0 fuel = .ok (vals [(2, 1), (1, 2), (0, 3)]) ∧
        elements s' 0 fuel = .ok (vals [(2, 1), (1, 2), (0, 3)]).tail) ∧
      GetSize s' 0 = .ok ([(2, 1), (1, 2), (0, 3)].length - 1)) ∧
    (demoEmpty.WF ∧ Repr demoEmpty 0 [] ∧ demoEmpty.nodes.length < demoEmpty.capacity) ∧
    ∃ bb s1 r s2, before_begin demoEmpty 0 = .ok bb ∧ InsertAfter demoEmpty 0 bb 5 = .ok s1 r ∧
      (∀ fuel, 1 < fuel → elements s1 0 fuel = .ok [5]) ∧ GetSize s1 0 = .ok 1 ∧
      PopFront s1 0 = .ok s2 () ∧
      (∀ fuel, 0 < fuel → elements s2 0 fuel = .ok []) ∧
      GetSize s2 0 = .ok 0 ∧ IsEmpty s2 0 = .ok true :=
  ⟨⟨by decide, by decide, by decide⟩,
    (C6_PopFront demo3 0 [(2, 1), (1, 2), (0, 3)] (by decide) (by decide) (by decide)).1,
    ⟨by decide, by decide, by decide⟩,
    (C6_PopFront demo3 0 [(2, 1), (1, 2), (0, 3)] (by decide) (by decide) (by decide)).2
      demoEmpty 0 5 (by decide) (by decide) (by decide)⟩

/-- C7: for every list that satisfies the size invariant, after `Clear()` the
list has no elements (`begin()` equals `end()`), `IsEmpty()` returns true and
`GetSize()` returns 0; a second `Clear()` changes nothing, and `Clear()` on an
already-empty list leaves the state unchanged. -/
theorem C7_Clear (s : Machine α) (this : Nat) (cs : List (Nat × α)) (fuel : Nat)
    (hwf : s.WF) (h : Repr s this cs) (hf : cs.length < fuel) :
    ∃ s', Clear s this fuel = .ok s' () ∧
      begin s' this = end_ s' this fuel ∧ elements s' this fuel = .ok [] ∧
      IsEmpty s' this = .ok true ∧ GetSize s' this = .ok 0 ∧
      Clear s' this fuel = .ok s' () ∧ (cs = [] → s' = s) := by
  obtain ⟨s', hrun, he⟩ := Clear_effect hwf h (Nat.le_of_lt hf)
  have hr := he.repr
  have hpos : 0 < fuel := by omega
  refine ⟨s', hrun, ?_, elements_repr hr hpos, IsEmpty_repr hr, GetSize_repr hr,
    Clear_nil hr fuel, ?_⟩
  · rw [begin_repr hr, end_repr hr hpos]; rfl
  · intro hnil
    subst hnil
    rw [Clear_nil h fuel] at hrun
    injection hrun with hs _
    exact hs.symm

/-- C7, worked example: clearing the list 1, 2, 3. -/
theorem C7_witness :
    (demo3.WF ∧ Repr demo3 0 [(2, 1), (1, 2), (0, 3)] ∧ [(2, 1), (1, 2), (0, 3)].length < 4) ∧
    ∃ s', Clear demo3 0 4 = .ok s' () ∧
      begin s' 0 = end_ s' 0 4 ∧ elements s' 0 4 = .ok [] ∧
      IsEmpty s' 0 = .ok true ∧ GetSize s' 0 = .ok 0 ∧
      Clear s' 0 4 = .ok s' () ∧ ([(2, 1), (1, 2), (0, 3)] = [] → s' = demo3) :=
  ⟨⟨by decide, by decide, by decide⟩,
    C7_Clear demo3 0 [(2, 1), (1, 2), (0, 3)] 4 (by decide) (by decide) (by decide)⟩
/-- C8: for every list `L1` (the empty list included) the list `L2` that the
copy constructor builds from it has the same element sequence in the same
order and the same `GetSize()`, its nodes are none of the nodes of `L1`, and
`L1` has the same nodes, element sequence and size after the copy as before. -/
theorem C8_copy_constructor [Inhabited α] (s : Machine α) (other : Nat) (cs : List (Nat × α))
    (fuel : Nat) (hwf : s.WF) (h : Repr s other cs)
    (hroom : s.nodes.length + cs.length ≤ s.capacity) (hf : cs.length < fuel) :
    ∃ s' this c', copyConstruct s other fuel = .ok s' this ∧ this ≠ other ∧
      elements s other fuel = .ok (vals cs) ∧ GetSize s other = .ok cs.length ∧
      elements s' this fuel = .ok (vals cs) ∧ GetSize s' this = .ok cs.length ∧
      elements s' other fuel = .ok (vals cs) ∧ GetSize s' other = .ok cs.length ∧
      Repr s' other cs ∧ Repr s' this c' ∧ (∀ a, a ∈ addrs c' → a ∉ addrs cs) := by
  obtain ⟨s', c', hrun, hr, hv, _, _, _, _, hfl, hfn, hnew, _⟩ :=
    copyConstruct_effect hwf h hroom hf
  have hlen : c'.length = cs.length := by
    have := congrArg List.length hv
    simpa [vals] using this
  have hother : Repr s' other cs :=
    Repr.congr (hfl other h.live) (fun a ha => hfn a (h.addr_lt a ha)) h
  refine ⟨s', s.lists.length, c', hrun, Nat.ne_of_gt h.live, elements_repr h hf,
    GetSize_repr h, ?_, ?_, elements_repr hother hf, GetSize_repr hother, hother, hr, ?_⟩
  · rw [elements_repr hr (by omega), hv]
  · rw [GetSize_repr hr, hlen]
  · intro a ha ha'
    have := hnew a ha
    have := h.addr_lt a ha'
    omega

/-- C8, worked example: copying the list 1, 2, 3. -/
theorem C8_witness :
    (demo3.WF ∧ Repr demo3 0 [(2, 1), (1, 2), (0, 3)] ∧
      demo3.nodes.length + [(2, 1), (1, 2), (0, 3)].length ≤ demo3.capacity ∧
      [(2, 1), (1, 2), (0, 3)].length < 4) ∧
    ∃ s' this c', copyConstruct demo3 0 4 = .ok s' this ∧ this ≠ 0 ∧
      elements demo3 0 4 = .ok (vals [(2, 1), (1, 2), (0, 3)]) ∧
      GetSize demo3 0 = .ok [(2, 1), (1, 2), (0, 3)].length ∧
      elements s' this 4 = .ok (vals [(2, 1), (1, 2), (0, 3)]) ∧
      GetSize s' this = .ok [(2, 1), (1, 2), (0, 3)].length ∧
      elements s' 0 4 = .ok (vals [(2, 1), (1, 2), (0, 3)]) ∧
      GetSize s' 0 = .ok [(2, 1), (1, 2), (0, 3)].length ∧
      Repr s' 0 [(2, 1), (1, 2), (0, 3)] ∧ Repr s' this c' ∧
      (∀ a, a ∈ addrs c' → a ∉ addrs [(2, 1), (1, 2), (0, 3)]) :=
  ⟨⟨by decide, by decide, by decide, by decide⟩,
    C8_copy_constructor demo3 0 [(2, 1), (1, 2), (0, 3)] 4 (by decide) (by decide) (by decide)
      (by decide)⟩

/-- C9: for list objects `a` and `b` (two objects owning disjoint nodes, or
the same object), after the copy assignment `a = b` the element sequence and
`GetSize()` of `a` equal those of `b`, and `b` keeps its nodes, sequence and
size; so when `b` is empty `a` becomes empty with size 0; and when `b` is `a`
itself the assignment changes nothing at all. -/
theorem C9_copy_assignment [Inhabited α] (s : Machine α) (a b : Nat)
    (ca cb : List (Nat × α)) (fuel : Nat) (hwf : s.WF)
    (ha : Repr s a ca) (hb : Repr s b cb)
    (hdisj : a ≠ b → ∀ x, x ∈ addrs ca → x ∉ addrs cb)
    (hroom : a ≠ b → cb ≠ [] → s.nodes.length + cb.length ≤ s.capacity)
    (hfa : ca.length < fuel) (hfb : cb.length < fuel) :
    ∃ s', assign s a b fuel = .ok s' () ∧
      elements s b fuel = .ok (vals cb) ∧ GetSize s b = .ok cb.length ∧
      elements s' a fuel = .ok (vals cb) ∧ GetSize s' a = .ok cb.length ∧
      elements s' b fuel = .ok (vals cb) ∧ GetSize s' b = .ok cb.length ∧
      Repr s' b cb ∧
      (cb = [] → elements s' a fuel = .ok [] ∧ GetSize s' a = .ok 0 ∧
        IsEmpty s' a = .ok true) ∧
      (a = b → s' = s) := by
  obtain ⟨s', c', hrun, hfr, hv, hrb⟩ := assign_effect hwf ha hb hdisj hroom hfa hfb
  have hra : Repr s' a c' := hfr.1
  have hlen : c'.length = cb.length := by
    have := congrArg List.length hv
    simpa [vals] using this
  have hel : elements s' a fuel = .ok (vals cb) := by
    rw [elements_repr hra (by omega), hv]
  have hsz : GetSize s' a = .ok cb.length := by
    rw [GetSize_repr hra, hlen]
  refine ⟨s', hrun, elements_repr hb hfb, GetSize_repr hb, hel, hsz, elements_repr hrb hfb,
    GetSize_repr hrb, hrb, ?_, ?_⟩
  · intro hnil
    subst hnil
    refine ⟨hel, hsz, ?_⟩
    rw [IsEmpty_repr hra, hlen]; rfl
  · intro hab
    subst hab
    rw [assign_self ha fuel] at hrun
    injection hrun with hs _
    exact hs.symm

/-- C9, worked example: assigning the list 7 to the list 1, 2. -/
theorem C9_witness :
    (demoTwo.WF ∧ Repr demoTwo 0 [(1, 1), (0, 2)] ∧ Repr demoTwo 1 [(2, 7)] ∧
      (0 ≠ 1 → ∀ x, x ∈ addrs [(1, 1), (0, 2)] → x ∉ addrs [(2, 7)]) ∧
      (0 ≠ 1 → [(2, 7)] ≠ [] → demoTwo.nodes.length + [(2, 7)].length ≤ demoTwo.capacity) ∧
      [(1, 1), (0, 2)].length < 3 ∧ [(2, 7)].length < 3) ∧
    ∃ s', assign demoTwo 0 1 3 = .ok s' () ∧
      elements demoTwo 1 3 = .ok (vals [(2, 7)]) ∧ GetSize demoTwo 1 = .ok [(2, 7)].length ∧
      elements s' 0 3 = .ok (vals [(2, 7)]) ∧ GetSize s' 0 = .ok [(2, 7)].length ∧
      elements s' 1 3 = .ok (vals [(2, 7)]) ∧ GetSize s' 1 = .ok [(2, 7)].length ∧
      Repr s' 1 [(2, 7)] ∧
      ([(2, 7)] = [] → elements s' 0 3 = .ok [] ∧ GetSize s' 0 = .ok 0 ∧
        IsEmpty s' 0 = .ok true) ∧
      (0 = 1 → s' = demoTwo) :=
  ⟨⟨by decide, by decide, by decide, by decide, by decide, by decide, by decide⟩,
    C9_copy_assignment demoTwo 0 1 [(1, 1), (0, 2)] [(2, 7)] 3 (by decide) (by decide)
      (by decide) (by decide) (by decide) (by decide) (by decide)⟩

/-- C10: for list objects `A` and `B`, `swap(A, B)` leaves `A` with the nodes,
element sequence and size `B` had and `B` with those `A` had; a second
`swap(A, B)` restores the original state, so swap is an involution. -/
theorem C10_swap_involution (s : Machine α) (A B : Nat) (cA cB : List (Nat × α))
    (hA : Repr s A cA) (hB : Repr s B cB) :
    ∃ s', swapFree s A B = .ok s' () ∧ Repr s' A cB ∧ Repr s' B cA ∧
      (∀ fuel, cA.length < fuel → cB.length < fuel →
        elements s A fuel = .ok (vals cA) ∧ elements s B fuel = .ok (vals cB) ∧
        elements s' A fuel = .ok (vals cB) ∧ elements s' B fuel = .ok (vals cA)) ∧
      GetSize s A = .ok cA.length ∧ GetSize s B = .ok cB.length ∧
      GetSize s' A = .ok cB.length ∧ GetSize s' B = .ok cA.length ∧
      swapFree s' A B = .ok s () := by
  obtain ⟨oA, hoA, _, _⟩ := repr_iff.1 hA
  obtain ⟨oB, hoB, _, _⟩ := repr_iff.1 hB
  obtain ⟨s', hrun, hrA, hrB, _⟩ := swap_repr hA hB
  obtain ⟨s'', hrun', hback⟩ := swap_swap hoA hoB
  rw [hrun] at hrun'
  injection hrun' with hs _
  subst hs
  refine ⟨s', hrun, hrA, hrB, ?_, GetSize_repr hA, GetSize_repr hB, GetSize_repr hrA,
    GetSize_repr hrB, hback⟩
  intro fuel h1 h2
  exact ⟨elements_repr hA h1, elements_repr hB h2, elements_repr hrA h2, elements_repr hrB h1⟩

/-- C10, worked example: swapping the lists 1, 2 and 7. -/
theorem C10_witness :
    (Repr demoTwo 0 [(1, 1), (0, 2)] ∧ Repr demoTwo 1 [(2, 7)]) ∧
    ∃ s', swapFree demoTwo 0 1 = .ok s' () ∧ Repr s' 0 [(2, 7)] ∧
      Repr s' 1 [(1, 1), (0, 2)] ∧
      (∀ fuel, [(1, 1), (0, 2)].length < fuel → [(2, 7)].length < fuel →
        elements demoTwo 0 fuel = .ok (vals [(1, 1), (0, 2)]) ∧
        elements demoTwo 1 fuel = .ok (vals [(2, 7)]) ∧
        elements s' 0 fuel = .ok (vals [(2, 7)]) ∧
        elements s' 1 fuel = .ok (vals [(1, 1), (0, 2)])) ∧
      GetSize demoTwo 0 = .ok [(1, 1), (0, 2)].length ∧
      GetSize demoTwo 1 = .ok [(2, 7)].length ∧
      GetSize s' 0 = .ok [(2, 7)].length ∧ GetSize s' 1 = .ok [(1, 1), (0, 2)].length ∧
      swapFree s' 0 1 = .ok demoTwo () :=
  ⟨⟨by decide, by decide⟩,
    C10_swap_involution demoTwo 0 1 [(1, 1), (0, 2)] [(2, 7)] (by decide) (by decide)⟩
/-- C11: for lists `lhs` and `rhs` with the same number of elements,
`lhs == rhs` returns true if and only if every pair of elements at the same
index compares equal, and `lhs != rhs` returns the negation; in particular
(when an element always compares equal to itself) two lists holding the same
sequence compare equal. -/
theorem C11_equality_same_length [BEq α] (s : Machine α) (lhs rhs : Nat)
    (c1 c2 : List (Nat × α)) (fuel : Nat) (h1 : Repr s lhs c1) (h2 : Repr s rhs c2)
    (hlen : c1.length = c2.length) (hf : c1.length < fuel) :
    ∃ b, operator_eq s lhs rhs fuel = .ok b ∧
      (b = true ↔ PairwiseEq (vals c1) (vals c2)) ∧
      operator_ne s lhs rhs fuel = .ok (!b) ∧
      ((∀ x : α, (x == x) = true) → vals c1 = vals c2 → b = true) := by
  have hrun := equalCall_repr h1 h2 (Nat.le_of_eq hlen) hf
  refine ⟨pairsEqual (vals c1) (vals c2), hrun, pairsEqual_iff _ _, ?_, ?_⟩
  · simp only [operator_ne, hrun]
  · intro hrefl heq
    rw [pairsEqual_iff, heq]
    intro i x y hx hy
    rw [hx] at hy
    injection hy with hy
    subst hy
    exact hrefl x

/-- C11, worked example: two lists that both hold 1, 2 compare equal. -/
theorem C11_witness :
    (Repr demoCmp 0 [(1, 1), (0, 2)] ∧ Repr demoCmp 2 [(6, 1), (5, 2)] ∧
      [(1, 1), (0, 2)].length = [(6, 1), (5, 2)].length ∧ [(1, 1), (0, 2)].length < 3) ∧
    (∃ b, operator_eq demoCmp 0 2 3 = .ok b ∧
      (b = true ↔ PairwiseEq (vals [(1, 1), (0, 2)]) (vals [(6, 1), (5, 2)])) ∧
      operator_ne demoCmp 0 2 3 = .ok (!b) ∧
      ((∀ x : Nat, (x == x) = true) →
        vals [(1, 1), (0, 2)] = vals [(6, 1), (5, 2)] → b = true)) ∧
    operator_eq demoCmp 0 2 3 = .ok true :=
  ⟨⟨by decide, by decide, by decide, by decide⟩,
    C11_equality_same_length demoCmp 0 2 [(1, 1), (0, 2)] [(6, 1), (5, 2)] 3 (by decide)
      (by decide) (by decide) (by decide),
    by decide⟩

/-- C12: for lists of any lengths over a linearly ordered element type,
`lhs < rhs` returns true if and only if the sequence of `lhs` is
lexicographically less than that of `rhs` (at the first index where they
differ the element of `lhs` is smaller, or `lhs` is a strict prefix of `rhs`),
and `lhs > rhs` returns the same value as `rhs < lhs`. -/
theorem C12_less_is_lexicographic [LinearOrder α] (s : Machine α) (lhs rhs : Nat)
    (c1 c2 : List (Nat × α)) (fuel : Nat) (h1 : Repr s lhs c1) (h2 : Repr s rhs c2)
    (hf1 : c1.length < fuel) (hf2 : c2.length < fuel) :
    (∃ b, operator_lt s lhs rhs fuel = .ok b ∧ (b = true ↔ LexLess (vals c1) (vals c2))) ∧
    operator_gt s lhs rhs fuel = operator_lt s rhs lhs fuel ∧
    (∃ g, operator_gt s lhs rhs fuel = .ok g ∧ (g = true ↔ LexLess (vals c2) (vals c1))) :=
  ⟨⟨_, lexCall_repr h1 h2 hf1 hf2, lexBefore_iff _ _⟩, rfl,
    ⟨_, lexCall_repr h2 h1 hf2 hf1, lexBefore_iff _ _⟩⟩

/-- C12, worked example: the list 1, 2 is less than the list 1, 2, 3. -/
theorem C12_witness :
    (Repr demoCmp 0 [(1, 1), (0, 2)] ∧ Repr demoCmp 1 [(4, 1), (3, 2), (2, 3)] ∧
      [(1, 1), (0, 2)].length < 4 ∧ [(4, 1), (3, 2), (2, 3)].length < 4) ∧
    ((∃ b, operator_lt demoCmp 0 1 4 = .ok b ∧
        (b = true ↔ LexLess (vals [(1, 1), (0, 2)]) (vals [(4, 1), (3, 2), (2, 3)]))) ∧
      operator_gt demoCmp 0 1 4 = operator_lt demoCmp 1 0 4 ∧
      (∃ g, operator_gt demoCmp 0 1 4 = .ok g ∧
        (g = true ↔ LexLess (vals [(4, 1), (3, 2), (2, 3)]) (vals [(1, 1), (0, 2)])))) ∧
    operator_lt demoCmp 0 1 4 = .ok true :=
  ⟨⟨by decide, by decide, by decide, by decide⟩,
    C12_less_is_lexicographic demoCmp 0 1 [(1, 1), (0, 2)] [(4, 1), (3, 2), (2, 3)] 4
      (by decide) (by decide) (by decide) (by decide),
    by decide⟩

/-- C13: what the code does where the claim fails.  When the sequence of `lhs`
is a strict prefix of that of `rhs`, `lhs < rhs` returns true and yet
`lhs >= rhs` returns true as well, and `rhs <= lhs` does not return at all: it
fails the assertion of the iterator's `operator*`, because `std::equal` walks
past the end of the shorter list. -/
theorem C13_le_ge_on_prefix [LinearOrder α] (s : Machine α) (lhs rhs : Nat)
    (c1 c2 : List (Nat × α)) (rest : List α) (fuel : Nat)
    (h1 : Repr s lhs c1) (h2 : Repr s rhs c2) (hrest : rest ≠ [])
    (hpre : vals c2 = vals c1 ++ rest) (hf : c2.length < fuel) :
    operator_lt s lhs rhs fuel = .ok true ∧ operator_ge s lhs rhs fuel = .ok true ∧
      operator_le s rhs lhs fuel = .error .assertFailed := by
  have hlen : c1.length < c2.length := by
    have h := congrArg List.length hpre
    have hpos : 0 < rest.length := List.length_pos.2 hrest
    simp only [vals, List.length_map, List.length_append] at h
    omega
  have hlt : lexBefore (vals c1) (vals c2) = true := by
    rw [lexBefore_iff, hpre]
    exact lexLess_append _ _ hrest
  have hgt : lexBefore (vals c2) (vals c1) = false := by
    rw [← Bool.not_eq_true, lexBefore_iff, hpre]
    exact not_lexLess_append _ _
  have heq : pairsEqual (vals c1) (vals c2) = true := by
    rw [pairsEqual_iff, hpre]
    exact pairwiseEq_append_right _ _
  have hshort : equalCall s rhs lhs fuel = .error .assertFailed := by
    refine equalCall_short h2 h1 hlen ?_ hf
    rw [hpre]
    exact pairwiseEq_append_left _ _
  have hf1 : c1.length < fuel := by omega
  refine ⟨?_, ?_, ?_⟩
  · simp only [operator_lt, lexCall_repr h1 h2 hf1 hf, hlt]
  · simp only [operator_ge, lexCall_repr h2 h1 hf hf1, hgt,
      equalCall_repr h1 h2 (Nat.le_of_lt hlen) hf1, heq]
  · simp only [operator_le, lexCall_repr h2 h1 hf hf1, hgt, hshort]

/-- C13, worked example: with `lhs` = 1, 2 and `rhs` = 1, 2, 3, both `lhs < rhs`
and `lhs >= rhs` return true, and `rhs <= lhs` fails an assertion. -/
theorem C13_witness :
    (Repr demoCmp 0 [(1, 1), (0, 2)] ∧ Repr demoCmp 1 [(4, 1), (3, 2), (2, 3)] ∧
      [3] ≠ [] ∧ vals [(4, 1), (3, 2), (2, 3)] = vals [(1, 1), (0, 2)] ++ [3] ∧
      [(4, 1), (3, 2), (2, 3)].length < 4) ∧
    operator_lt demoCmp 0 1 4 = .ok true ∧ operator_ge demoCmp 0 1 4 = .ok true ∧
      operator_le demoCmp 1 0 4 = .error .assertFailed :=
  ⟨⟨by decide, by decide, by decide, by decide, by decide⟩,
    C13_le_ge_on_prefix demoCmp 0 1 [(1, 1), (0, 2)] [(4, 1), (3, 2), (2, 3)] [3] 4
      (by decide) (by decide) (by decide) (by decide) (by decide)⟩
/-- C14: for every list that satisfies the size invariant, `begin()` and
`cbegin()` return the same iterator, which references the first element when
the list is not empty (dereferencing it gives the front value); the loops of
`end()` and `cend()` terminate and return the no-node position; and
`begin() == end()` holds if and only if the list is empty. -/
theorem C14_begin_end (s : Machine α) (this : Nat) (cs : List (Nat × α)) (fuel : Nat)
    (h : Repr s this cs) (hf : cs.length < fuel) :
    ∃ b e, begin s this = .ok b ∧ cbegin s this = .ok b ∧
      end_ s this fuel = .ok e ∧ cend s this fuel = .ok e ∧ e = ⟨.null⟩ ∧
      (∀ x rest, vals cs = x :: rest → deref s b = .ok x) ∧
      (b.operator_eq e = true ↔ cs = []) ∧ (b.operator_ne e = true ↔ cs ≠ []) := by
  obtain ⟨o, ho, hc, _⟩ := repr_iff.1 h
  refine ⟨⟨firstPtr cs⟩, ⟨.null⟩, begin_repr h, ?_, end_repr h hf, ?_, rfl, ?_, ?_, ?_⟩
  · simp [cbegin, readNode_head_eq ho, chain_firstPtr hc]
  · simp [cend, readNode_head_eq ho, endLoop_chain hc hf]
  · intro x rest hv
    cases cs with
    | nil => simp [vals] at hv
    | cons y r =>
      obtain ⟨a, v⟩ := y
      simp only [vals, List.map_cons, List.cons.injEq] at hv
      rw [← hv.1]
      rw [chain_firstPtr hc] at hc
      exact deref_firstPtr hc
  · cases cs with
    | nil => simp [BasicIterator.operator_eq, firstPtr]
    | cons y r => obtain ⟨a, v⟩ := y; simp [BasicIterator.operator_eq, firstPtr]
  · cases cs with
    | nil => simp [BasicIterator.operator_ne, firstPtr]
    | cons y r => obtain ⟨a, v⟩ := y; simp [BasicIterator.operator_ne, firstPtr]

/-- C14, worked example: on the list 1, 2, 3 `begin()` references the node
holding 1 and differs from `end()`. -/
theorem C14_witness :
    (Repr demo3 0 [(2, 1), (1, 2), (0, 3)] ∧ [(2, 1), (1, 2), (0, 3)].length < 4) ∧
    ∃ b e, begin demo3 0 = .ok b ∧ cbegin demo3 0 = .ok b ∧
      end_ demo3 0 4 = .ok e ∧ cend demo3 0 4 = .ok e ∧ e = ⟨.null⟩ ∧
      (∀ x rest, vals [(2, 1), (1, 2), (0, 3)] = x :: rest → deref demo3 b = .ok x) ∧
      (b.operator_eq e = true ↔ [(2, 1), (1, 2), (0, 3)] = []) ∧
      (b.operator_ne e = true ↔ [(2, 1), (1, 2), (0, 3)] ≠ []) :=
  ⟨⟨by decide, by decide⟩,
    C14_begin_end demo3 0 [(2, 1), (1, 2), (0, 3)] 4 (by decide) (by decide)⟩

/-- C15: for every list and value `v`, `InsertAfter(before_begin(), v)` and
`PushFront(v)` end in the same machine state, in which the list iterates as `v`
followed by its former elements and `GetSize()` has grown by one; and on any
state whatever the two calls have the same outcome. -/
theorem C15_InsertAfter_before_begin_is_PushFront (s : Machine α) (this : Nat)
    (cs : List (Nat × α)) (v : α) (hwf : s.WF) (h : Repr s this cs)
    (hroom : s.nodes.length < s.capacity) :
    (∃ bb s' r, before_begin s this = .ok bb ∧ InsertAfter s this bb v = .ok s' r ∧
      PushFront s this v = .ok s' () ∧
      (∀ fuel, cs.length + 1 < fuel → elements s' this fuel = .ok (v :: vals cs)) ∧
      GetSize s' this = .ok (cs.length + 1)) ∧
    (∀ (s0 : Machine α) (l : Nat) (x : α),
      (InsertAfter s0 l ⟨.head l⟩ x).void = PushFront s0 l x) := by
  refine ⟨?_, InsertAfter_head_void⟩
  obtain ⟨o, ho, _, _⟩ := repr_iff.1 h
  obtain ⟨s', hrun, he⟩ := PushFront_effect v hwf h hroom
  have hins := InsertAfter_head_eq v ho hroom
  rw [PushFront_eq v ho hroom] at hrun
  injection hrun with hs _
  rw [hs] at hins
  refine ⟨⟨.head this⟩, s', _, by simp [before_begin, ho], hins, ?_, ?_, ?_⟩
  · rw [← hs]; exact PushFront_eq v ho hroom
  · intro fuel hf
    rw [elements_repr he.repr (by simpa using hf)]
    rfl
  · rw [GetSize_repr he.repr]
    rfl

/-- C15, worked example: inserting 7 at the front of 1, 2, 3 either way. -/
theorem C15_witness :
    (demo3.WF ∧ Repr demo3 0 [(2, 1), (1, 2), (0, 3)] ∧
      demo3.nodes.length < demo3.capacity) ∧
    (∃ bb s' r, before_begin demo3 0 = .ok bb ∧ InsertAfter demo3 0 bb 7 = .ok s' r ∧
      PushFront demo3 0 7 = .ok s' () ∧
      (∀ fuel, [(2, 1), (1, 2), (0, 3)].length + 1 < fuel →
        elements s' 0 fuel = .ok (7 :: vals [(2, 1), (1, 2), (0, 3)])) ∧
      GetSize s' 0 = .ok ([(2, 1), (1, 2), (0, 3)].length + 1)) ∧
    (∀ (s0 : Machine Nat) (l : Nat) (x : Nat),
      (InsertAfter s0 l ⟨.head l⟩ x).void = PushFront s0 l x) :=
  ⟨⟨by decide, by decide, by decide⟩,
    C15_InsertAfter_before_begin_is_PushFront demo3 0 [(2, 1), (1, 2), (0, 3)] 7 (by decide)
      (by decide) (by decide)⟩

/-- C16: for every list, every valid position `it` (index `i ≤ n`: the
sentinel or an element) and every value `v`, `InsertAfter(it, v)` followed at
once by `EraseAfter(it)` leaves the list with the nodes, the element sequence
and the `GetSize()` it had before the insert, and the iterator `EraseAfter`
returns is the one that followed `it` before the insert (`end()` when `it` was
the last position). -/
theorem C16_insert_then_erase (s : Machine α) (this : Nat) (cs : List (Nat × α)) (i : Nat)
    (v : α) (hwf : s.WF) (h : Repr s this cs) (hi : i ≤ cs.length)
    (hroom : s.nodes.length < s.capacity) :
    ∃ it s1 r1 s2 r2, position s this i = .ok it ∧ InsertAfter s this it v = .ok s1 r1 ∧
      EraseAfter s1 this it = .ok s2 r2 ∧ Repr s2 this cs ∧
      (∀ fuel, cs.length < fuel →
        elements s this fuel = .ok (vals cs) ∧ elements s2 this fuel = .ok (vals cs)) ∧
      GetSize s this = .ok cs.length ∧ GetSize s2 this = .ok cs.length ∧
      preIncrement s it = .ok r2 ∧ (i = cs.length → r2 = ⟨.null⟩) := by
  obtain ⟨s1, hrun1, he1⟩ := InsertAfter_effect i v hwf h hi hroom
  have hlen : i < (cs.take i ++ (s.nodes.length, v) :: cs.drop i).length := by
    simp only [List.length_append, List.length_take, List.length_cons, List.length_drop]
    omega
  obtain ⟨s2, hrun2, he2⟩ := EraseAfter_effect i he1.wf he1.repr hlen
  have hpos : posPtr this (cs.take i ++ (s.nodes.length, v) :: cs.drop i) i =
      posPtr this cs i := by
    cases i with
    | zero => rfl
    | succ k =>
      have hk : k < cs.length := hi
      simp only [posPtr]
      rw [List.getElem?_append_left (by rw [List.length_take]; omega),
        List.getElem?_take_of_lt (by omega)]
  have htake : (cs.take i ++ (s.nodes.length, v) :: cs.drop i).take i = cs.take i := by
    rw [List.take_append_eq_append_take]
    simp [List.length_take, Nat.min_eq_left hi]
  have hdrop : (cs.take i ++ (s.nodes.length, v) :: cs.drop i).drop (i + 1) = cs.drop i := by
    rw [List.drop_append_eq_append_drop]
    simp [List.length_take, Nat.min_eq_left hi]
  rw [hpos, hdrop] at hrun2
  have hr2 : Repr s2 this cs := by
    have := he2.repr
    rw [htake, hdrop, List.take_append_drop] at this
    exact this
  refine ⟨⟨posPtr this cs i⟩, s1, _, s2, ⟨firstPtr (cs.drop i)⟩, position_repr h hi, hrun1,
    hrun2, hr2, ?_, GetSize_repr h, GetSize_repr hr2, preIncrement_posPtr h hi, ?_⟩
  · intro fuel hf
    exact ⟨elements_repr h hf, elements_repr hr2 hf⟩
  · intro hlast
    rw [hlast, List.drop_length]
    rfl

/-- C16, worked example: inserting 7 after the first element of 1, 2, 3 and
erasing it again. -/
theorem C16_witness :
    (demo3.WF ∧ Repr demo3 0 [(2, 1), (1, 2), (0, 3)] ∧
      1 ≤ [(2, 1), (1, 2), (0, 3)].length ∧ demo3.nodes.length < demo3.capacity) ∧
    ∃ it s1 r1 s2 r2, position demo3 0 1 = .ok it ∧ InsertAfter demo3 0 it 7 = .ok s1 r1 ∧
      EraseAfter s1 0 it = .ok s2 r2 ∧ Repr s2 0 [(2, 1), (1, 2), (0, 3)] ∧
      (∀ fuel, [(2, 1), (1, 2), (0, 3)].length < fuel →
        elements demo3 0 fuel = .ok (vals [(2, 1), (1, 2), (0, 3)]) ∧
        elements s2 0 fuel = .ok (vals [(2, 1), (1, 2), (0, 3)])) ∧
      GetSize demo3 0 = .ok [(2, 1), (1, 2), (0, 3)].length ∧
      GetSize s2 0 = .ok [(2, 1), (1, 2), (0, 3)].length ∧
      preIncrement demo3 it = .ok r2 ∧ (1 = [(2, 1), (1, 2), (0, 3)].length → r2 = ⟨.null⟩) :=
  ⟨⟨by decide, by decide, by decide, by decide⟩,
    C16_insert_then_erase demo3 0 [(2, 1), (1, 2), (0, 3)] 1 7 (by decide) (by decide)
      (by decide) (by decide)⟩
/-- C17: what the code does where the claim fails.  Called with an empty
sequence of initial values, the initializer-list constructor does not return
an empty list, nor any list: its loop is skipped and the final
`PushFront(*values.begin())` reads the element at the start of an empty
sequence, a read outside the sequence. -/
theorem C17_empty_initializer_list [Inhabited α] (s : Machine α) :
    initConstruct s ([] : List α) = .fault .outOfBounds ∧
      ¬ ∃ s' this, initConstruct s ([] : List α) = .ok s' this := by
  have hrun : initConstruct s ([] : List α) = .fault .outOfBounds := by
    simp [initConstruct, initLoop, construct]
  refine ⟨hrun, ?_⟩
  rintro ⟨s', this, h⟩
  rw [hrun] at h
  cases h

/-- C18, as stated, fails: the post-increment of an iterator that references no
node does not fail an assertion. -/
theorem C18_counterexample :
    ¬ (∀ (s : Machine Nat) (it : BasicIterator), it.node_ = .null →
      preIncrement s it = .error .assertFailed ∧
        postIncrement s it = .error .assertFailed) := by
  intro h
  have h2 := (h demo3 ⟨.null⟩ rfl).2
  revert h2
  decide

/-- C18, amended: advancing an iterator that references no node fails the
assertion in the pre-increment form only; the post-increment form returns
normally, leaves the iterator referencing no node and returns that same
position.  For an iterator that references a node, both forms move it to the
successor of that node, the post-increment returning the old position. -/
theorem C18_increment (s : Machine α) (it : BasicIterator) :
    (it.node_ = .null →
      preIncrement s it = .error .assertFailed ∧
        postIncrement s it = .ok (⟨.null⟩, ⟨.null⟩)) ∧
    (∀ n, it.node_ ≠ .null → readNode s it.node_ = .ok n →
      preIncrement s it = .ok ⟨n.next_node⟩ ∧
        postIncrement s it = .ok (⟨n.next_node⟩, it)) := by
  constructor
  · intro hnull
    simp [preIncrement, postIncrement, hnull]
  · intro n hne hn
    simp [preIncrement, postIncrement, hne, hn]

/-- C18, worked example: the two forms on the no-node position, and on the
iterator to the first element of 1, 2, 3. -/
theorem C18_witness :
    ((⟨.null⟩ : BasicIterator).node_ = .null ∧ (⟨.node 2⟩ : BasicIterator).node_ ≠ .null ∧
      readNode demo3 (⟨.node 2⟩ : BasicIterator).node_ = .ok ⟨1, .node 1⟩) ∧
    (preIncrement demo3 ⟨.null⟩ = .error .assertFailed ∧
      postIncrement demo3 ⟨.null⟩ = .ok (⟨.null⟩, ⟨.null⟩)) ∧
    (preIncrement demo3 ⟨.node 2⟩ = .ok ⟨.node 1⟩ ∧
      postIncrement demo3 ⟨.node 2⟩ = .ok (⟨.node 1⟩, ⟨.node 2⟩)) :=
  ⟨⟨rfl, by decide, by decide⟩,
    (C18_increment demo3 ⟨.null⟩).1 rfl,
    (C18_increment demo3 ⟨.node 2⟩).2 ⟨1, .node 1⟩ (by decide) (by decide)⟩

/-- C19: when creating the new node fails during `InsertAfter(pos, value)` at a
position that references a node or the sentinel, the failure propagates to the
caller and the machine state, so the list with its links, elements and
`GetSize()`, is exactly the prior one; and whenever `InsertAfter` throws, on
any state, the state it leaves is the one it started from. -/
theorem C19_InsertAfter_failure (s : Machine α) (this : Nat) (pos : BasicIterator) (v : α)
    (n : Node α) (hpos : readNode s pos.node_ = .ok n)
    (hfail : newNode s v n.next_node = none) :
    InsertAfter s this pos v = .thrown s ∧
      (∀ (s0 s' : Machine α) (l : Nat) (p : BasicIterator) (x : α),
        InsertAfter s0 l p x = .thrown s' → s' = s0) := by
  refine ⟨?_, fun s0 s' l p x h => InsertAfter_thrown_eq h⟩
  simp [InsertAfter, hpos, hfail]

/-- C19, worked example: on a machine whose free store is exhausted, inserting
after the first element of 1, 2, 3 throws and changes nothing. -/
theorem C19_witness :
    (readNode { demo3 with capacity := 3 } (⟨.node 2⟩ : BasicIterator).node_ =
        .ok ⟨1, .node 1⟩ ∧
      newNode { demo3 with capacity := 3 } 7 (⟨1, .node 1⟩ : Node Nat).next_node = none) ∧
    InsertAfter { demo3 with capacity := 3 } 0 ⟨.node 2⟩ 7 =
        .thrown { demo3 with capacity := 3 } ∧
      (∀ (s0 s' : Machine Nat) (l : Nat) (p : BasicIterator) (x : Nat),
        InsertAfter s0 l p x = .thrown s' → s' = s0) :=
  ⟨⟨by decide, by decide⟩,
    C19_InsertAfter_failure { demo3 with capacity := 3 } 0 ⟨.node 2⟩ 7 ⟨1, .node 1⟩
      (by decide) (by decide)⟩

/-- C20: `operator==` makes no length check: when `lhs` has strictly fewer
elements than `rhs` and every element of `lhs` compares equal to the element
of `rhs` at the same index (`lhs` is a strict prefix of `rhs`, the empty `lhs`
included), `lhs == rhs` returns true and `lhs != rhs` returns false; both
return normally, so no iterator is dereferenced or advanced past the end of
either list. -/
theorem C20_equality_on_strict_prefix [BEq α] (s : Machine α) (lhs rhs : Nat)
    (c1 c2 : List (Nat × α)) (fuel : Nat) (h1 : Repr s lhs c1) (h2 : Repr s rhs c2)
    (hlen : c1.length < c2.length) (hpre : PairwiseEq (vals c1) (vals c2))
    (hf : c1.length < fuel) :
    operator_eq s lhs rhs fuel = .ok true ∧ operator_ne s lhs rhs fuel = .ok false := by
  have hrun := equalCall_repr h1 h2 (Nat.le_of_lt hlen) hf
  rw [(pairsEqual_iff _ _).2 hpre] at hrun
  exact ⟨hrun, by simp only [operator_ne, hrun]; rfl⟩

/-- C20, worked example: the list 1, 2 compares equal to the list 1, 2, 3. -/
theorem C20_witness :
    (Repr demoCmp 0 [(1, 1), (0, 2)] ∧ Repr demoCmp 1 [(4, 1), (3, 2), (2, 3)] ∧
      [(1, 1), (0, 2)].length < [(4, 1), (3, 2), (2, 3)].length ∧
      PairwiseEq (vals [(1, 1), (0, 2)]) (vals [(4, 1), (3, 2), (2, 3)]) ∧
      [(1, 1), (0, 2)].length < 3) ∧
    operator_eq demoCmp 0 1 3 = .ok true ∧ operator_ne demoCmp 0 1 3 = .ok false :=
  ⟨⟨by decide, by decide, by decide, (pairsEqual_iff _ _).1 (by decide), by decide⟩,
    C20_equality_on_strict_prefix demoCmp 0 1 [(1, 1), (0, 2)] [(4, 1), (3, 2), (2, 3)] 3
      (by decide) (by decide) (by decide) ((pairsEqual_iff _ _).1 (by decide)) (by decide)⟩

end SLL
